import Mathlib

/-!
# geodns zone ingestion (`zones.go`): a shallow embedding

The definitions below follow `zones.go` function by function.

* Go `interface{}` values produced by `encoding/json` are the type `JValue`.
* A Go `panic` is a returned `ZoneError`; functions that mutate the zone before
  panicking return the mutated state next to the error, because `readZoneFile`
  recovers the panic and hands the partially built zone back to its caller.
* Go maps are total functions into `Option` (or into `Int` for the weight map,
  whose missing keys read as 0); a `range` loop over a JSON object visits the
  entries in the order of the list that models the object.
* Go `int` is 64 bits wide; arithmetic that can overflow goes through `wrapInt`.
* Functions of external libraries (`net.ParseIP`, `dns.NewRR`, `sort.Sort`,
  `dns.LenLabels`) are the fields of `Lib`.
* `dns.HandleFunc` and `dns.HandleRemove` panic on the empty pattern. Nothing in
  `zonesReadDir` recovers that panic, so a cycle is an `Except`: it returns its
  results, or it panics and returns nothing.
-/

set_option linter.dupNamespace false

namespace GeoDNS

/-! ## Go values -/

/-- A finite float64, by its value `mant * 2 ^ exp`. Every finite float64 has this
form; `encoding/json` never decodes a number to an infinity or a NaN. -/
structure Float64 where
  mant : Int
  exp : Int

/-- The value that `encoding/json` decodes into an `interface{}`: `nil`, `bool`,
`float64`, `string`, `[]interface{}` or `map[string]interface{}`. -/
inductive JValue where
  | null : JValue
  | bool (b : Bool) : JValue
  | num (x : Float64) : JValue
  | str (s : String) : JValue
  | arr (xs : List JValue) : JValue
  | obj (kvs : List (String × JValue)) : JValue

/-- The panics of `zones.go`, one constructor for each `panic` call and each
run-time failure (failed type assertion, index out of range). -/
inductive ZoneError where
  | convertWeight
  | cantConvert
  | typeAssertion
  | indexOutOfRange
  | badA
  | badAAAA
  | unrecognizedNS
  | unknownType
  | nilRR
  | soa
  | jsonDecode
  | openFile
  | readDir
  | invalidPattern
deriving DecidableEq, Repr

/-- Go `int` on a 64-bit platform: the two's complement value of an integer. -/
def wrapInt (x : Int) : Int := (x + 2 ^ 63) % 2 ^ 64 - 2 ^ 63

/-- The bounds of Go `int`. -/
def inIntRange (x : Int) : Prop := -2 ^ 63 ≤ x ∧ x < 2 ^ 63

instance (x : Int) : Decidable (inIntRange x) := by
  unfold inIntRange; exact inferInstance

/-- The integer part of a float64, fraction discarded. -/
def Float64.trunc (x : Float64) : Int :=
  if 0 ≤ x.exp then x.mant * 2 ^ x.exp.toNat else Int.tdiv x.mant (2 ^ (-x.exp).toNat)

/-- Go `int(f)` for a float64 `f`: the fraction is discarded; a value outside the
range of `int` gives the "integer indefinite" value `-2^63` (amd64). -/
def Float64.toInt (x : Float64) : Int :=
  if inIntRange x.trunc then x.trunc else -2 ^ 63

/-! ## strconv -/

/-- The value of an ASCII decimal digit. -/
def digitVal (c : Char) : Option Nat :=
  if 48 ≤ c.toNat ∧ c.toNat ≤ 57 then some (c.toNat - 48) else none

/-- The digit loop of `strconv.ParseInt` in base 10: `n = n*10 + d`, an error at
the first byte that is not a digit. -/
def parseDigits : List Char → Nat → Option Nat
  | [], acc => some acc
  | c :: cs, acc =>
    match digitVal c with
    | none => none
    | some d => parseDigits cs (acc * 10 + d)

/-- Go `strconv.Atoi`: an optional sign, then one or more decimal digits, and the
value must fit `int`; `none` is a returned error. -/
def Atoi (s : String) : Option Int :=
  match s.data with
  | [] => none
  | c :: cs =>
    let neg := c = '-'
    let ds := if c = '-' ∨ c = '+' then cs else c :: cs
    match ds with
    | [] => none
    | _ :: _ =>
      match parseDigits ds 0 with
      | none => none
      | some n =>
        let v : Int := if neg then -(n : Int) else (n : Int)
        if inIntRange v then some v else none

/-- Go `strconv.Itoa`. -/
def Itoa (n : Int) : String := Int.repr n

/-! ## valueToInt -/

/-- The function `valueToInt` of `zones.go`. -/
def valueToInt (v : JValue) : Except ZoneError Int :=
  match v with
  | .str s =>
    match Atoi s with
    | none => .error .convertWeight
    | some i => .ok i
  | .num x => .ok x.toInt
  | _ => .error .cantConvert

/-! ## strings and dns name helpers -/

/-- Go `strings.HasSuffix`. -/
def HasSuffix (s suffix : String) : Bool := suffix.data.isSuffixOf s.data

/-- Go `strings.ToLower`, on the ASCII letters. No other character lowers to one
of the characters of `.json`, the only text the result is compared with. -/
def ToLower (s : String) : String := ⟨s.data.map Char.toLower⟩

/-- The function `dns.IsFqdn`: the name is not empty and its last byte is a dot. -/
def IsFqdn (s : String) : Bool := s.data.getLast? == some '.'

/-- The function `dns.Fqdn`: the name itself when it is fully qualified, else the
name with a dot appended. -/
def Fqdn (s : String) : String := if IsFqdn s then s else s ++ "."

/-! ## dns resource records (`github.com/miekg/dns`) -/

/-- A `net.IP`, the bytes of the address. -/
abbrev IP := List Nat

abbrev TypeA : Nat := 1
abbrev TypeNS : Nat := 2
abbrev TypeMF : Nat := 4
abbrev TypeCNAME : Nat := 5
abbrev TypeSOA : Nat := 6
abbrev TypeMX : Nat := 15
abbrev TypeAAAA : Nat := 28
abbrev ClassINET : Nat := 1

/-- The struct `dns.RR_Header`; `Rrtype` and `Class` are uint16, `Ttl` is uint32. -/
structure RR_Header where
  Name : String
  Rrtype : Nat
  Class : Nat
  Ttl : Nat
deriving DecidableEq, Repr

/-- The variants of `dns.RR` that `zones.go` builds or receives from `dns.NewRR`. -/
inductive RR where
  | A (Hdr : RR_Header) (A : IP)
  | AAAA (Hdr : RR_Header) (AAAA : IP)
  | NS (Hdr : RR_Header) (Ns : String)
  | CNAME (Hdr : RR_Header) (Target : String)
  | MX (Hdr : RR_Header) (Mx : String) (Preference : Nat)
  | MF (Hdr : RR_Header) (Mf : String)
  | SOA (Hdr : RR_Header) (Ns Mbox : String) (Serial Refresh Retry Expire Minttl : Nat)
deriving DecidableEq, Repr

/-- The header of a resource record. -/
def RR.Hdr : RR → RR_Header
  | .A h _ => h
  | .AAAA h _ => h
  | .NS h _ => h
  | .CNAME h _ => h
  | .MX h _ _ => h
  | .MF h _ => h
  | .SOA h _ _ _ _ _ _ _ => h

/-! ## Zone, Label, Record -/

/-- Modelled from the spec: the struct `Record` is declared outside `zones.go`.
One resource record with its weight; `RR` is `none` for the zero value, which a
slot made by `make(Records, n)` holds until the record is stored. -/
structure Record where
  RR : Option RR
  Weight : Int
deriving DecidableEq, Repr

/-- Modelled from the spec: the slice type `Records` is declared outside `zones.go`. -/
abbrev Records := List Record

/-- The zero value of `Record`. -/
def zeroRecord : Record := ⟨none, 0⟩

/-- Modelled from the spec: the method `Less` of `RecordsByWeight` is declared
outside `zones.go`. Records are ordered by descending weight: a record sorts
before another when its weight is greater. -/
def RecordsByWeight.Less (a b : Record) : Bool := decide (a.Weight > b.Weight)

/-- Modelled from the spec: the struct `Label` is declared outside `zones.go`.
`Records` maps a record kind to its sequence, `Weight` a record kind to the sum of
its records' weights (a missing key reads as 0). -/
structure Label where
  Label : String
  MaxHosts : Int
  Ttl : Int
  Records : Nat → Option Records
  Weight : Nat → Int

/-- Modelled from the spec: the options of a zone, declared outside `zones.go`. -/
structure ZoneOptions where
  Serial : Int
  Ttl : Int
  MaxHosts : Int
  Contact : String
deriving DecidableEq, Repr

/-- Modelled from the spec: the struct `Zone` is declared outside `zones.go`.
`LastRead` is a time, counted from the zero `time.Time`. -/
structure Zone where
  Origin : String
  Labels : String → Option Label
  LenLabels : Nat
  Options : ZoneOptions
  LastRead : Int

/-- Modelled from the spec: the registry type `Zones`, a map from zone name to
zone, is declared outside `zones.go`. -/
abbrev Zones := String → Option Zone

/-- The value of `new(Zone)`: every field zero, no labels. -/
def emptyZone : Zone := ⟨"", fun _ => none, 0, ⟨0, 0, 0, ""⟩, 0⟩

/-- The functions of external libraries that `zones.go` calls. `SortSort` is
`sort.Sort` on `RecordsByWeight`, `NewRR` parses the text of a resource record. -/
structure Lib where
  ParseIP : String → Option IP
  NewRR : String → Option RR
  SortSort : Records → Records
  LenLabels : String → Nat

/-- The documented contract of `sort.Sort`: the result holds the same elements and
no element is `Less` than one that stands before it. Stability is not promised. -/
def Lib.SortOk (lib : Lib) : Prop :=
  ∀ rs : Records, (lib.SortSort rs).Perm rs ∧
    (lib.SortSort rs).Pairwise (fun a b => RecordsByWeight.Less b a = false)

/-- Modelled from the spec: the method `Zone.AddLabel` is declared outside
`zones.go`. It stores a fresh label named `k`, without records, under the key
`k`; the label starts from the zone defaults, so that its `Ttl` is the effective
TTL the record builders receive. -/
def AddLabel (z : Zone) (k : String) : Zone × Label :=
  let label : Label := ⟨k, z.Options.MaxHosts, z.Options.Ttl, fun _ => none, fun _ => 0⟩
  ({ z with Labels := Function.update z.Labels k (some label) }, label)

/-- A write through the label pointer that `Zone.Labels` holds under `k`. -/
def storeLabel (z : Zone) (k : String) (label : Label) : Zone :=
  { z with Labels := Function.update z.Labels k (some label) }

/-! ## setupZoneData: the record builders -/

/-- The map `recordTypes` of `setupZoneData`, in the order the loop visits it. -/
def recordTypes : List (String × Nat) :=
  [("a", TypeA), ("aaaa", TypeAAAA), ("ns", TypeNS), ("cname", TypeCNAME),
   ("mx", TypeMX), ("alias", TypeMF)]

/-- One element of `records[rType]`: a decoded JSON value, or the `[]string` pair
that the map syntax is rewritten to. -/
inductive RawEntry where
  | val (v : JValue)
  | strs (xs : List String)

/-- The loop over a map-valued `rdata`: each entry becomes the pair
`[]string{key, value}`, a `nil` value reads as the empty string, and the type
assertion `rdata_v.(string)` panics on any other value. -/
def mapEntries : List (String × JValue) → Except ZoneError (List RawEntry)
  | [] => .ok []
  | (k, v) :: rest =>
    match v with
    | .null =>
      match mapEntries rest with
      | .error e => .error e
      | .ok tmp => .ok (.strs [k, ""] :: tmp)
    | .str sv =>
      match mapEntries rest with
      | .error e => .error e
      | .ok tmp => .ok (.strs [k, sv] :: tmp)
    | _ => .error .typeAssertion

/-- The type switch on `rdata` that fills `records[rType]`. -/
def rawRecords (rdata : JValue) : Except ZoneError (List RawEntry) :=
  match rdata with
  | .obj kvs => mapEntries kvs
  | .str sv => .ok [.val (.str sv)]
  | .arr xs => .ok (xs.map .val)
  | _ => .error .typeAssertion

/-- The weight of an A or AAAA entry: read only when the entry has a second
element, from a string through `strconv.Atoi` or from a number; a second element
of another type is skipped by the type switch. -/
def addressWeight (rest : List JValue) : Except ZoneError Int :=
  match rest with
  | [] => .ok 0
  | .str w :: _ =>
    match Atoi w with
    | none => .error .convertWeight
    | some i => .ok i
  | .num x :: _ => .ok x.toInt
  | _ :: _ => .ok 0

/-- The case `dns.TypeA, dns.TypeAAAA` of the switch on `dnsType`. -/
def buildAddress (lib : Lib) (dnsType : Nat) (h : RR_Header) (entry : RawEntry) :
    Except ZoneError Record :=
  match entry with
  | .val (.arr (.str ip :: rest)) =>
    match addressWeight rest with
    | .error e => .error e
    | .ok weight =>
      match lib.ParseIP ip with
      | some x => .ok ⟨some (if dnsType = TypeA then RR.A h x else RR.AAAA h x), weight⟩
      | none => .error (if dnsType = TypeA then .badA else .badAAAA)
  | .val (.arr []) => .error .indexOutOfRange
  | _ => .error .typeAssertion

/-- A field of an MX entry that goes through `valueToInt` when it is present and
not `nil`, and is 0 otherwise. -/
def optionalInt (rec : List (String × JValue)) (key : String) : Except ZoneError Int :=
  match rec.lookup key with
  | none => .ok 0
  | some .null => .ok 0
  | some v => valueToInt v

/-- The case `dns.TypeMX` of the switch on `dnsType`. -/
def buildMX (h : RR_Header) (entry : RawEntry) : Except ZoneError Record :=
  match entry with
  | .val (.obj rec) =>
    match rec.lookup "mx" with
    | some (.str mx) =>
      let mx := if HasSuffix mx "." then mx else mx ++ "."
      match optionalInt rec "weight" with
      | .error e => .error e
      | .ok weight =>
        match optionalInt rec "preference" with
        | .error e => .error e
        | .ok pref => .ok ⟨some (RR.MX h mx (pref % 2 ^ 16).toNat), weight⟩
    | _ => .error .typeAssertion
  | _ => .error .typeAssertion

/-- The case `dns.TypeCNAME` of the switch on `dnsType`. -/
def buildCNAME (origin : String) (h : RR_Header) (entry : RawEntry) :
    Except ZoneError Record :=
  match entry with
  | .val (.str target) =>
    let target := if IsFqdn target then target else target ++ "." ++ origin
    .ok ⟨some (RR.CNAME h (Fqdn target)), 0⟩
  | _ => .error .typeAssertion

/-- The case `dns.TypeMF` of the switch on `dnsType`: aliases are stored as given. -/
def buildMF (h : RR_Header) (entry : RawEntry) : Except ZoneError Record :=
  match entry with
  | .val (.str target) => .ok ⟨some (RR.MF h target), 0⟩
  | _ => .error .typeAssertion

/-- The case `dns.TypeNS` of the switch on `dnsType`: the TTL is raised to 86400,
the name is a string or the first element of a `[]string` pair. -/
def buildNS (h : RR_Header) (entry : RawEntry) : Except ZoneError Record :=
  let h := if h.Ttl < 86400 then { h with Ttl := 86400 } else h
  match entry with
  | .val (.str ns) => .ok ⟨some (RR.NS h (Fqdn ns)), 0⟩
  | .strs (ns :: _ :: _) => .ok ⟨some (RR.NS h (Fqdn ns)), 0⟩
  | .strs _ => .error .indexOutOfRange
  | _ => .error .unrecognizedNS

/-- The header every record of a label starts from: `h.Ttl = uint32(label.Ttl)`,
class INET, the record kind, and the name `label.Label + "." + Zone.Origin + "."`. -/
def recordHeader (dnsType : Nat) (label : Label) (origin : String) : RR_Header :=
  { Name := label.Label ++ "." ++ origin ++ ".", Rrtype := dnsType, Class := ClassINET,
    Ttl := (label.Ttl % 2 ^ 32).toNat }

/-- The body of the loop over `records[rType]` up to the check of `record.RR`: the
record built from one raw entry. -/
def buildRecord (lib : Lib) (dnsType : Nat) (label : Label) (origin : String)
    (entry : RawEntry) : Except ZoneError Record :=
  let h := recordHeader dnsType label origin
  if dnsType = TypeA ∨ dnsType = TypeAAAA then buildAddress lib dnsType h entry
  else if dnsType = TypeMX then buildMX h entry
  else if dnsType = TypeCNAME then buildCNAME origin h entry
  else if dnsType = TypeMF then buildMF h entry
  else if dnsType = TypeNS then buildNS h entry
  else .error .unknownType

/-- The two statements that end the loop body:
`label.Weight[dnsType] += record.Weight` and `label.Records[dnsType][i] = *record`. -/
def storeRecord (label : Label) (dnsType i : Nat) (record : Record) : Label :=
  { label with
    Weight := Function.update label.Weight dnsType
      (wrapInt (label.Weight dnsType + record.Weight))
    Records := Function.update label.Records dnsType
      ((label.Records dnsType).map (fun rs => rs.set i record)) }

/-- The loop `for i := 0; i < len(records[rType]); i++` from index `i` on. The
label is returned as the loop left it, also when an entry panics. -/
def buildRecords (lib : Lib) (dnsType : Nat) (origin : String) :
    List RawEntry → Nat → Label → Label × Option ZoneError
  | [], _, label => (label, none)
  | entry :: rest, i, label =>
    match buildRecord lib dnsType label origin entry with
    | .error e => (label, some e)
    | .ok record =>
      match record.RR with
      | none => (label, some .nilRR)
      | some _ => buildRecords lib dnsType origin rest (i + 1) (storeRecord label dnsType i record)

/-- The body of the loop `for rType, dnsType := range recordTypes` once `rdata` is
known not to be `nil`: the raw entries are collected, the slice
`label.Records[dnsType]` is made, every record is built and stored, and the slice
is sorted when the accumulated weight is positive. -/
def setupRecords (lib : Lib) (origin : String) (label : Label) (dnsType : Nat)
    (rdata : JValue) : Label × Option ZoneError :=
  match rawRecords rdata with
  | .error e => (label, some e)
  | .ok records =>
    let label1 : Label := { label with
      Records := Function.update label.Records dnsType
        (some (List.replicate records.length zeroRecord)) }
    match buildRecords lib dnsType origin records 0 label1 with
    | (label2, some e) => (label2, some e)
    | (label2, none) =>
      if label2.Weight dnsType > 0 then
        ({ label2 with
           Records := Function.update label2.Records dnsType
             ((label2.Records dnsType).map lib.SortSort) }, none)
      else (label2, none)

/-- One round of the loop `for rType, dnsType := range recordTypes` for a label
with the raw definition `dv`: a kind without a value, or with `nil`, is skipped. -/
def setupRecordType (lib : Lib) (origin : String) (dv : List (String × JValue))
    (label : Label) (rt : String × Nat) : Label × Option ZoneError :=
  match dv.lookup rt.1 with
  | none => (label, none)
  | some .null => (label, none)
  | some rdata => setupRecords lib origin label rt.2 rdata

/-- The loop `for rType, dnsType := range recordTypes`. -/
def setupRecordTypes (lib : Lib) (origin : String) (dv : List (String × JValue)) :
    List (String × Nat) → Label → Label × Option ZoneError
  | [], label => (label, none)
  | rt :: rest, label =>
    match setupRecordType lib origin dv label rt with
    | (label1, some e) => (label1, some e)
    | (label1, none) => setupRecordTypes lib origin dv rest label1

/-- An optional integer override of a label, `ttl` or `max_hosts`: present keys go
through `valueToInt`, a `nil` value included. -/
def labelOverride (dv : List (String × JValue)) (key : String) (current : Int) :
    Except ZoneError Int :=
  match dv.lookup key with
  | none => .ok current
  | some v => valueToInt v

/-- One round of the loop `for dk, dv_inter := range data`. -/
def setupLabel (lib : Lib) (zone : Zone) (dk : String) (dv_inter : JValue) :
    Zone × Option ZoneError :=
  match dv_inter with
  | .obj dv =>
    let (zone1, label) := AddLabel zone dk
    match labelOverride dv "ttl" label.Ttl with
    | .error e => (zone1, some e)
    | .ok ttl =>
      let label1 : Label := { label with Ttl := ttl }
      match labelOverride dv "max_hosts" label1.MaxHosts with
      | .error e => (storeLabel zone1 dk label1, some e)
      | .ok maxHosts =>
        let label2 : Label := { label1 with MaxHosts := maxHosts }
        match setupRecordTypes lib zone.Origin dv recordTypes label2 with
        | (label3, err) => (storeLabel zone1 dk label3, err)
  | _ => (zone, some .typeAssertion)

/-- The loop `for dk, dv_inter := range data`. -/
def setupLabels (lib : Lib) : List (String × JValue) → Zone → Zone × Option ZoneError
  | [], zone => (zone, none)
  | (dk, dv_inter) :: rest, zone =>
    match setupLabel lib zone dk dv_inter with
    | (zone1, some e) => (zone1, some e)
    | (zone1, none) => setupLabels lib rest zone1

/-! ## setupSOA -/

/-- The name of the primary nameserver that `setupSOA` picks: `"ns"`, or when the
label has an entry for the NS kind the `Ns` of `record[0]`. -/
def primaryNs (label : Label) : Except ZoneError String :=
  match label.Records TypeNS with
  | none => .ok "ns"
  | some [] => .error .indexOutOfRange
  | some (record0 :: _) =>
    match record0.RR with
    | some (.NS _ ns) => .ok ns
    | _ => .error .typeAssertion

/-- The text of the SOA record that `setupSOA` hands to `dns.NewRR`. -/
def soaText (origin primaryNs contact : String) (serial ttl : Int) : String :=
  origin ++ ". 3600 IN SOA " ++ primaryNs ++ " " ++ contact ++ " " ++ Itoa serial ++
    " 5400 5400 2419200 " ++ Itoa ttl

/-- The function `setupSOA` of `zones.go`. -/
def setupSOA (lib : Lib) (zone : Zone) : Zone × Option ZoneError :=
  let (zone1, label) :=
    match zone.Labels "" with
    | some label => (zone, label)
    | none => AddLabel zone ""
  match primaryNs label with
  | .error e => (zone1, some e)
  | .ok ns =>
    match lib.NewRR (soaText zone1.Origin ns zone1.Options.Contact zone1.Options.Serial
        zone1.Options.Ttl) with
    | none => (zone1, some .soa)
    | some rr =>
      (storeLabel zone1 ""
        { label with Records := Function.update label.Records TypeSOA (some [⟨some rr, 0⟩]) },
       none)

/-- The function `setupZoneData` of `zones.go`; a missing `data` is the empty list. -/
def setupZoneData (lib : Lib) (data : List (String × JValue)) (zone : Zone) :
    Zone × Option ZoneError :=
  match setupLabels lib data zone with
  | (zone1, some e) => (zone1, some e)
  | (zone1, none) => setupSOA lib zone1

/-! ## readZoneFile -/

/-- What `readZoneFile` finds under a file name: a file that cannot be opened, a
text that `encoding/json` cannot decode into a `map[string]interface{}`, or the
decoded top-level object (the JSON text `null` decodes to the empty map). -/
inductive ZoneFile where
  | unreadable
  | badJSON
  | object (objmap : List (String × JValue))

/-- The loop `for k, v := range objmap` of `readZoneFile`: the four options are
written into the zone, `data` is kept, other keys are skipped. -/
def readOptions : List (String × JValue) → Zone → List (String × JValue) →
    Zone × Except ZoneError (List (String × JValue))
  | [], zone, data => (zone, .ok data)
  | (k, v) :: rest, zone, data =>
    if k = "ttl" then
      match valueToInt v with
      | .error e => (zone, .error e)
      | .ok n => readOptions rest { zone with Options := { zone.Options with Ttl := n } } data
    else if k = "serial" then
      match valueToInt v with
      | .error e => (zone, .error e)
      | .ok n => readOptions rest { zone with Options := { zone.Options with Serial := n } } data
    else if k = "contact" then
      match v with
      | .str c => readOptions rest { zone with Options := { zone.Options with Contact := c } } data
      | _ => (zone, .error .typeAssertion)
    else if k = "max_hosts" then
      match valueToInt v with
      | .error e => (zone, .error e)
      | .ok n => readOptions rest { zone with Options := { zone.Options with MaxHosts := n } } data
    else if k = "data" then
      match v with
      | .obj d => readOptions rest zone d
      | _ => (zone, .error .typeAssertion)
    else readOptions rest zone data

/-- The zone `readZoneFile` starts from: no labels, the origin, and the default
options (ttl 120, max_hosts 2, the default contact). -/
def newZone (lib : Lib) (zoneName : String) : Zone :=
  { emptyZone with
    Origin := zoneName
    LenLabels := lib.LenLabels zoneName
    Options := ⟨0, 120, 2, "support.bitnames.com"⟩ }

/-- The function `readZoneFile` of `zones.go`, on the content found under the file
name. The pair is the Go result `(zone, zerr)`: a decoding error returns
`nil, err`; a panic after `zone = new(Zone)` is recovered and leaves the zone as
built so far in the named result. -/
def readZoneFile (lib : Lib) (zoneName : String) (file : ZoneFile) :
    Option Zone × Option ZoneError :=
  match file with
  | .unreadable => (none, some .openFile)
  | .badJSON => (none, some .jsonDecode)
  | .object objmap =>
    match readOptions objmap (newZone lib zoneName) [] with
    | (zone1, .error e) => (some zone1, some e)
    | (zone1, .ok data) =>
      match setupZoneData lib data zone1 with
      | (zone2, err) => (some zone2, err)

/-! ## zonesReadDir -/

/-- An entry of the directory listing: the file name and its modification time. -/
structure FileInfo where
  Name : String
  ModTime : Int
deriving DecidableEq, Repr

/-- The function `zoneNameFromFile`: the file name up to its last dot. It is called
on names that end in `.json` only. -/
def zoneNameFromFile (fileName : String) : String :=
  ⟨((fileName.data.reverse.dropWhile (fun c => c != '.')).drop 1).reverse⟩

/-- The variables of one `zonesReadDir` cycle; `compiled` lists the files handed
to `readZoneFile`, latest first. -/
structure DirState where
  zones : Zones
  seenZones : List String
  parse_err : Option ZoneError
  compiled : List String

/-- The test `!ok || file.ModTime().After(zone.LastRead)`. -/
def needsRead (zones : Zones) (zoneName : String) (file : FileInfo) : Bool :=
  match zones zoneName with
  | none => true
  | some zone => decide (file.ModTime > zone.LastRead)

/-- The function `dns.HandleFunc` of the library `miekg/dns`, as far as a cycle
depends on it: `ServeMux.Handle` panics with `dns: invalid pattern` on the empty
pattern and registers the handler on every other one. The result is the panic. -/
def HandleFunc (pattern : String) : Option ZoneError :=
  if pattern = "" then some .invalidPattern else none

/-- The function `dns.HandleRemove` of the library `miekg/dns`, as far as a cycle
depends on it: it panics with `dns: invalid pattern` on the empty pattern and
removes the handler on every other one. The result is the panic. -/
def HandleRemove (pattern : String) : Option ZoneError :=
  if pattern = "" then some .invalidPattern else none

/-- The function `addHandler` of `zones.go`: the registry is written first, then
`dns.HandleFunc` is called, whose panic is returned next to the registry. -/
def addHandler (zones : Zones) (name : String) (config : Zone) : Zones × Option ZoneError :=
  (Function.update zones name (some config), HandleFunc name)

/-- One round of the loop `for _, file := range dir`. `fs` gives the content found
under each file name of the directory. A panic of `addHandler` is recovered
nowhere: the round, and with it `zonesReadDir`, does not return. -/
def readDirFile (lib : Lib) (fs : String → ZoneFile) (st : DirState) (file : FileInfo) :
    Except ZoneError DirState :=
  let fileName := file.Name
  if HasSuffix (ToLower fileName) ".json" then
    let zoneName := zoneNameFromFile fileName
    let st1 : DirState := { st with seenZones := zoneName :: st.seenZones }
    if needsRead st.zones zoneName file then
      let st2 : DirState := { st1 with compiled := fileName :: st1.compiled }
      match readZoneFile lib zoneName (fs fileName) with
      | (some config, none) =>
        match addHandler st2.zones zoneName { config with LastRead := file.ModTime } with
        | (zones1, none) => .ok { st2 with zones := zones1 }
        | (_, some e) => .error e
      | (config, err) =>
        .ok { st2 with
          zones := Function.update st2.zones zoneName
            (some { config.getD emptyZone with LastRead := file.ModTime })
          parse_err := err }
    else .ok st1
  else .ok st

/-- The loop `for _, file := range dir` of `zonesReadDir`: the rounds in the
order of the listing, up to the first one that panics. -/
def readDirFiles (lib : Lib) (fs : String → ZoneFile) :
    List FileInfo → DirState → Except ZoneError DirState
  | [], st => .ok st
  | file :: rest, st =>
    match readDirFile lib fs st file with
    | .ok st1 => readDirFiles lib fs rest st1
    | .error e => .error e

/-- One round of the loop `for zoneName, zone := range zones` that ends
`zonesReadDir`, for a name that has an entry: the entry is kept when the name is
`pgeodns` or was seen in the listing; else `dns.HandleRemove` is called and, when
it returns, the entry is deleted. The result tells whether the entry is deleted. -/
def pruneZone (seenZones : List String) (zoneName : String) : Except ZoneError Bool :=
  if zoneName = "pgeodns" then .ok false
  else if zoneName ∈ seenZones then .ok false
  else
    match HandleRemove zoneName with
    | some e => .error e
    | none => .ok true

/-- The loop `for zoneName, zone := range zones` that ends `zonesReadDir`. The
rounds do not depend on one another, and `dns.HandleRemove` panics on the empty
name only, so the loop panics exactly when the round of an entry under the empty
name does; else every entry whose round says so is deleted. -/
def pruneZones (zones : Zones) (seenZones : List String) : Except ZoneError Zones :=
  match zones "", pruneZone seenZones "" with
  | some _, .error e => .error e
  | _, _ =>
    .ok (fun zoneName =>
      match pruneZone seenZones zoneName with
      | .ok false => zones zoneName
      | _ => none)

/-- The function `zonesReadDir` of `zones.go`: `dir` is the result of
`ioutil.ReadDir`, `none` when the directory cannot be read. When the function
returns, the result is the registry after the cycle, the returned error, and the
files that were compiled; `.error` is a panic that leaves `zonesReadDir`. -/
def zonesReadDir (lib : Lib) (fs : String → ZoneFile) (dir : Option (List FileInfo))
    (zones : Zones) : Except ZoneError (Zones × Option ZoneError × List String) :=
  match dir with
  | none => .ok (zones, some .readDir, [])
  | some files =>
    match readDirFiles lib fs files ⟨zones, [], none, []⟩ with
    | .error e => .error e
    | .ok st =>
      match pruneZones st.zones st.seenZones with
      | .error e => .error e
      | .ok zones1 => .ok (zones1, st.parse_err, st.compiled)

/-- The function `setupPgeodnsZone` of `zones.go`; a panic of `setupSOA` is not
recovered here and leaves the registry as it was. -/
def setupPgeodnsZone (lib : Lib) (zones : Zones) : Zones × Option ZoneError :=
  let zoneName := "pgeodns"
  let label : Label := ⟨"", 0, 0, fun _ => none, fun _ => 0⟩
  let zone : Zone :=
    { emptyZone with
      Labels := Function.update (fun _ => none) "" (some label)
      Origin := zoneName
      LenLabels := lib.LenLabels zoneName }
  match setupSOA lib zone with
  | (zone1, none) => addHandler zones zoneName zone1
  | (_, some e) => (zones, some e)

/-! ## The words of the specification about `valueToInt` -/

/-- The rational number a float64 holds. -/
def Float64.toRat (x : Float64) : ℚ := (x.mant : ℚ) * (2 : ℚ) ^ x.exp

/-- A rational truncated toward zero: rounded down when it is not negative, up
when it is. -/
def truncTowardZero (q : ℚ) : Int := if 0 ≤ q then ⌊q⌋ else ⌈q⌉

/-- The characters of a string after an optional leading sign. -/
def literalDigits (s : String) : List Char :=
  match s.data with
  | [] => []
  | c :: cs => if c = '-' ∨ c = '+' then cs else c :: cs

/-- A base-10 integer literal: an optional sign, then one or more decimal digits. -/
def isIntLiteral (s : String) : Bool :=
  !(literalDigits s).isEmpty && (literalDigits s).all Char.isDigit

/-- The integer a base-10 literal denotes: its digits read in base 10, negated
after a minus sign. -/
def literalValue (s : String) : Int :=
  let n : Nat := Nat.ofDigits 10 ((literalDigits s).reverse.map (fun c => c.toNat - 48))
  if s.data.head? = some '-' then -(n : Int) else (n : Int)


/-! ## What a compiled label holds -/

/-- The value of `label.Weight[dnsType]` after `+= record.Weight` for each record
of `rs` in turn, starting from `start`. -/
def weightSum (start : Int) (rs : Records) : Int :=
  rs.foldl (fun acc r => wrapInt (acc + r.Weight)) start

/-- The slots of `rs` from index `i` on, overwritten by `built` one by one. -/
def setFrom (rs : Records) (i : Nat) (built : List Record) : Records :=
  match built with
  | [] => rs
  | r :: more => setFrom (rs.set i r) (i + 1) more

/-- What the loop over `recordTypes` leaves in a label for one kind when it ends
without a panic: nothing when the label's definition `dv` has no value for the
kind; else the records built from the raw entries, in input order when the
accumulated weight is not positive and as `sort.Sort` returns them when it is. -/
def KindCompiled (lib : Lib) (origin : String) (dv : List (String × JValue))
    (label : Label) (rt : String × Nat) : Prop :=
  ((dv.lookup rt.1 = none ∨ dv.lookup rt.1 = some .null) ∧
      label.Records rt.2 = none ∧ label.Weight rt.2 = 0) ∨
  ∃ rdata entries built,
    dv.lookup rt.1 = some rdata ∧ rawRecords rdata = .ok entries ∧
    List.Forall₂ (fun e r => buildRecord lib rt.2 label origin e = .ok r) entries built ∧
    label.Weight rt.2 = weightSum 0 built ∧
    label.Records rt.2 = some (if weightSum 0 built > 0 then lib.SortSort built else built)

/-- What one round of the loop over `data` leaves in the label `dk` with the
definition `dv`, in a zone with the options `opts`. -/
def LabelCompiled (lib : Lib) (origin : String) (opts : ZoneOptions) (dk : String)
    (dv : List (String × JValue)) (label : Label) : Prop :=
  label.Label = dk ∧
  labelOverride dv "ttl" opts.Ttl = .ok label.Ttl ∧
  labelOverride dv "max_hosts" opts.MaxHosts = .ok label.MaxHosts ∧
  (∀ rt ∈ recordTypes, KindCompiled lib origin dv label rt) ∧
  (∀ t, t ∉ recordTypes.map Prod.snd → label.Weight t = 0)

/-! ## A stand-in for the external libraries

The theorems below hold for every `Lib`. To evaluate the definitions on concrete
zone files a `Lib` is needed; `demoLib` is a small one. -/

/-- The addresses `demoLib` parses: three IPv4 literals and one IPv6 literal. -/
def demoParseIP (s : String) : Option IP :=
  if s = "192.0.2.1" then some [192, 0, 2, 1]
  else if s = "192.0.2.2" then some [192, 0, 2, 2]
  else if s = "192.0.2.3" then some [192, 0, 2, 3]
  else if s = "2001:db8::1" then some [32, 1, 13, 184, 0, 0, 0, 0, 0, 0, 0, 0, 0, 0, 0, 1]
  else none

/-- The words of a text, split at every blank. -/
def splitBlanks : List Char → List (List Char)
  | [] => [[]]
  | c :: cs =>
    match splitBlanks cs with
    | [] => [[]]
    | w :: ws => if c = ' ' then [] :: w :: ws else (c :: w) :: ws

/-- An unsigned decimal number, as a word of a record text. -/
def parseNumber (w : List Char) : Option Nat :=
  match w with
  | [] => none
  | _ :: _ => parseDigits w 0

/-- The SOA texts `demoLib` parses: eleven words, `name ttl IN SOA ns mbox serial
refresh retry expire minttl`, every number unsigned. -/
def demoNewRR (s : String) : Option RR :=
  match splitBlanks s.data with
  | [name, ttl, cls, typ, ns, mbox, serial, refresh, retry, expire, minttl] =>
    if cls = "IN".data ∧ typ = "SOA".data then
      match parseNumber ttl, parseNumber serial, parseNumber refresh, parseNumber retry,
        parseNumber expire, parseNumber minttl with
      | some t, some sn, some rf, some rt, some ex, some mt =>
        some (RR.SOA ⟨⟨name⟩, TypeSOA, ClassINET, t⟩ ⟨ns⟩ ⟨mbox⟩ sn rf rt ex mt)
      | _, _, _, _, _, _ => none
    else none
  | _ => none

/-- The stand-in library: the two parsers above, insertion sort by descending
weight, and the number of dot-separated parts of a name. -/
def demoLib : Lib where
  ParseIP := demoParseIP
  NewRR := demoNewRR
  SortSort := List.insertionSort (fun a b => a.Weight ≥ b.Weight)
  LenLabels := fun s => if s = "" then 0 else s.data.count '.' + 1

/-- The number `k` as a decoded JSON number. -/
def jnum (k : Int) : JValue := .num ⟨k, 0⟩

/-- A `data` block whose label `www` has three A records with the weights 5, 0 and
10, in this order, and no root label. -/
def weightedData : List (String × JValue) :=
  [("www", .obj [("a", .arr [
    .arr [.str "192.0.2.1", jnum 5],
    .arr [.str "192.0.2.2", jnum 0],
    .arr [.str "192.0.2.3", jnum 10]])])]

/-- The zone file with the block `weightedData`. -/
def weightedFile : ZoneFile := .object [("data", .obj weightedData)]

/-- The zone that `setupZoneData` leaves for `weightedData`. -/
def weightedZone : Zone :=
  (setupZoneData demoLib weightedData (newZone demoLib "example.com")).1

/-- The label `www` of `weightedZone`. -/
def weightedLabel : Label :=
  (weightedZone.Labels "www").getD ⟨"", 0, 0, fun _ => none, fun _ => 0⟩

/-- A zone file whose root label has an empty NS sequence. -/
def emptyNsFile : ZoneFile :=
  .object [("data", .obj [("", .obj [("ns", .arr [])])])]

/-- A zone file whose label `www` has one good A record and then one whose address
does not parse. -/
def brokenFile : ZoneFile :=
  .object [("data", .obj [("www", .obj [("a", .arr [
    .arr [.str "192.0.2.1"], .arr [.str "bogus"]])])])]

/-- A `data` block whose root label has the TTL 60 and two NS records. -/
def nsData : List (String × JValue) :=
  [("", .obj [("ttl", jnum 60),
    ("ns", .arr [.str "ns2.example.com", .str "ns1.example.com"])])]

/-- The zone file with the block `nsData`. -/
def nsFile : ZoneFile := .object [("data", .obj nsData)]

/-- The zone that `setupZoneData` leaves for `nsData`. -/
def nsZone : Zone := (setupZoneData demoLib nsData (newZone demoLib "example.com")).1

/-- The root label of `nsZone`. -/
def nsLabel : Label := (nsZone.Labels "").getD ⟨"", 0, 0, fun _ => none, fun _ => 0⟩

/-! ## What a cycle of zonesReadDir publishes -/

/-- The test of `zonesReadDir` that selects the zone files of a listing: the name
ends in `.json`, in any letter case. -/
def isZoneFile (file : FileInfo) : Bool := HasSuffix (ToLower file.Name) ".json"

/-- The zone name that `zonesReadDir` derives for a file of the listing. -/
def zoneNameOf (file : FileInfo) : String := zoneNameFromFile file.Name

/-- The registry entry that `zonesReadDir` stores for a file it compiles: the zone
that `readZoneFile` returned, or `new(Zone)` when it returned `nil`, stamped with
the modification time of the file. -/
def published (lib : Lib) (fs : String → ZoneFile) (file : FileInfo) : Zone :=
  { (readZoneFile lib (zoneNameOf file) (fs file.Name)).1.getD emptyZone with
    LastRead := file.ModTime }

/-- The zone names of the zone files of a listing, in the order of the listing. -/
def listedNames (files : List FileInfo) : List String :=
  (files.filter isZoneFile).map zoneNameOf

/-- The files of a directory: a zone file that compiles, one that is not JSON, one
that panics after its first record, and no other file that can be opened. -/
def demoFs (name : String) : ZoneFile :=
  if name = "example.com.json" then weightedFile
  else if name = "broken.org.JSON" then .badJSON
  else if name = "partial.net.json" then brokenFile
  else .unreadable

/-- The listing of that directory, with modification times. -/
def demoDir : List FileInfo :=
  [⟨"README.txt", 1⟩, ⟨"broken.org.JSON", 7⟩, ⟨"example.com.json", 5⟩,
   ⟨"partial.net.json", 9⟩]

/-- The zone that `readZoneFile` returns for `example.com.json`. -/
def exampleZone : Zone :=
  (readZoneFile demoLib "example.com" (demoFs "example.com.json")).1.getD emptyZone

/-- The registry entry of `partial.net` after one cycle on `demoDir`, from an empty
registry. -/
def partialEntry : Zone :=
  match zonesReadDir demoLib demoFs (some demoDir) (fun _ => none) with
  | .ok (zones1, _, _) => (zones1 "partial.net").getD emptyZone
  | .error _ => emptyZone

/-- Whether `readZoneFile` returns a zone and no error for a file of the listing,
which is when `zonesReadDir` hands the zone to `addHandler`. -/
def compiles (lib : Lib) (fs : String → ZoneFile) (file : FileInfo) : Bool :=
  match readZoneFile lib (zoneNameOf file) (fs file.Name) with
  | (some _, none) => true
  | _ => false

/-- A condition under which a cycle hands no empty name to the dns library, so
that `dns.HandleFunc` and `dns.HandleRemove` return: no zone file of the listing
with the empty zone name (a file named `.json`) that is new to the registry, or
newer than its entry, compiles without an error; and the registry has an entry
under the empty name only when a zone file of the listing derives that name. -/
def namesAccepted (lib : Lib) (fs : String → ZoneFile) (files : List FileInfo)
    (zones : Zones) : Prop :=
  (∀ g ∈ files, isZoneFile g = true → zoneNameOf g = "" →
    needsRead zones "" g = true → compiles lib fs g = false) ∧
  ("" ∈ listedNames files ∨ (zones "").isNone = true)

instance (lib : Lib) (fs : String → ZoneFile) (files : List FileInfo) (zones : Zones) :
    Decidable (namesAccepted lib fs files zones) := by
  unfold namesAccepted; exact inferInstance

/-- The registry after one cycle on `demoDir`, from an empty registry. -/
def demoRegistry : Zones :=
  match zonesReadDir demoLib demoFs (some demoDir) (fun _ => none) with
  | .ok (zones1, _, _) => zones1
  | .error _ => fun _ => none

/-- A registry with the reserved zone and with a zone whose file is not in
`demoDir`. -/
def oldRegistry : Zones := fun zoneName =>
  if zoneName = "pgeodns" then some { emptyZone with Origin := "pgeodns" }
  else if zoneName = "old.example" then some { emptyZone with Origin := "old.example" }
  else none

/-- The content of a directory in which the file `.json` holds a zone that
compiles; the other files are those of `demoFs`. -/
def emptyNameFs (name : String) : ZoneFile :=
  if name = ".json" then weightedFile else demoFs name

/-- The listing of that directory. -/
def emptyNameDir : List FileInfo := [⟨".json", 3⟩, ⟨"example.com.json", 5⟩]

/-- The listing of a directory whose only file is `.json`, which `demoFs` cannot
open. -/
def unreadableDir : List FileInfo := [⟨".json", 1⟩]

/-- The registry after one cycle on `unreadableDir`, from an empty registry. -/
def staleRegistry : Zones :=
  match zonesReadDir demoLib demoFs (some unreadableDir) (fun _ => none) with
  | .ok (zones1, _, _) => zones1
  | .error _ => fun _ => none

/-! ## The words of the specification about integer fields -/

/-- A JSON scalar that writes the integer `n`: the number `n`, or a string holding
a base-10 integer literal that denotes `n`. -/
def writesInt (v : JValue) (n : Int) : Prop :=
  match v with
  | .num x => x.toRat = (n : ℚ)
  | .str s => isIntLiteral s = true ∧ literalValue s = n
  | _ => False

/-- An optional integer field of a JSON object: absent, which stands for 0, or
present and writing `n`. -/
def fieldWrites (rec : List (String × JValue)) (key : String) (n : Int) : Prop :=
  (rec.lookup key = none ∧ n = 0) ∨ ∃ v, rec.lookup key = some v ∧ writesInt v n

/-- The spec's example of an MX structure. -/
def mxExample : List (String × JValue) :=
  [("mx", .str "mail.example.com"), ("preference", jnum 10), ("weight", jnum 1)]

/-- A zone file whose label `mail` writes its `mx` value directly as the spec's
example structure. -/
def mxDirectFile : ZoneFile :=
  .object [("data", .obj [("mail", .obj [("mx", .obj mxExample)])])]

/-- The same zone file with the structure inside a sequence. -/
def mxListFile : ZoneFile :=
  .object [("data", .obj [("mail", .obj [("mx", .arr [.obj mxExample])])])]

/-! ## The words of the specification about addresses -/

/-- The parts of a text between the occurrences of a separator. -/
def splitOnChar (sep : Char) : List Char → List (List Char)
  | [] => [[]]
  | c :: cs =>
    match splitOnChar sep cs with
    | [] => [[]]
    | w :: ws => if c = sep then [] :: w :: ws else (c :: w) :: ws

/-- A decimal number from 0 to 255, in one to three digits. -/
def isOctet (w : List Char) : Bool :=
  !w.isEmpty && decide (w.length ≤ 3) && w.all Char.isDigit &&
    decide ((parseDigits w 0).getD 256 ≤ 255)

/-- An IPv4 literal: four decimal numbers from 0 to 255, separated by dots. -/
def isIPv4Literal (s : String) : Bool :=
  match splitOnChar '.' s.data with
  | [a, b, c, d] => isOctet a && isOctet b && isOctet c && isOctet d
  | _ => false

/-- A hexadecimal digit. -/
def isHexDigit (c : Char) : Bool :=
  c.isDigit || (decide ('a' ≤ c) && decide (c ≤ 'f')) || (decide ('A' ≤ c) && decide (c ≤ 'F'))

/-- A group of an IPv6 literal: one to four hexadecimal digits. -/
def isHexGroup (w : List Char) : Bool :=
  !w.isEmpty && decide (w.length ≤ 4) && w.all isHexDigit

/-- The groups of one side of an IPv6 literal; an empty side has no group. -/
def hexGroups (side : List Char) : Option (List (List Char)) :=
  match side with
  | [] => some []
  | _ :: _ =>
    let groups := splitOnChar ':' side
    if groups.all isHexGroup then some groups else none

/-- The text before and after the first `::`, when there is one. -/
def splitDoubleColon : List Char → Option (List Char × List Char)
  | [] => none
  | [_] => none
  | c :: d :: rest =>
    if c = ':' ∧ d = ':' then some ([], rest)
    else
      match splitDoubleColon (d :: rest) with
      | none => none
      | some (left, right) => some (c :: left, right)

/-- An IPv6 literal in its colon-hexadecimal forms: eight groups of hexadecimal
digits separated by colons, or fewer with one `::` that stands for the groups
left out. -/
def isIPv6Literal (s : String) : Bool :=
  match splitDoubleColon s.data with
  | none =>
    match hexGroups s.data with
    | some groups => decide (groups.length = 8)
    | none => false
  | some (left, right) =>
    match hexGroups left, hexGroups right with
    | some l, some r => decide (l.length + r.length < 8)
    | _, _ => false

/-- A zone file whose label `www` has an A record written with an IPv6 literal and
an AAAA record written with an IPv4 literal. -/
def mixedFamilyFile : ZoneFile :=
  .object [("data", .obj [("www", .obj [
    ("a", .arr [.arr [.str "2001:db8::1"]]),
    ("aaaa", .arr [.arr [.str "192.0.2.1"]])])])]

/-- A zone file whose label `www` has an A record with the weight `true`. -/
def boolWeightFile : ZoneFile :=
  .object [("data", .obj [("www", .obj [("a", .arr [.arr [.str "192.0.2.1", .bool true]])])])]

/-- A zone file that is a JSON mapping with options only, without a `data` key. -/
def noDataFile : ZoneFile := .object [("ttl", jnum 300), ("serial", jnum 7)]

/-! ## The words of the specification about weights -/

/-- The sum of the weights of the records of a sequence; a kind without a sequence
has no records. -/
def recordsWeight (rs : Option Records) : Int :=
  ((rs.getD []).map (fun r => r.Weight)).sum

/-- A zone file whose label `www` has two A records of weight 2^62 each. -/
def heavyFile : ZoneFile :=
  .object [("data", .obj [("www", .obj [("a", .arr [
    .arr [.str "192.0.2.1", .str "4611686018427387904"],
    .arr [.str "192.0.2.2", .str "4611686018427387904"]])])])]

/-- The label `www` of the zone that `readZoneFile` returns for `heavyFile`. -/
def heavyLabel : Label :=
  (((readZoneFile demoLib "example.com" heavyFile).1.getD emptyZone).Labels "www").getD
    ⟨"", 0, 0, fun _ => none, fun _ => 0⟩

/-- The number `n` without its factors of 2, found in at most `fuel` halvings. -/
def stripTwos : Nat → Nat → Nat
  | 0, n => n
  | fuel + 1, n => if n % 2 = 0 ∧ n ≠ 0 then stripTwos fuel (n / 2) else n

/-- Whether the value has the 53-bit mantissa of a float64: the mantissa, with its
factors of 2 moved into the exponent, is below `2 ^ 53`. The range of the exponent
is not looked at. -/
def Float64.isFloat64 (x : Float64) : Bool :=
  decide (stripTwos x.mant.natAbs x.mant.natAbs < 2 ^ 53)

/-- A decoded weight scalar that writes no negative weight: a float64 that is at
least 0 and less than `2 ^ 63`, or a string without a minus sign; a value of
another type writes no weight at all. The largest `int`, `2 ^ 63 - 1`, is not a
float64: the largest float64 below `2 ^ 63` is `2 ^ 63 - 1024`. -/
def writesNoNegative (v : JValue) : Prop :=
  match v with
  | .num x => x.isFloat64 = true ∧ 0 ≤ x.toRat ∧ x.toRat < 2 ^ 63
  | .str s => s.data.head? ≠ some '-'
  | _ => True

/-- The weight that a raw entry writes: the second element of an A or AAAA entry,
the field `weight` of an MX entry. -/
def entryWeight (e : RawEntry) : Option JValue :=
  match e with
  | .val (.arr (_ :: w :: _)) => some w
  | .val (.obj rec) => rec.lookup "weight"
  | _ => none

/-- A zone file whose label `www` has an A record with the weight -5. -/
def negativeFile : ZoneFile :=
  .object [("data", .obj [("www", .obj [("a", .arr [.arr [.str "192.0.2.1", jnum (-5)]])])])]

/-- The label `www` of the zone that `readZoneFile` returns for `negativeFile`. -/
def negativeLabel : Label :=
  (((readZoneFile demoLib "example.com" negativeFile).1.getD emptyZone).Labels "www").getD
    ⟨"", 0, 0, fun _ => none, fun _ => 0⟩

/-- A zone file whose label `www` has an A record with the weight `2 ^ 63`. The
document number 9223372036854775807, the largest `int`, is not a float64, and
`encoding/json` decodes it to the nearest one, which is `2 ^ 63`. -/
def largestIntFile : ZoneFile :=
  .object [("data", .obj [("www", .obj [("a", .arr [
    .arr [.str "192.0.2.1", .num ⟨1, 63⟩]])])])]

/-- The label `www` of the zone that `readZoneFile` returns for `largestIntFile`. -/
def largestIntLabel : Label :=
  (((readZoneFile demoLib "example.com" largestIntFile).1.getD emptyZone).Labels "www").getD
    ⟨"", 0, 0, fun _ => none, fun _ => 0⟩

/-! ## sort.Sort on a short slice

From Go 1.6 to Go 1.18, `sort.Sort` sorts a slice of at most 12 elements by one
ShellSort pass with gap 6 followed by an insertion sort. The definitions below
follow that path of `quickSort` in `sort.go`, on the `Less` and `Swap` of
`RecordsByWeight`. -/

/-- The call `data.Swap(i, j)`. -/
def swapAt (rs : Records) (i j : Nat) : Records :=
  match rs[i]?, rs[j]? with
  | some a, some b => (rs.set i b).set j a
  | _, _ => rs

/-- The call `data.Less(i, j)`. -/
def lessAt (rs : Records) (i j : Nat) : Bool :=
  match rs[i]?, rs[j]? with
  | some a, some b => RecordsByWeight.Less a b
  | _, _ => false

/-- The loop `for i := a + 6; i < b; i++` of the ShellSort pass, from index `i`
for `steps` rounds: `if data.Less(i, i-6) { data.Swap(i, i-6) }`. -/
def shellPass (rs : Records) (i : Nat) : Nat → Records
  | 0 => rs
  | steps + 1 =>
    shellPass (if lessAt rs i (i - 6) then swapAt rs i (i - 6) else rs) (i + 1) steps

/-- The inner loop of `insertionSort`:
`for j := i; j > a && data.Less(j, j-1); j-- { data.Swap(j, j-1) }`, with `a = 0`. -/
def sinkLeft (rs : Records) : Nat → Records
  | 0 => rs
  | j + 1 => if lessAt rs (j + 1) j then sinkLeft (swapAt rs (j + 1) j) j else rs

/-- The outer loop `for i := a + 1; i < b; i++` of `insertionSort`, from index `i`
for `steps` rounds. -/
def insertionPass (rs : Records) (i : Nat) : Nat → Records
  | 0 => rs
  | steps + 1 => insertionPass (sinkLeft rs i) (i + 1) steps

/-- The path of `sort.Sort` for a slice of at most 12 elements (Go 1.6 to 1.18):
when there is more than one element, the ShellSort pass with gap 6 and then the
insertion sort. -/
def shortSort (rs : Records) : Records :=
  if rs.length > 1 then
    insertionPass (shellPass rs 6 (rs.length - 6)) 1 (rs.length - 1)
  else rs

/-- The stand-in library with `shortSort` as its `sort.Sort`. -/
def shortSortLib : Lib := { demoLib with SortSort := shortSort }

/-- A zone file whose label `www` has seven A records: one for `192.0.2.1` with
the weight 1, five for `192.0.2.2` with the weight 1, one for `192.0.2.3` with the
weight 2, in this order. -/
def tiesFile : ZoneFile :=
  .object [("data", .obj [("www", .obj [("a", .arr [
    .arr [.str "192.0.2.1", jnum 1],
    .arr [.str "192.0.2.2", jnum 1],
    .arr [.str "192.0.2.2", jnum 1],
    .arr [.str "192.0.2.2", jnum 1],
    .arr [.str "192.0.2.2", jnum 1],
    .arr [.str "192.0.2.2", jnum 1],
    .arr [.str "192.0.2.3", jnum 2]])])])]

/-- The label `www` of the zone that `readZoneFile` returns for `tiesFile` with
`shortSortLib`. -/
def tiesLabel : Label :=
  (((readZoneFile shortSortLib "example.com" tiesFile).1.getD emptyZone).Labels "www").getD
    ⟨"", 0, 0, fun _ => none, fun _ => 0⟩

/-! # Theorems -/

/-! ## valueToInt -/

theorem digitVal_of_isDigit {c : Char} (h : c.isDigit = true) :
    digitVal c = some (c.toNat - 48) := by
  have h1 : 48 ≤ c.toNat ∧ c.toNat ≤ 57 := by
    simp only [Char.isDigit, Bool.and_eq_true, decide_eq_true_eq] at h
    exact ⟨h.1, h.2⟩
  simp [digitVal, h1]

theorem isDigit_of_digitVal {c : Char} {d : Nat} (h : digitVal c = some d) :
    c.isDigit = true ∧ d = c.toNat - 48 := by
  unfold digitVal at h
  split at h
  · rename_i h1
    simp only [Option.some.injEq] at h
    refine ⟨?_, h.symm⟩
    simp only [Char.isDigit, Bool.and_eq_true, decide_eq_true_eq]
    exact ⟨h1.1, h1.2⟩
  · cases h

/-- The digit loop on a run of decimal digits. -/
theorem parseDigits_digits (ds : List Char) (acc : Nat) (h : ds.all Char.isDigit = true) :
    parseDigits ds acc =
      some (acc * 10 ^ ds.length + Nat.ofDigits 10 (ds.reverse.map (fun c => c.toNat - 48))) := by
  induction ds generalizing acc with
  | nil => simp [parseDigits]
  | cons c cs ih =>
    simp only [List.all_cons, Bool.and_eq_true] at h
    rw [parseDigits, digitVal_of_isDigit h.1]
    simp only
    rw [ih _ h.2]
    simp only [List.length_cons, List.reverse_cons, List.map_append, List.map_cons, List.map_nil,
      Nat.ofDigits_append, Nat.ofDigits_singleton, List.length_map, List.length_reverse]
    congr 1
    ring

theorem parseDigits_some (ds : List Char) (acc n : Nat) (h : parseDigits ds acc = some n) :
    ds.all Char.isDigit = true := by
  induction ds generalizing acc with
  | nil => simp
  | cons c cs ih =>
    rw [parseDigits] at h
    cases hd : digitVal c with
    | none => rw [hd] at h; cases h
    | some d =>
      rw [hd] at h
      simp only [List.all_cons, Bool.and_eq_true]
      exact ⟨(isDigit_of_digitVal hd).1, ih _ h⟩

/-- On a literal, `Atoi` returns the denoted integer when it fits `int`. -/
theorem Atoi_literal (s : String) (h : isIntLiteral s = true) :
    Atoi s = if inIntRange (literalValue s) then some (literalValue s) else none := by
  unfold isIntLiteral at h
  simp only [Bool.and_eq_true, Bool.not_eq_true', List.isEmpty_eq_false] at h
  obtain ⟨hne, hall⟩ := h
  unfold Atoi literalValue
  unfold literalDigits at hne hall ⊢
  cases hs : s.data with
  | nil => rw [hs] at hne; simp at hne
  | cons c cs =>
    rw [hs] at hne hall
    simp only at hne hall ⊢
    generalize hds : (if c = '-' ∨ c = '+' then cs else c :: cs) = ds at hne hall ⊢
    cases ds with
    | nil => exact absurd rfl hne
    | cons d ds' =>
      simp only [parseDigits_digits _ 0 hall, Nat.zero_mul, Nat.zero_add, List.head?_cons,
        Option.some.injEq]

theorem Atoi_not_literal (s : String) (h : isIntLiteral s = false) : Atoi s = none := by
  unfold Atoi
  unfold isIntLiteral literalDigits at h
  cases hs : s.data with
  | nil => rfl
  | cons c cs =>
    rw [hs] at h
    simp only at h ⊢
    generalize hds : (if c = '-' ∨ c = '+' then cs else c :: cs) = ds at h ⊢
    cases ds with
    | nil => rfl
    | cons d ds' =>
      simp only
      cases hp : parseDigits (d :: ds') 0 with
      | none => rfl
      | some n =>
        have := parseDigits_some _ _ _ hp
        rw [this] at h
        simp at h

theorem tdiv_eq_trunc (m : Int) (k : Nat) :
    Int.tdiv m (2 ^ k) = truncTowardZero ((m : ℚ) / ((2 ^ k : ℕ) : ℚ)) := by
  have hpos : (0 : ℚ) < ((2 ^ k : ℕ) : ℚ) := by positivity
  have hcast : ((2 ^ k : ℕ) : ℤ) = (2 : ℤ) ^ k := by push_cast; rfl
  unfold truncTowardZero
  rcases le_or_lt 0 m with hm | hm
  · have : (0 : ℚ) ≤ (m : ℚ) / ((2 ^ k : ℕ) : ℚ) := by
      apply div_nonneg _ hpos.le
      exact_mod_cast hm
    rw [if_pos this, Rat.floor_intCast_div_natCast, hcast]
    exact Int.tdiv_eq_ediv hm (by positivity)
  · have : ¬ (0 : ℚ) ≤ (m : ℚ) / ((2 ^ k : ℕ) : ℚ) := by
      rw [not_le]
      apply div_neg_of_neg_of_pos _ hpos
      exact_mod_cast hm
    rw [if_neg this]
    have h1 : (m : ℚ) / ((2 ^ k : ℕ) : ℚ) = -(((-m : ℤ) : ℚ) / ((2 ^ k : ℕ) : ℚ)) := by
      push_cast; ring
    rw [h1, Int.ceil_neg, Rat.floor_intCast_div_natCast, hcast]
    have h2 : m = -(-m) := by ring
    conv_lhs => rw [h2]
    rw [Int.neg_tdiv, Int.tdiv_eq_ediv (by omega) (by positivity)]

/-- The integer part computed from mantissa and exponent is the value of the
float64 truncated toward zero. -/
theorem Float64.trunc_eq (x : Float64) : x.trunc = truncTowardZero x.toRat := by
  unfold Float64.trunc Float64.toRat
  split
  · rename_i h
    have he : x.exp = (x.exp.toNat : ℤ) := (Int.toNat_of_nonneg h).symm
    have : (x.mant : ℚ) * (2 : ℚ) ^ x.exp = ((x.mant * 2 ^ x.exp.toNat : ℤ) : ℚ) := by
      conv_lhs => rw [he]
      push_cast
      rw [zpow_natCast]
    rw [this]
    unfold truncTowardZero
    split
    · exact (Int.floor_intCast _).symm
    · exact (Int.ceil_intCast _).symm
  · rename_i h
    have he : x.exp = -((-x.exp).toNat : ℤ) := by
      rw [Int.toNat_of_nonneg (by omega)]; ring
    have : (x.mant : ℚ) * (2 : ℚ) ^ x.exp = (x.mant : ℚ) / (((2 ^ (-x.exp).toNat : ℕ)) : ℚ) := by
      conv_lhs => rw [he]
      rw [zpow_neg, zpow_natCast]
      push_cast
      rfl
    rw [this]
    exact tdiv_eq_trunc _ _

/-- C8 (amended). For every number whose truncation fits `int`, `valueToInt`
returns the number truncated toward zero, hence the number itself when it is an
integer; for every string that is a base-10 integer literal whose value fits
`int`, `valueToInt` returns exactly the integer the literal denotes. -/
theorem valueToInt_exact :
    (∀ x : Float64, inIntRange (truncTowardZero x.toRat) →
      valueToInt (.num x) = .ok (truncTowardZero x.toRat)) ∧
    (∀ (x : Float64) (n : Int), x.toRat = (n : ℚ) → inIntRange n →
      valueToInt (.num x) = .ok n) ∧
    (∀ s : String, isIntLiteral s = true → inIntRange (literalValue s) →
      valueToInt (.str s) = .ok (literalValue s)) := by
  refine ⟨?_, ?_, ?_⟩
  · intro x hx
    rw [← Float64.trunc_eq] at hx ⊢
    simp [valueToInt, Float64.toInt, hx]
  · intro x n hxn hn
    have ht : x.trunc = n := by
      rw [Float64.trunc_eq, hxn]
      unfold truncTowardZero
      split
      · exact Int.floor_intCast _
      · exact Int.ceil_intCast _
    simp [valueToInt, Float64.toInt, ht, hn]
  · intro s hs hr
    simp [valueToInt, Atoi_literal s hs, hr]

/-- C8, the theorem at concrete inputs: -3.5 gives -3, the number 10 gives 10 and
the string "-42" gives -42. -/
theorem valueToInt_exact_witness :
    valueToInt (.num ⟨-7, -1⟩) = .ok (truncTowardZero (Float64.toRat ⟨-7, -1⟩)) ∧
    truncTowardZero (Float64.toRat ⟨-7, -1⟩) = -3 ∧
    valueToInt (.num ⟨5, 1⟩) = .ok 10 ∧
    valueToInt (.str "-42") = .ok (literalValue "-42") ∧ literalValue "-42" = -42 :=
  ⟨valueToInt_exact.1 ⟨-7, -1⟩ (by rw [← Float64.trunc_eq]; decide),
   by rw [← Float64.trunc_eq]; decide,
   valueToInt_exact.2.1 ⟨5, 1⟩ 10 (by norm_num [Float64.toRat]) (by decide),
   valueToInt_exact.2.2 "-42" (by decide) (by decide),
   by decide⟩

/-- C8, as stated, fails: "9223372036854775808" is a base-10 integer literal, and
`valueToInt` panics on it instead of returning the integer it denotes, because
the value does not fit `int`. -/
theorem valueToInt_literal_out_of_range :
    isIntLiteral "9223372036854775808" = true ∧
    literalValue "9223372036854775808" = 9223372036854775808 ∧
    valueToInt (.str "9223372036854775808") = .error .convertWeight ∧
    valueToInt (.str "9223372036854775808") ≠ .ok (literalValue "9223372036854775808") := by
  refine ⟨by decide, by decide, rfl, ?_⟩
  intro h
  have h2 : valueToInt (.str "9223372036854775808") = .error .convertWeight := rfl
  rw [h2] at h
  cases h

/-- C9 (amended). Every input that is neither a number nor a string holding a
base-10 integer literal whose value fits `int` makes `valueToInt` panic: a string
with the conversion error, every other value with the cannot-convert error. -/
theorem valueToInt_fails (v : JValue) (hnum : ∀ x, v ≠ .num x)
    (hstr : ∀ s, v = .str s → ¬ (isIntLiteral s = true ∧ inIntRange (literalValue s))) :
    valueToInt v = .error .convertWeight ∨ valueToInt v = .error .cantConvert := by
  cases v with
  | num x => exact absurd rfl (hnum x)
  | str s =>
    left
    have h := hstr s rfl
    cases hl : isIntLiteral s with
    | false => simp [valueToInt, Atoi_not_literal s hl]
    | true =>
      have hr : ¬ inIntRange (literalValue s) := fun hr => h ⟨hl, hr⟩
      simp [valueToInt, Atoi_literal s hl, hr]
  | null => right; rfl
  | bool b => right; rfl
  | arr xs => right; rfl
  | obj kvs => right; rfl

/-- C9, the theorem at the inputs "abc", `true` and a list. -/
theorem valueToInt_fails_witness :
    (valueToInt (.str "abc") = .error .convertWeight ∨
      valueToInt (.str "abc") = .error .cantConvert) ∧
    (valueToInt (.bool true) = .error .convertWeight ∨
      valueToInt (.bool true) = .error .cantConvert) ∧
    (valueToInt (.arr [.num ⟨1, 0⟩]) = .error .convertWeight ∨
      valueToInt (.arr [.num ⟨1, 0⟩]) = .error .cantConvert) :=
  ⟨valueToInt_fails (.str "abc") (fun _ h => by cases h)
      (fun s h => by cases h; decide),
   valueToInt_fails (.bool true) (fun _ h => by cases h) (fun _ h => by cases h),
   valueToInt_fails (.arr [.num ⟨1, 0⟩]) (fun _ h => by cases h) (fun _ h => by cases h)⟩

/-- C9, as stated, fails: the number 1.5 is not an integer, and `valueToInt`
returns 1 for it instead of failing. -/
theorem valueToInt_truncates_fraction :
    (∀ n : Int, Float64.toRat ⟨3, -1⟩ ≠ (n : ℚ)) ∧ valueToInt (.num ⟨3, -1⟩) = .ok 1 := by
  refine ⟨?_, rfl⟩
  intro n h
  have h1 : (3 : ℚ) = 2 * (n : ℚ) := by
    have : Float64.toRat ⟨3, -1⟩ = 3 / 2 := by norm_num [Float64.toRat]
    rw [this] at h
    linarith
  have h2 : (3 : ℤ) = 2 * n := by exact_mod_cast h1
  omega

/-! ## setupZoneData: the record loop -/

theorem buildRecord_congr (lib : Lib) (t : Nat) (origin : String) (l1 l2 : Label)
    (hl : l1.Label = l2.Label) (ht : l1.Ttl = l2.Ttl) (e : RawEntry) :
    buildRecord lib t l1 origin e = buildRecord lib t l2 origin e := by
  simp only [buildRecord, recordHeader, hl, ht]

theorem setFrom_replicate (pre : Records) (built : List Record) :
    setFrom (pre ++ List.replicate built.length zeroRecord) pre.length built = pre ++ built := by
  induction built generalizing pre with
  | nil => simp [setFrom]
  | cons r more ih =>
    have h := ih (pre ++ [r])
    simp only [List.length_append, List.length_singleton, List.append_assoc,
      List.singleton_append] at h
    simp only [setFrom, List.length_cons, List.replicate_succ]
    rw [List.set_append_right _ _ (Nat.le_refl _)]
    simpa using h

/-- A run of the record loop that ends without a panic has built a record from
every entry, stored them at the indices from `i` on, and added their weights. -/
theorem buildRecords_ok (lib : Lib) (t : Nat) (origin : String) (entries : List RawEntry) :
    ∀ (i : Nat) (label label1 : Label) (rs : Records),
      label.Records t = some rs →
      buildRecords lib t origin entries i label = (label1, none) →
      ∃ built, List.Forall₂ (fun e r => buildRecord lib t label origin e = .ok r) entries built ∧
        label1.Records t = some (setFrom rs i built) ∧
        label1.Weight t = weightSum (label.Weight t) built ∧
        label1.Label = label.Label ∧ label1.Ttl = label.Ttl ∧
        label1.MaxHosts = label.MaxHosts ∧
        ∀ k, k ≠ t → label1.Records k = label.Records k ∧ label1.Weight k = label.Weight k := by
  induction entries with
  | nil =>
    intro i label label1 rs hrs h
    simp only [buildRecords, Prod.mk.injEq, and_true] at h
    subst h
    exact ⟨[], List.Forall₂.nil, by simp [setFrom, hrs], by simp [weightSum], rfl, rfl, rfl,
      fun _ _ => ⟨rfl, rfl⟩⟩
  | cons e rest ih =>
    intro i label label1 rs hrs h
    rw [buildRecords] at h
    cases hb : buildRecord lib t label origin e with
    | error err => rw [hb] at h; simp at h
    | ok record =>
      rw [hb] at h
      simp only at h
      cases hrr : record.RR with
      | none => rw [hrr] at h; simp at h
      | some rr =>
        rw [hrr] at h
        simp only at h
        have hrs1 : (storeRecord label t i record).Records t = some (rs.set i record) := by
          simp [storeRecord, hrs]
        obtain ⟨built, hall, hrec, hw, hl, httl, hmh, hframe⟩ := ih (i + 1) _ label1 _ hrs1 h
        refine ⟨record :: built, ?_, ?_, ?_, ?_, ?_, ?_, ?_⟩
        · refine List.Forall₂.cons hb ?_
          refine hall.imp ?_
          intro e1 r1 h1
          rw [← h1]
          exact buildRecord_congr lib t origin _ _ rfl rfl e1
        · simpa [setFrom] using hrec
        · rw [hw]; simp [weightSum, storeRecord]
        · rw [hl]; rfl
        · rw [httl]; rfl
        · rw [hmh]; rfl
        · intro k hk
          obtain ⟨h1, h2⟩ := hframe k hk
          rw [h1, h2]
          simp [storeRecord, Function.update_noteq hk]

/-- The body of the loop over `recordTypes` for a kind with a value, when it ends
without a panic on a label whose weight for the kind is still 0. -/
theorem setupRecords_ok (lib : Lib) (origin : String) (label label1 : Label) (t : Nat)
    (rdata : JValue) (hw0 : label.Weight t = 0)
    (h : setupRecords lib origin label t rdata = (label1, none)) :
    (∃ entries built, rawRecords rdata = .ok entries ∧
      List.Forall₂ (fun e r => buildRecord lib t label1 origin e = .ok r) entries built ∧
      label1.Weight t = weightSum 0 built ∧
      label1.Records t = some (if weightSum 0 built > 0 then lib.SortSort built else built)) ∧
      label1.Label = label.Label ∧ label1.Ttl = label.Ttl ∧
      label1.MaxHosts = label.MaxHosts ∧
      ∀ k, k ≠ t → label1.Records k = label.Records k ∧ label1.Weight k = label.Weight k := by
  unfold setupRecords at h
  cases hraw : rawRecords rdata with
  | error e => rw [hraw] at h; simp at h
  | ok entries =>
    rw [hraw] at h
    simp only at h
    generalize hl0 : Label.mk label.Label label.MaxHosts label.Ttl
      (Function.update label.Records t (some (List.replicate entries.length zeroRecord)))
      label.Weight = label0 at h
    cases hb : buildRecords lib t origin entries 0 label0 with
    | mk label2 err =>
      rw [hb] at h
      cases err with
      | some e => simp at h
      | none =>
        simp only at h
        have hrs0 : label0.Records t = some (List.replicate entries.length zeroRecord) := by
          rw [← hl0]; simp
        obtain ⟨built, hall, hrec, hw, hlab, httl, hmh, hframe⟩ :=
          buildRecords_ok lib t origin entries 0 label0 label2 _ hrs0 hb
        have hlen : entries.length = built.length := hall.length_eq
        have hrec2 : label2.Records t = some built := by
          rw [hrec, hlen]
          have := setFrom_replicate [] built
          simpa using this
        have hw2 : label2.Weight t = weightSum 0 built := by
          rw [hw, ← hl0]; simp [hw0]
        have hl0lab : label0.Label = label.Label := by rw [← hl0]
        have hl0ttl : label0.Ttl = label.Ttl := by rw [← hl0]
        have hl0mh : label0.MaxHosts = label.MaxHosts := by rw [← hl0]
        have hfr0 : ∀ k, k ≠ t →
            label0.Records k = label.Records k ∧ label0.Weight k = label.Weight k := by
          intro k hk
          rw [← hl0]
          simp [Function.update_noteq hk]
        have hall2 : ∀ l : Label, l.Label = label2.Label → l.Ttl = label2.Ttl →
            List.Forall₂ (fun e r => buildRecord lib t l origin e = .ok r) entries built := by
          intro l h1 h2
          refine hall.imp ?_
          intro e1 r1 he
          rw [← he]
          exact buildRecord_congr lib t origin _ _ (by rw [h1, hlab]) (by rw [h2, httl]) e1
        split at h
        · rename_i hpos
          simp only [Prod.mk.injEq, and_true] at h
          subst h
          refine ⟨⟨entries, built, rfl, hall2 _ rfl rfl, hw2, ?_⟩, ?_, ?_, ?_, ?_⟩
          · rw [hw2] at hpos
            simp [hrec2, hpos]
          · show label2.Label = label.Label
            rw [hlab, hl0lab]
          · show label2.Ttl = label.Ttl
            rw [httl, hl0ttl]
          · show label2.MaxHosts = label.MaxHosts
            rw [hmh, hl0mh]
          · intro k hk
            obtain ⟨h1, h2⟩ := hframe k hk
            obtain ⟨h3, h4⟩ := hfr0 k hk
            refine ⟨?_, ?_⟩
            · show Function.update label2.Records t _ k = _
              rw [Function.update_noteq hk, h1, h3]
            · show label2.Weight k = _
              rw [h2, h4]
        · rename_i hpos
          simp only [Prod.mk.injEq, and_true] at h
          subst h
          refine ⟨⟨entries, built, rfl, hall2 _ rfl rfl, hw2, ?_⟩, ?_, ?_, ?_, ?_⟩
          · rw [hw2] at hpos
            simp [hrec2, hpos]
          · rw [hlab, hl0lab]
          · rw [httl, hl0ttl]
          · rw [hmh, hl0mh]
          · intro k hk
            obtain ⟨h1, h2⟩ := hframe k hk
            obtain ⟨h3, h4⟩ := hfr0 k hk
            exact ⟨by rw [h1, h3], by rw [h2, h4]⟩

/-- One round of the loop over `recordTypes` that ends without a panic, on a label
that holds nothing for the kind yet. -/
theorem setupRecordType_ok (lib : Lib) (origin : String) (dv : List (String × JValue))
    (label label1 : Label) (rt : String × Nat)
    (hw0 : label.Weight rt.2 = 0) (hr0 : label.Records rt.2 = none)
    (h : setupRecordType lib origin dv label rt = (label1, none)) :
    KindCompiled lib origin dv label1 rt ∧
      label1.Label = label.Label ∧ label1.Ttl = label.Ttl ∧
      label1.MaxHosts = label.MaxHosts ∧
      ∀ k, k ≠ rt.2 → label1.Records k = label.Records k ∧ label1.Weight k = label.Weight k := by
  unfold setupRecordType at h
  cases hlk : dv.lookup rt.1 with
  | none =>
    rw [hlk] at h
    simp only [Prod.mk.injEq, and_true] at h
    subst h
    exact ⟨Or.inl ⟨Or.inl hlk, hr0, hw0⟩, rfl, rfl, rfl, fun _ _ => ⟨rfl, rfl⟩⟩
  | some rdata =>
    rw [hlk] at h
    have key : ∀ (hs : setupRecords lib origin label rt.2 rdata = (label1, none)),
        KindCompiled lib origin dv label1 rt ∧
        label1.Label = label.Label ∧ label1.Ttl = label.Ttl ∧
        label1.MaxHosts = label.MaxHosts ∧
        ∀ k, k ≠ rt.2 → label1.Records k = label.Records k ∧
          label1.Weight k = label.Weight k := by
      intro hs
      obtain ⟨⟨entries, built, h1, h2, h3, h4⟩, h5⟩ :=
        setupRecords_ok lib origin label label1 rt.2 rdata hw0 hs
      exact ⟨Or.inr ⟨rdata, entries, built, hlk, h1, h2, h3, h4⟩, h5⟩
    cases rdata with
    | null =>
      simp only [Prod.mk.injEq, and_true] at h
      subst h
      exact ⟨Or.inl ⟨Or.inr hlk, hr0, hw0⟩, rfl, rfl, rfl, fun _ _ => ⟨rfl, rfl⟩⟩
    | bool b => exact key h
    | num x => exact key h
    | str s => exact key h
    | arr xs => exact key h
    | obj kvs => exact key h

theorem KindCompiled_congr (lib : Lib) (origin : String) (dv : List (String × JValue))
    (l1 l2 : Label) (rt : String × Nat) (hl : l2.Label = l1.Label) (ht : l2.Ttl = l1.Ttl)
    (hr : l2.Records rt.2 = l1.Records rt.2) (hw : l2.Weight rt.2 = l1.Weight rt.2)
    (h : KindCompiled lib origin dv l1 rt) : KindCompiled lib origin dv l2 rt := by
  rcases h with ⟨h1, h2, h3⟩ | ⟨rdata, entries, built, h1, h2, h3, h4, h5⟩
  · exact Or.inl ⟨h1, by rw [hr, h2], by rw [hw, h3]⟩
  · refine Or.inr ⟨rdata, entries, built, h1, h2, ?_, by rw [hw, h4], by rw [hr, h5]⟩
    refine h3.imp ?_
    intro e r he
    rw [← he]
    exact buildRecord_congr lib rt.2 origin _ _ hl ht e

/-- The loop over the record kinds, when it ends without a panic on a label that
holds nothing for these kinds yet. -/
theorem setupRecordTypes_ok (lib : Lib) (origin : String) (dv : List (String × JValue))
    (rts : List (String × Nat)) :
    ∀ (label label1 : Label), (rts.map Prod.snd).Nodup →
      (∀ rt ∈ rts, label.Weight rt.2 = 0 ∧ label.Records rt.2 = none) →
      setupRecordTypes lib origin dv rts label = (label1, none) →
      (∀ rt ∈ rts, KindCompiled lib origin dv label1 rt) ∧
        label1.Label = label.Label ∧ label1.Ttl = label.Ttl ∧
        label1.MaxHosts = label.MaxHosts ∧
        ∀ k, k ∉ rts.map Prod.snd →
          label1.Records k = label.Records k ∧ label1.Weight k = label.Weight k := by
  induction rts with
  | nil =>
    intro label label1 _ _ h
    simp only [setupRecordTypes, Prod.mk.injEq, and_true] at h
    subst h
    exact ⟨by simp, rfl, rfl, rfl, fun _ _ => ⟨rfl, rfl⟩⟩
  | cons rt rest ih =>
    intro label label1 hnd h0 h
    rw [setupRecordTypes] at h
    cases hs : setupRecordType lib origin dv label rt with
    | mk label2 err =>
      rw [hs] at h
      cases err with
      | some e => simp at h
      | none =>
        simp only at h
        simp only [List.map_cons, List.nodup_cons] at hnd
        obtain ⟨hk, hlab, httl, hmh, hframe⟩ :=
          setupRecordType_ok lib origin dv label label2 rt (h0 rt (by simp)).1
            (h0 rt (by simp)).2 hs
        have h0' : ∀ rt' ∈ rest, label2.Weight rt'.2 = 0 ∧ label2.Records rt'.2 = none := by
          intro rt' hrt'
          have hne : rt'.2 ≠ rt.2 := by
            intro heq
            apply hnd.1
            rw [← heq]
            exact List.mem_map_of_mem _ hrt'
          obtain ⟨h1, h2⟩ := hframe _ hne
          obtain ⟨h3, h4⟩ := h0 rt' (List.mem_cons_of_mem _ hrt')
          exact ⟨by rw [h2, h3], by rw [h1, h4]⟩
        obtain ⟨hks, hlab2, httl2, hmh2, hframe2⟩ := ih label2 label1 hnd.2 h0' h
        refine ⟨?_, by rw [hlab2, hlab], by rw [httl2, httl], by rw [hmh2, hmh], ?_⟩
        · intro rt' hrt'
          rcases List.mem_cons.1 hrt' with heq | hmem
          · subst heq
            obtain ⟨h1, h2⟩ := hframe2 _ hnd.1
            exact KindCompiled_congr lib origin dv label2 label1 _ hlab2 httl2 h1 h2 hk
          · exact hks rt' hmem
        · intro k hk'
          simp only [List.map_cons, List.mem_cons, not_or] at hk'
          obtain ⟨h1, h2⟩ := hframe2 k hk'.2
          obtain ⟨h3, h4⟩ := hframe k hk'.1
          exact ⟨by rw [h1, h3], by rw [h2, h4]⟩

/-- One round of the loop over `data` that ends without a panic: the label's
definition is an object, the zone holds the compiled label under the key `dk`,
and nothing else of the zone has changed. -/
theorem setupLabel_ok (lib : Lib) (zone zone1 : Zone) (dk : String) (dv_inter : JValue)
    (h : setupLabel lib zone dk dv_inter = (zone1, none)) :
    ∃ dv label, dv_inter = .obj dv ∧
      LabelCompiled lib zone.Origin zone.Options dk dv label ∧
      (∀ t, t ∉ recordTypes.map Prod.snd → label.Records t = none) ∧
      zone1.Labels = Function.update zone.Labels dk (some label) ∧
      zone1.Origin = zone.Origin ∧ zone1.Options = zone.Options ∧
      zone1.LenLabels = zone.LenLabels ∧ zone1.LastRead = zone.LastRead := by
  cases dv_inter with
  | obj dv =>
    simp only [setupLabel, AddLabel] at h
    cases ht : labelOverride dv "ttl" zone.Options.Ttl with
    | error e => rw [ht] at h; simp at h
    | ok ttl =>
      rw [ht] at h
      simp only at h
      cases hm : labelOverride dv "max_hosts" zone.Options.MaxHosts with
      | error e => rw [hm] at h; simp at h
      | ok maxHosts =>
        rw [hm] at h
        simp only at h
        generalize hl2 : Label.mk dk maxHosts ttl (fun _ => none) (fun _ => 0) = label2 at h
        cases hs : setupRecordTypes lib zone.Origin dv recordTypes label2 with
        | mk label3 err =>
          rw [hs] at h
          simp only [Prod.mk.injEq] at h
          obtain ⟨hz, he⟩ := h
          subst he
          have hnd : (recordTypes.map Prod.snd).Nodup := by decide
          have h0 : ∀ rt ∈ recordTypes, label2.Weight rt.2 = 0 ∧ label2.Records rt.2 = none := by
            intro rt _
            rw [← hl2]
            exact ⟨rfl, rfl⟩
          obtain ⟨hks, hlab, httl, hmh, hframe⟩ :=
            setupRecordTypes_ok lib zone.Origin dv recordTypes label2 label3 hnd h0 hs
          refine ⟨dv, label3, rfl, ⟨?_, ?_, ?_, hks, ?_⟩, ?_, ?_, ?_, ?_, ?_, ?_⟩
          · rw [hlab, ← hl2]
          · rw [httl, ← hl2, ht]
          · rw [hmh, ← hl2, hm]
          · intro t ht'
            rw [(hframe t ht').2, ← hl2]
          · intro t ht'
            rw [(hframe t ht').1, ← hl2]
          · rw [← hz]
            simp [storeLabel]
          · rw [← hz]; rfl
          · rw [← hz]; rfl
          · rw [← hz]; rfl
          · rw [← hz]; rfl
  | null => simp [setupLabel] at h
  | bool b => simp [setupLabel] at h
  | num x => simp [setupLabel] at h
  | str s => simp [setupLabel] at h
  | arr xs => simp [setupLabel] at h

/-- The loop over `data`, when it ends without a panic: every label of the zone
was there before or is the compiled label of an entry of `data`. -/
theorem setupLabels_ok (lib : Lib) (data : List (String × JValue)) :
    ∀ (zone zone1 : Zone), setupLabels lib data zone = (zone1, none) →
      zone1.Origin = zone.Origin ∧ zone1.Options = zone.Options ∧
      zone1.LenLabels = zone.LenLabels ∧ zone1.LastRead = zone.LastRead ∧
      ∀ k label, zone1.Labels k = some label →
        zone.Labels k = some label ∨
        ∃ dv, (k, JValue.obj dv) ∈ data ∧
          LabelCompiled lib zone.Origin zone.Options k dv label ∧
          ∀ t, t ∉ recordTypes.map Prod.snd → label.Records t = none := by
  induction data with
  | nil =>
    intro zone zone1 h
    simp only [setupLabels, Prod.mk.injEq, and_true] at h
    subst h
    exact ⟨rfl, rfl, rfl, rfl, fun _ _ hl => Or.inl hl⟩
  | cons kv rest ih =>
    intro zone zone1 h
    obtain ⟨dk, dv_inter⟩ := kv
    rw [setupLabels] at h
    cases hs : setupLabel lib zone dk dv_inter with
    | mk zone2 err =>
      rw [hs] at h
      cases err with
      | some e => simp at h
      | none =>
        simp only at h
        obtain ⟨dv, label2, hdv, hcomp, hnone, hlabels, horig, hopts, hlen, hlast⟩ :=
          setupLabel_ok lib zone zone2 dk dv_inter hs
        obtain ⟨horig1, hopts1, hlen1, hlast1, hall⟩ := ih zone2 zone1 h
        refine ⟨by rw [horig1, horig], by rw [hopts1, hopts], by rw [hlen1, hlen],
          by rw [hlast1, hlast], ?_⟩
        intro k label hk
        rcases hall k label hk with hold | ⟨dv', hmem, hc, hn⟩
        · rw [hlabels] at hold
          by_cases hkd : k = dk
          · subst hkd
            rw [Function.update_same] at hold
            simp only [Option.some.injEq] at hold
            subst hold
            subst hdv
            exact Or.inr ⟨dv, List.mem_cons_self _ _, hcomp, hnone⟩
          · rw [Function.update_noteq hkd] at hold
            exact Or.inl hold
        · rw [horig, hopts] at hc
          exact Or.inr ⟨dv', List.mem_cons_of_mem _ hmem, hc, hn⟩

/-- The zone that `setupSOA` leaves when it does not panic: the root label, the
one found or a fresh one, with the single SOA record that `dns.NewRR` parsed. -/
theorem setupSOA_ok (lib : Lib) (zone zone1 : Zone) (h : setupSOA lib zone = (zone1, none)) :
    ∃ label0 ns rr,
      (zone.Labels "" = some label0 ∨
        (zone.Labels "" = none ∧ label0 = (AddLabel zone "").2)) ∧
      primaryNs label0 = .ok ns ∧
      lib.NewRR (soaText zone.Origin ns zone.Options.Contact zone.Options.Serial
        zone.Options.Ttl) = some rr ∧
      zone1.Labels = Function.update zone.Labels ""
        (some (Label.mk label0.Label label0.MaxHosts label0.Ttl
          (Function.update label0.Records TypeSOA (some [⟨some rr, 0⟩])) label0.Weight)) ∧
      zone1.Origin = zone.Origin ∧ zone1.Options = zone.Options ∧
      zone1.LenLabels = zone.LenLabels ∧ zone1.LastRead = zone.LastRead := by
  unfold setupSOA at h
  cases hroot : zone.Labels "" with
  | some label =>
    rw [hroot] at h
    simp only at h
    cases hp : primaryNs label with
    | error e => rw [hp] at h; simp at h
    | ok ns =>
      rw [hp] at h
      simp only at h
      cases hn : lib.NewRR (soaText zone.Origin ns zone.Options.Contact zone.Options.Serial
          zone.Options.Ttl) with
      | none => rw [hn] at h; simp at h
      | some rr =>
        rw [hn] at h
        simp only [Prod.mk.injEq, and_true] at h
        subst h
        exact ⟨label, ns, rr, Or.inl rfl, hp, hn, rfl, rfl, rfl, rfl, rfl⟩
  | none =>
    rw [hroot] at h
    simp only [AddLabel] at h
    cases hp : primaryNs ⟨"", zone.Options.MaxHosts, zone.Options.Ttl, fun _ => none,
        fun _ => 0⟩ with
    | error e => rw [hp] at h; simp at h
    | ok ns =>
      rw [hp] at h
      simp only at h
      cases hn : lib.NewRR (soaText zone.Origin ns zone.Options.Contact zone.Options.Serial
          zone.Options.Ttl) with
      | none => rw [hn] at h; simp at h
      | some rr =>
        rw [hn] at h
        simp only [Prod.mk.injEq, and_true] at h
        subst h
        refine ⟨_, ns, rr, Or.inr ⟨rfl, rfl⟩, hp, hn, ?_, rfl, rfl, rfl, rfl⟩
        simp [storeLabel, AddLabel]

theorem LabelCompiled_soa (lib : Lib) (origin : String) (opts : ZoneOptions) (dk : String)
    (dv : List (String × JValue)) (label : Label) (rs : Option Records)
    (h : LabelCompiled lib origin opts dk dv label) :
    LabelCompiled lib origin opts dk dv
      (Label.mk label.Label label.MaxHosts label.Ttl
        (Function.update label.Records TypeSOA rs) label.Weight) := by
  obtain ⟨h1, h2, h3, h4, h5⟩ := h
  refine ⟨h1, h2, h3, ?_, h5⟩
  intro rt hrt
  refine KindCompiled_congr lib origin dv label _ rt rfl rfl ?_ rfl (h4 rt hrt)
  have hne : rt.2 ≠ TypeSOA := by
    intro heq
    have : TypeSOA ∈ recordTypes.map Prod.snd := by
      rw [← heq]; exact List.mem_map_of_mem _ hrt
    revert this
    decide
  show Function.update label.Records TypeSOA rs rt.2 = _
  rw [Function.update_noteq hne]

/-- The labels of a zone that `setupZoneData` compiled, from a zone without
labels, to the end: each is the compiled label of an entry of `data`, or it is
the root label that `setupSOA` made, which holds the SOA record only. -/
theorem setupZoneData_ok (lib : Lib) (data : List (String × JValue)) (zone zone1 : Zone)
    (h0 : ∀ k, zone.Labels k = none) (h : setupZoneData lib data zone = (zone1, none)) :
    ∀ k label, zone1.Labels k = some label →
      (∃ dv, (k, JValue.obj dv) ∈ data ∧
        LabelCompiled lib zone.Origin zone.Options k dv label) ∨
      (k = "" ∧ ∀ t, label.Weight t = 0 ∧ (t ≠ TypeSOA → label.Records t = none)) := by
  unfold setupZoneData at h
  cases hs : setupLabels lib data zone with
  | mk zone2 err =>
    rw [hs] at h
    cases err with
    | some e => simp at h
    | none =>
      simp only at h
      obtain ⟨horig, hopts, _, _, hall⟩ := setupLabels_ok lib data zone zone2 hs
      obtain ⟨label0, ns, rr, hroot, _, _, hlabels, _, _, _, _⟩ := setupSOA_ok lib zone2 zone1 h
      intro k label hk
      rw [hlabels] at hk
      by_cases hkr : k = ""
      · subst hkr
        rw [Function.update_same] at hk
        simp only [Option.some.injEq] at hk
        subst hk
        rcases hroot with hfound | ⟨_, hfresh⟩
        · rcases hall "" label0 hfound with hold | ⟨dv, hmem, hc, _⟩
          · rw [h0] at hold; cases hold
          · exact Or.inl ⟨dv, hmem, LabelCompiled_soa lib _ _ _ dv label0 _ hc⟩
        · refine Or.inr ⟨rfl, ?_⟩
          intro t
          subst hfresh
          refine ⟨rfl, ?_⟩
          intro ht
          simp [AddLabel, Function.update_noteq ht]
      · rw [Function.update_noteq hkr] at hk
        rcases hall k label hk with hold | ⟨dv, hmem, hc, _⟩
        · rw [h0] at hold; cases hold
        · exact Or.inl ⟨dv, hmem, hc⟩

/-! ## Weight order (C1) -/

/-- Insertion sort by descending weight meets the contract of `sort.Sort`. -/
theorem demoLib_SortOk : demoLib.SortOk := by
  intro rs
  have : IsTotal Record (fun a b => a.Weight ≥ b.Weight) := ⟨fun a b => le_total b.Weight a.Weight⟩
  have : IsTrans Record (fun a b => a.Weight ≥ b.Weight) :=
    ⟨fun a b c hab hbc => le_trans hbc hab⟩
  refine ⟨List.perm_insertionSort _ rs, ?_⟩
  have hs := List.sorted_insertionSort (fun a b : Record => a.Weight ≥ b.Weight) rs
  refine List.Pairwise.imp ?_ hs
  intro a b hab
  simp only [RecordsByWeight.Less, decide_eq_false_iff_not, not_lt]
  exact hab

/-- C1. In a zone that `setupZoneData` compiled without a panic, for every label
and record kind whose accumulated weight is greater than 0, the compiled record
sequence is a permutation of the records built from the raw entries of that kind
and is in non-increasing order of weight. `sort.Sort` is taken by its contract. -/
theorem setupZoneData_sorted (lib : Lib) (hsort : lib.SortOk)
    (data : List (String × JValue)) (zone zone1 : Zone)
    (h0 : ∀ k, zone.Labels k = none)
    (h : setupZoneData lib data zone = (zone1, none))
    (k : String) (label : Label) (hk : zone1.Labels k = some label)
    (t : Nat) (hw : label.Weight t > 0) :
    ∃ dv rType rdata entries built rs,
      (k, JValue.obj dv) ∈ data ∧ (rType, t) ∈ recordTypes ∧
      dv.lookup rType = some rdata ∧ rawRecords rdata = .ok entries ∧
      List.Forall₂ (fun e r => buildRecord lib t label zone.Origin e = .ok r) entries built ∧
      label.Records t = some rs ∧ rs.Perm built ∧
      rs.Pairwise (fun a b => a.Weight ≥ b.Weight) := by
  rcases setupZoneData_ok lib data zone zone1 h0 h k label hk with
    ⟨dv, hmem, _, _, _, hkinds, hother⟩ | ⟨_, hfresh⟩
  · by_cases ht : t ∈ recordTypes.map Prod.snd
    · obtain ⟨rt, hrt, hrt2⟩ := List.mem_map.1 ht
      obtain ⟨rType, t'⟩ := rt
      simp only at hrt2
      subst hrt2
      rcases hkinds _ hrt with ⟨_, _, hz⟩ | ⟨rdata, entries, built, h1, h2, h3, h4, h5⟩
      · simp only at hz
        omega
      · simp only at h1 h3 h4 h5
        have hpos : weightSum 0 built > 0 := by rw [← h4]; exact hw
        rw [if_pos hpos] at h5
        obtain ⟨hperm, hpw⟩ := hsort built
        refine ⟨dv, rType, rdata, entries, built, _, hmem, hrt, h1, h2, h3, h5, hperm, ?_⟩
        refine List.Pairwise.imp ?_ hpw
        intro a b hab
        simp only [RecordsByWeight.Less, decide_eq_false_iff_not, not_lt] at hab
        exact hab
    · have := hother t ht
      omega
  · have := (hfresh t).1
    omega

set_option maxRecDepth 100000 in
/-- C1 at the weights 5, 0, 10 of `weightedData`: the accumulated weight is 15 and
the compiled sequence has the weights 10, 5, 0. -/
theorem setupZoneData_sorted_witness :
    weightedLabel.Weight TypeA = 15 ∧
    ∃ rs, weightedLabel.Records TypeA = some rs ∧
      rs.map (fun r => r.Weight) = [10, 5, 0] ∧
      rs.Pairwise (fun a b => a.Weight ≥ b.Weight) := by
  obtain ⟨_, _, _, _, _, rs, _, _, _, _, _, hrs, _, hpw⟩ :=
    setupZoneData_sorted demoLib demoLib_SortOk weightedData (newZone demoLib "example.com")
      weightedZone (fun _ => rfl) rfl "www" weightedLabel rfl TypeA (by decide)
  refine ⟨by decide, rs, hrs, ?_, hpw⟩
  have hval : weightedLabel.Records TypeA = some
      [⟨some (RR.A ⟨"www.example.com.", 1, 1, 120⟩ [192, 0, 2, 3]), 10⟩,
       ⟨some (RR.A ⟨"www.example.com.", 1, 1, 120⟩ [192, 0, 2, 1]), 5⟩,
       ⟨some (RR.A ⟨"www.example.com.", 1, 1, 120⟩ [192, 0, 2, 2]), 0⟩] := by rfl
  rw [hval] at hrs
  simp only [Option.some.injEq] at hrs
  subst hrs
  rfl

/-! ## The TTL floor of NS records (C10) -/

theorem wrapInt_zero : wrapInt 0 = 0 := by decide

theorem weightSum_zero (built : List Record) (h : ∀ r ∈ built, r.Weight = 0) :
    weightSum 0 built = 0 := by
  unfold weightSum
  induction built with
  | nil => rfl
  | cons r rest ih =>
    rw [List.foldl_cons, h r (List.mem_cons_self _ _)]
    simp only [add_zero, wrapInt_zero]
    exact ih (fun r' hr' => h r' (List.mem_cons_of_mem _ hr'))

theorem Forall₂_mem_right {α β : Type} {R : α → β → Prop} {l1 : List α} {l2 : List β}
    (h : List.Forall₂ R l1 l2) {b : β} (hb : b ∈ l2) : ∃ a ∈ l1, R a b := by
  induction h with
  | nil => cases hb
  | cons hab _ ih =>
    rcases List.mem_cons.1 hb with heq | hmem
    · subst heq
      exact ⟨_, List.mem_cons_self _ _, hab⟩
    · obtain ⟨a, ha, hr⟩ := ih hmem
      exact ⟨a, List.mem_cons_of_mem _ ha, hr⟩

theorem buildNS_ok (hdr : RR_Header) (e : RawEntry) (r : Record)
    (h : buildNS hdr e = .ok r) :
    r.Weight = 0 ∧ ∃ ns, r.RR = some
      (RR.NS (if hdr.Ttl < 86400 then { hdr with Ttl := 86400 } else hdr) ns) := by
  cases e with
  | val v =>
    cases v with
    | str s =>
      simp only [buildNS, Except.ok.injEq] at h
      subst h
      exact ⟨rfl, _, rfl⟩
    | null => simp [buildNS] at h
    | bool b => simp [buildNS] at h
    | num x => simp [buildNS] at h
    | arr xs => simp [buildNS] at h
    | obj kvs => simp [buildNS] at h
  | strs xs =>
    rcases xs with _ | ⟨a, _ | ⟨b, rest⟩⟩
    · simp [buildNS] at h
    · simp [buildNS] at h
    · simp only [buildNS, Except.ok.injEq] at h
      subst h
      exact ⟨rfl, _, rfl⟩

/-- The NS builder: the record has weight 0 and its header TTL is the label TTL as
uint32, raised to 86400. -/
theorem buildRecord_ns (lib : Lib) (label : Label) (origin : String) (e : RawEntry)
    (r : Record) (h : buildRecord lib TypeNS label origin e = .ok r) :
    r.Weight = 0 ∧ ∃ hdr ns, r.RR = some (RR.NS hdr ns) ∧
      hdr.Ttl = max (label.Ttl % 2 ^ 32).toNat 86400 := by
  have hb : buildRecord lib TypeNS label origin e =
      buildNS (recordHeader TypeNS label origin) e := by
    simp [buildRecord]
  rw [hb] at h
  obtain ⟨hw, ns, hrr⟩ := buildNS_ok _ e r h
  refine ⟨hw, _, ns, hrr, ?_⟩
  have hh : (recordHeader TypeNS label origin).Ttl = (label.Ttl % 2 ^ 32).toNat := rfl
  split
  · rename_i hlt
    rw [hh] at hlt
    simp only
    omega
  · rename_i hlt
    rw [hh] at hlt ⊢
    omega

/-- C10. In a zone that `setupZoneData` compiled without a panic, for every label
whose TTL `t` satisfies `0 ≤ t < 2^32`, every record of the label's NS sequence is
an NS record whose header TTL equals `max t 86400`. -/
theorem ns_ttl_floor (lib : Lib) (data : List (String × JValue)) (zone zone1 : Zone)
    (h0 : ∀ k, zone.Labels k = none)
    (h : setupZoneData lib data zone = (zone1, none))
    (k : String) (label : Label) (hk : zone1.Labels k = some label)
    (t : Int) (ht : label.Ttl = t) (ht0 : 0 ≤ t) (ht1 : t < 2 ^ 32)
    (rs : Records) (hrs : label.Records TypeNS = some rs) (r : Record) (hr : r ∈ rs) :
    ∃ hdr ns, r.RR = some (RR.NS hdr ns) ∧ (hdr.Ttl : Int) = max t 86400 := by
  rcases setupZoneData_ok lib data zone zone1 h0 h k label hk with
    ⟨dv, _, _, _, _, hkinds, _⟩ | ⟨_, hfresh⟩
  · have hmemk : (("ns", TypeNS) : String × Nat) ∈ recordTypes := by decide
    rcases hkinds _ hmemk with ⟨_, hnone, _⟩ | ⟨rdata, entries, built, _, _, h3, _, h5⟩
    · simp only at hnone
      rw [hnone] at hrs
      cases hrs
    · simp only at h3 h5
      have hz : weightSum 0 built = 0 := by
        apply weightSum_zero
        intro r' hr'
        obtain ⟨e, _, he⟩ := Forall₂_mem_right h3 hr'
        exact (buildRecord_ns lib label zone.Origin e r' he).1
      rw [hz] at h5
      simp only [gt_iff_lt, lt_self_iff_false, if_false] at h5
      rw [h5] at hrs
      simp only [Option.some.injEq] at hrs
      subst hrs
      obtain ⟨e, _, he⟩ := Forall₂_mem_right h3 hr
      obtain ⟨_, hdr, ns, hrr, httl⟩ := buildRecord_ns lib label zone.Origin e r he
      refine ⟨hdr, ns, hrr, ?_⟩
      rw [httl, ht]
      have : (t % 2 ^ 32).toNat = t.toNat := by
        rw [Int.emod_eq_of_lt ht0 ht1]
      rw [this]
      omega
  · have := (hfresh TypeNS).2 (by decide)
    rw [this] at hrs
    cases hrs

set_option maxRecDepth 100000 in
/-- C10 at the label TTL 60 of `nsData`: the first NS record has the TTL 86400; and
the NS builder on a label with the TTL 100000 keeps 100000. -/
theorem ns_ttl_floor_witness :
    nsLabel.Ttl = 60 ∧
    nsLabel.Records TypeNS = some
      [⟨some (RR.NS ⟨".example.com.", 2, 1, 86400⟩ "ns2.example.com."), 0⟩,
       ⟨some (RR.NS ⟨".example.com.", 2, 1, 86400⟩ "ns1.example.com."), 0⟩] ∧
    (∃ hdr ns, (⟨some (RR.NS ⟨".example.com.", 2, 1, 86400⟩ "ns2.example.com."), 0⟩ :
        Record).RR = some (RR.NS hdr ns) ∧ (hdr.Ttl : Int) = max 60 86400) ∧
    buildRecord demoLib TypeNS ⟨"", 2, 100000, fun _ => none, fun _ => 0⟩ "example.com"
      (.val (.str "ns1.example.com")) =
      .ok ⟨some (RR.NS ⟨".example.com.", 2, 1, 100000⟩ "ns1.example.com."), 0⟩ :=
  ⟨rfl, rfl,
   ns_ttl_floor demoLib nsData (newZone demoLib "example.com") nsZone (fun _ => rfl) rfl
     "" nsLabel rfl 60 rfl (by decide) (by decide)
     [⟨some (RR.NS ⟨".example.com.", 2, 1, 86400⟩ "ns2.example.com."), 0⟩,
      ⟨some (RR.NS ⟨".example.com.", 2, 1, 86400⟩ "ns1.example.com."), 0⟩]
     rfl _ (List.mem_cons_self _ _),
   rfl⟩

/-! ## setupSOA (C2, C3) -/

/-- C2, the code at the failing input and beside it. A root label without an entry
for the NS kind gets the default name `ns`; a root label whose NS sequence starts
with an NS record gets that record's name; a root label whose NS sequence is empty
makes `setupSOA` panic on `record[0]`, and `readZoneFile` fails on the zone file
`emptyNsFile`, whose root label is defined with `"ns": []`. -/
theorem setupSOA_primaryNs :
    (∀ label : Label, label.Records TypeNS = none → primaryNs label = .ok "ns") ∧
    (∀ (label : Label) (hdr : RR_Header) (ns : String) (w : Int) (rest : Records),
      label.Records TypeNS = some (⟨some (RR.NS hdr ns), w⟩ :: rest) →
      primaryNs label = .ok ns) ∧
    (∀ (lib : Lib) (zone : Zone) (label : Label), zone.Labels "" = some label →
      label.Records TypeNS = some [] → (setupSOA lib zone).2 = some .indexOutOfRange) ∧
    (∀ lib : Lib, (readZoneFile lib "example.com" emptyNsFile).2 = some .indexOutOfRange) := by
  refine ⟨?_, ?_, ?_, ?_⟩
  · intro label h
    simp [primaryNs, h]
  · intro label hdr ns w rest h
    simp [primaryNs, h]
  · intro lib zone label hroot h
    simp [setupSOA, hroot, primaryNs, h]
  · intro lib
    rfl

/-- A zone that `setupSOA` leaves without a panic has a root label whose SOA
sequence holds exactly one record. -/
theorem setupSOA_root_soa (lib : Lib) (zone zone1 : Zone)
    (h : setupSOA lib zone = (zone1, none)) :
    ∃ label r, zone1.Labels "" = some label ∧ label.Records TypeSOA = some [r] := by
  obtain ⟨label0, ns, rr, _, _, _, hlabels, _⟩ := setupSOA_ok lib zone zone1 h
  refine ⟨Label.mk label0.Label label0.MaxHosts label0.Ttl
    (Function.update label0.Records TypeSOA (some [⟨some rr, 0⟩])) label0.Weight,
    ⟨some rr, 0⟩, ?_, ?_⟩
  · rw [hlabels, Function.update_same]
  · simp

/-- The `pgeodns` zone that `setupPgeodnsZone` publishes has a root label with
exactly one SOA record. -/
theorem setupPgeodnsZone_root_soa (lib : Lib) (zones zones1 : Zones)
    (h : setupPgeodnsZone lib zones = (zones1, none)) :
    ∃ zone label r, zones1 "pgeodns" = some zone ∧ zone.Labels "" = some label ∧
      label.Records TypeSOA = some [r] := by
  simp only [setupPgeodnsZone] at h
  generalize hz0 : Zone.mk "pgeodns"
    (Function.update (fun _ => none) "" (some (Label.mk "" 0 0 (fun _ => none) (fun _ => 0))))
    (lib.LenLabels "pgeodns") emptyZone.Options emptyZone.LastRead = zone0 at h
  cases hs : setupSOA lib zone0 with
  | mk zone1 err =>
    rw [hs] at h
    cases err with
    | some e => simp at h
    | none =>
      simp only [addHandler, Prod.mk.injEq] at h
      obtain ⟨h, _⟩ := h
      subst h
      obtain ⟨label, r, h1, h2⟩ := setupSOA_root_soa lib zone0 zone1 hs
      exact ⟨zone1, label, r, by rw [Function.update_same], h1, h2⟩

/-- C3. A zone that `readZoneFile` returns without an error has a root label under
the key `""`, and the SOA sequence of that label has exactly one record, whatever
the data block of the document defines. -/
theorem readZoneFile_root_soa (lib : Lib) (zoneName : String) (file : ZoneFile)
    (zone : Zone) (h : readZoneFile lib zoneName file = (some zone, none)) :
    ∃ label r, zone.Labels "" = some label ∧ label.Records TypeSOA = some [r] := by
  cases file with
  | unreadable => simp [readZoneFile] at h
  | badJSON => simp [readZoneFile] at h
  | object objmap =>
    simp only [readZoneFile] at h
    cases ho : readOptions objmap (newZone lib zoneName) [] with
    | mk zone1 res =>
      rw [ho] at h
      cases res with
      | error e => simp at h
      | ok data =>
        simp only at h
        cases hz : setupZoneData lib data zone1 with
        | mk zone2 err =>
          rw [hz] at h
          simp only [Prod.mk.injEq, Option.some.injEq] at h
          obtain ⟨h1, h2⟩ := h
          subst h1 h2
          unfold setupZoneData at hz
          cases hs : setupLabels lib data zone1 with
          | mk zone3 err3 =>
            rw [hs] at hz
            cases err3 with
            | some e => simp at hz
            | none => exact setupSOA_root_soa lib zone3 zone2 hz

set_option maxRecDepth 100000 in
/-- C3 on `weightedFile`, whose data block defines no root label, and on `nsFile`,
whose data block defines one: both compile, and the root label holds one SOA
record. -/
theorem readZoneFile_root_soa_witness :
    (∃ zone label r, readZoneFile demoLib "example.com" weightedFile = (some zone, none) ∧
      zone.Labels "" = some label ∧ label.Records TypeSOA = some [r]) ∧
    (∃ zone label r, readZoneFile demoLib "example.com" nsFile = (some zone, none) ∧
      zone.Labels "" = some label ∧ label.Records TypeSOA = some [r]) := by
  have h1 : readZoneFile demoLib "example.com" weightedFile =
      (some ((readZoneFile demoLib "example.com" weightedFile).1.getD emptyZone), none) := rfl
  have h2 : readZoneFile demoLib "example.com" nsFile =
      (some ((readZoneFile demoLib "example.com" nsFile).1.getD emptyZone), none) := rfl
  obtain ⟨l1, r1, ha, hb⟩ := readZoneFile_root_soa demoLib "example.com" weightedFile _ h1
  obtain ⟨l2, r2, hc, hd⟩ := readZoneFile_root_soa demoLib "example.com" nsFile _ h2
  exact ⟨⟨_, l1, r1, h1, ha, hb⟩, ⟨_, l2, r2, h2, hc, hd⟩⟩

/-! ## zonesReadDir: one file -/

theorem compiles_eq_true (lib : Lib) (fs : String → ZoneFile) (file : FileInfo) :
    compiles lib fs file = true ↔
      ∃ zone, readZoneFile lib (zoneNameOf file) (fs file.Name) = (some zone, none) := by
  unfold compiles
  rcases hr : readZoneFile lib (zoneNameOf file) (fs file.Name) with ⟨config, err⟩
  cases config with
  | none => simp
  | some c =>
    cases err with
    | none => simp
    | some e => simp

/-- What one round of the loop over the listing does to the registry, to the seen
names and to the list of compiled files, when it returns. -/
theorem readDirFile_ok (lib : Lib) (fs : String → ZoneFile) (st st1 : DirState)
    (file : FileInfo) (h : readDirFile lib fs st file = .ok st1) :
    st1.zones =
        (if isZoneFile file = true ∧ needsRead st.zones (zoneNameOf file) file = true then
          Function.update st.zones (zoneNameOf file) (some (published lib fs file))
        else st.zones) ∧
    st1.seenZones =
        (if isZoneFile file = true then zoneNameOf file :: st.seenZones else st.seenZones) ∧
    st1.compiled =
        (if isZoneFile file = true ∧ needsRead st.zones (zoneNameOf file) file = true then
          file.Name :: st.compiled
        else st.compiled) ∧
    (¬ (isZoneFile file = true ∧ needsRead st.zones (zoneNameOf file) file = true) →
      st1.parse_err = st.parse_err) := by
  unfold readDirFile at h
  unfold isZoneFile zoneNameOf published
  by_cases hj : HasSuffix (ToLower file.Name) ".json" = true
  · by_cases hn : needsRead st.zones (zoneNameFromFile file.Name) file = true
    · simp only [hj, hn, if_true, and_self, zoneNameOf, not_true_eq_false, false_implies,
        and_true] at h ⊢
      rcases hr : readZoneFile lib (zoneNameFromFile file.Name) (fs file.Name) with ⟨config, err⟩
      rw [hr] at h
      cases config with
      | none =>
        simp only [Except.ok.injEq] at h
        subst h
        exact ⟨rfl, rfl, rfl⟩
      | some c =>
        cases err with
        | none =>
          simp only [addHandler] at h
          cases hh : HandleFunc (zoneNameFromFile file.Name) with
          | none =>
            rw [hh] at h
            simp only [Except.ok.injEq] at h
            subst h
            exact ⟨rfl, rfl, rfl⟩
          | some e =>
            rw [hh] at h
            cases h
        | some e =>
          simp only [Except.ok.injEq] at h
          subst h
          exact ⟨rfl, rfl, rfl⟩
    · rw [Bool.not_eq_true] at hn
      simp only [hj, hn, if_true, Bool.false_eq_true, if_false, Except.ok.injEq] at h
      subst h
      simp [hj, hn]
  · rw [Bool.not_eq_true] at hj
    simp only [hj, Bool.false_eq_true, if_false, Except.ok.injEq] at h
    subst h
    simp [hj]

/-- A round returns unless it hands a zone with the empty name to `addHandler`. -/
theorem readDirFile_returns (lib : Lib) (fs : String → ZoneFile) (st : DirState)
    (file : FileInfo)
    (h : isZoneFile file = true → zoneNameOf file = "" →
      needsRead st.zones "" file = true → compiles lib fs file = false) :
    ∃ st1, readDirFile lib fs st file = .ok st1 := by
  unfold readDirFile
  by_cases hj : HasSuffix (ToLower file.Name) ".json" = true
  · by_cases hn : needsRead st.zones (zoneNameFromFile file.Name) file = true
    · simp only [hj, hn, if_true]
      rcases hr : readZoneFile lib (zoneNameFromFile file.Name) (fs file.Name) with ⟨config, err⟩
      cases config with
      | none => exact ⟨_, rfl⟩
      | some c =>
        cases err with
        | some e => exact ⟨_, rfl⟩
        | none =>
          simp only [addHandler]
          have hne : zoneNameFromFile file.Name ≠ "" := by
            intro he
            have hc := h hj he (by rw [← he]; exact hn)
            have ht : compiles lib fs file = true :=
              (compiles_eq_true lib fs file).2 ⟨c, hr⟩
            rw [hc] at ht
            exact Bool.false_ne_true ht
          have hh : HandleFunc (zoneNameFromFile file.Name) = none := by
            simp [HandleFunc, hne]
          rw [hh]
          exact ⟨_, rfl⟩
    · rw [Bool.not_eq_true] at hn
      simp only [hj, hn, if_true, Bool.false_eq_true, if_false]
      exact ⟨_, rfl⟩
  · rw [Bool.not_eq_true] at hj
    simp only [hj, Bool.false_eq_true, if_false]
    exact ⟨_, rfl⟩

/-- A round that hands a zone with the empty name to `addHandler` panics. -/
theorem readDirFile_panics (lib : Lib) (fs : String → ZoneFile) (st : DirState)
    (file : FileInfo) (hj : isZoneFile file = true) (he : zoneNameOf file = "")
    (hn : needsRead st.zones "" file = true) (hc : compiles lib fs file = true) :
    readDirFile lib fs st file = .error .invalidPattern := by
  obtain ⟨zone, hz⟩ := (compiles_eq_true lib fs file).1 hc
  unfold isZoneFile at hj
  unfold zoneNameOf at he hz
  unfold readDirFile
  simp only [hj, he, hn, if_true]
  rw [he] at hz
  rw [hz]
  rfl

/-- A file that a round leaves to be read was to be read before the round: a round
replaces an entry only by a newer one. -/
theorem readDirFile_needsRead (lib : Lib) (fs : String → ZoneFile) (st st1 : DirState)
    (file : FileInfo) (h : readDirFile lib fs st file = .ok st1) (k : String) (g : FileInfo)
    (hg : needsRead st1.zones k g = true) : needsRead st.zones k g = true := by
  rw [(readDirFile_ok lib fs st st1 file h).1] at hg
  split at hg
  · rename_i hc
    by_cases hk : k = zoneNameOf file
    · subst hk
      simp only [needsRead, Function.update_same, decide_eq_true_eq] at hg
      have hn := hc.2
      unfold needsRead at hn ⊢
      cases hz : st.zones (zoneNameOf file) with
      | none => rfl
      | some z =>
        rw [hz] at hn
        simp only [decide_eq_true_eq] at hn ⊢
        have hp : (published lib fs file).LastRead = file.ModTime := rfl
        omega
    · simpa only [needsRead, Function.update_noteq hk] using hg
  · exact hg

/-! ## zonesReadDir: the loop over the listing -/

theorem listedNames_cons (file : FileInfo) (files : List FileInfo) :
    listedNames (file :: files) =
      if isZoneFile file = true then zoneNameOf file :: listedNames files
      else listedNames files := by
  unfold listedNames
  by_cases h : isZoneFile file = true
  · simp [List.filter_cons, h]
  · simp [List.filter_cons, h]

theorem mem_listedNames {files : List FileInfo} {k : String} :
    k ∈ listedNames files ↔ ∃ file ∈ files, isZoneFile file = true ∧ zoneNameOf file = k := by
  unfold listedNames
  simp only [List.mem_map, List.mem_filter]
  constructor
  · rintro ⟨f, ⟨h1, h2⟩, h3⟩
    exact ⟨f, h1, h2, h3⟩
  · rintro ⟨f, h1, h2, h3⟩
    exact ⟨f, ⟨h1, h2⟩, h3⟩

/-- A loop that returns has run the round of its first file and then the loop over
the other files. -/
theorem readDirFiles_cons (lib : Lib) (fs : String → ZoneFile) (file : FileInfo)
    (rest : List FileInfo) (st st2 : DirState)
    (h : readDirFiles lib fs (file :: rest) st = .ok st2) :
    ∃ st1, readDirFile lib fs st file = .ok st1 ∧ readDirFiles lib fs rest st1 = .ok st2 := by
  rw [readDirFiles] at h
  cases hr : readDirFile lib fs st file with
  | error e => rw [hr] at h; cases h
  | ok st1 => rw [hr] at h; exact ⟨st1, rfl, h⟩

/-- The loop returns when no round hands a zone with the empty name to
`addHandler`: no zone file with the empty zone name that is new to the registry,
or newer than its entry, compiles without an error. -/
theorem readDirFiles_returns (lib : Lib) (fs : String → ZoneFile) (files : List FileInfo) :
    ∀ (st : DirState),
      (∀ g ∈ files, isZoneFile g = true → zoneNameOf g = "" →
        needsRead st.zones "" g = true → compiles lib fs g = false) →
      ∃ st2, readDirFiles lib fs files st = .ok st2 := by
  induction files with
  | nil => intro st _; exact ⟨st, rfl⟩
  | cons file rest ih =>
    intro st h
    obtain ⟨st1, h1⟩ := readDirFile_returns lib fs st file (h file (List.mem_cons_self _ _))
    rw [readDirFiles, h1]
    apply ih st1
    intro g hg hj he hn
    exact h g (List.mem_cons_of_mem _ hg) hj he
      (readDirFile_needsRead lib fs st st1 file h1 "" g hn)

/-- The names seen by the loop are the names it started with and the zone names of
the listing. -/
theorem readDirFiles_seenZones (lib : Lib) (fs : String → ZoneFile) (files : List FileInfo) :
    ∀ (st st2 : DirState), readDirFiles lib fs files st = .ok st2 → ∀ (k : String),
      (k ∈ st2.seenZones ↔ k ∈ st.seenZones ∨ k ∈ listedNames files) := by
  induction files with
  | nil =>
    intro st st2 h k
    simp only [readDirFiles, Except.ok.injEq] at h
    subst h
    simp [listedNames]
  | cons file rest ih =>
    intro st st2 h k
    obtain ⟨st1, h1, h2⟩ := readDirFiles_cons lib fs file rest st st2 h
    rw [ih st1 st2 h2 k, (readDirFile_ok lib fs st st1 file h1).2.1, listedNames_cons]
    by_cases hz : isZoneFile file = true
    · simp only [hz, if_true, List.mem_cons]
      tauto
    · simp only [hz, if_false]
      exact Iff.rfl

/-- The loop leaves the entry of a name alone that no zone file of the listing
derives. -/
theorem readDirFiles_untouched (lib : Lib) (fs : String → ZoneFile) (files : List FileInfo) :
    ∀ (st st2 : DirState), readDirFiles lib fs files st = .ok st2 →
      ∀ (k : String), k ∉ listedNames files → st2.zones k = st.zones k := by
  induction files with
  | nil =>
    intro st st2 h k _
    simp only [readDirFiles, Except.ok.injEq] at h
    subst h
    rfl
  | cons file rest ih =>
    intro st st2 h k hk
    obtain ⟨st1, h1, h2⟩ := readDirFiles_cons lib fs file rest st st2 h
    rw [listedNames_cons] at hk
    by_cases hz : isZoneFile file = true
    · simp only [hz, if_true, List.mem_cons, not_or] at hk
      rw [ih st1 st2 h2 k hk.2, (readDirFile_ok lib fs st st1 file h1).1]
      split
      · exact Function.update_noteq hk.1 _ _
      · rfl
    · simp only [hz, if_false] at hk
      rw [ih st1 st2 h2 k hk, (readDirFile_ok lib fs st st1 file h1).1]
      simp [hz]

/-- An entry that is at least as new as a time `c` stays so through the loop: the
loop replaces an entry only by one with a later `LastRead`. -/
theorem readDirFiles_newer (lib : Lib) (fs : String → ZoneFile) (files : List FileInfo) :
    ∀ (st st2 : DirState), readDirFiles lib fs files st = .ok st2 →
      ∀ (k : String) (c : Int), (∃ z, st.zones k = some z ∧ c ≤ z.LastRead) →
        ∃ z, st2.zones k = some z ∧ c ≤ z.LastRead := by
  induction files with
  | nil =>
    intro st st2 h k c hc
    simp only [readDirFiles, Except.ok.injEq] at h
    subst h
    exact hc
  | cons file rest ih =>
    intro st st2 h k c hc
    obtain ⟨st1, h1, h2⟩ := readDirFiles_cons lib fs file rest st st2 h
    apply ih st1 st2 h2
    rw [(readDirFile_ok lib fs st st1 file h1).1]
    split
    · rename_i hcond
      by_cases hk : k = zoneNameOf file
      · subst hk
        rw [Function.update_same]
        refine ⟨_, rfl, ?_⟩
        obtain ⟨z, hz, hcz⟩ := hc
        have hn := hcond.2
        simp only [needsRead, hz, decide_eq_true_eq] at hn
        show c ≤ file.ModTime
        omega
      · rw [Function.update_noteq hk]
        exact hc
    · exact hc

/-- After the loop every zone file of the listing has an entry that is at least as
new as the file. -/
theorem readDirFiles_fresh (lib : Lib) (fs : String → ZoneFile) (files : List FileInfo) :
    ∀ (st st2 : DirState), readDirFiles lib fs files st = .ok st2 →
      ∀ (file : FileInfo), file ∈ files → isZoneFile file = true →
        ∃ z, st2.zones (zoneNameOf file) = some z ∧ file.ModTime ≤ z.LastRead := by
  induction files with
  | nil => intro st st2 _ file h; cases h
  | cons g rest ih =>
    intro st st2 h file hmem hz
    obtain ⟨st1, h1, h2⟩ := readDirFiles_cons lib fs g rest st st2 h
    rcases List.mem_cons.1 hmem with heq | hrest
    · subst heq
      apply readDirFiles_newer lib fs rest st1 st2 h2
      rw [(readDirFile_ok lib fs st st1 file h1).1]
      by_cases hn : needsRead st.zones (zoneNameOf file) file = true
      · simp only [hz, hn, and_self, if_true, Function.update_same]
        exact ⟨_, rfl, le_refl _⟩
      · have hcond : ¬ (isZoneFile file = true ∧
            needsRead st.zones (zoneNameOf file) file = true) := fun hc => hn hc.2
        rw [if_neg hcond]
        unfold needsRead at hn
        cases hzz : st.zones (zoneNameOf file) with
        | none => rw [hzz] at hn; simp at hn
        | some z =>
          rw [hzz] at hn
          simp only [decide_eq_true_eq, not_lt] at hn
          exact ⟨z, rfl, hn⟩
    · exact ih st1 st2 h2 file hrest hz

/-- When the zone files of the listing derive pairwise distinct names, the entry of
a zone file after the loop is the one its own round left. -/
theorem readDirFiles_own (lib : Lib) (fs : String → ZoneFile) (files : List FileInfo) :
    ∀ (st st2 : DirState), readDirFiles lib fs files st = .ok st2 →
      ∀ (file : FileInfo), (listedNames files).Nodup → file ∈ files →
        isZoneFile file = true →
        st2.zones (zoneNameOf file) =
          if needsRead st.zones (zoneNameOf file) file = true then
            some (published lib fs file)
          else st.zones (zoneNameOf file) := by
  induction files with
  | nil => intro st st2 _ file _ h; cases h
  | cons g rest ih =>
    intro st st2 h file hnd hmem hz
    obtain ⟨st1, h1, h2⟩ := readDirFiles_cons lib fs g rest st st2 h
    rw [listedNames_cons] at hnd
    rcases List.mem_cons.1 hmem with heq | hrest
    · subst heq
      simp only [hz, if_true, List.nodup_cons] at hnd
      rw [readDirFiles_untouched lib fs rest st1 st2 h2 _ hnd.1,
        (readDirFile_ok lib fs st st1 file h1).1]
      by_cases hn : needsRead st.zones (zoneNameOf file) file = true
      · simp [hz, hn]
      · simp [hz, hn]
    · have hin : zoneNameOf file ∈ listedNames rest := by
        unfold listedNames
        exact List.mem_map_of_mem _ (List.mem_filter.2 ⟨hrest, hz⟩)
      by_cases hg : isZoneFile g = true
      · simp only [hg, if_true, List.nodup_cons] at hnd
        have hne : zoneNameOf file ≠ zoneNameOf g := by
          intro heq
          rw [heq] at hin
          exact hnd.1 hin
        have hsame : st1.zones (zoneNameOf file) = st.zones (zoneNameOf file) := by
          rw [(readDirFile_ok lib fs st st1 g h1).1]
          split
          · exact Function.update_noteq hne _ _
          · rfl
        rw [ih st1 st2 h2 file hnd.2 hrest hz]
        simp only [needsRead, hsame]
      · simp only [hg, if_false] at hnd
        have hsame : st1.zones = st.zones := by
          rw [(readDirFile_ok lib fs st st1 g h1).1]
          simp [hg]
        rw [ih st1 st2 h2 file hnd hrest hz]
        simp only [needsRead, hsame]

/-- A loop over a listing whose zone files all have an entry at least as new as
the file returns, compiles nothing and leaves the registry as it is. -/
theorem readDirFiles_noop (lib : Lib) (fs : String → ZoneFile) (files : List FileInfo) :
    ∀ (st : DirState),
      (∀ file ∈ files, isZoneFile file = true →
        needsRead st.zones (zoneNameOf file) file = false) →
      ∃ st2, readDirFiles lib fs files st = .ok st2 ∧ st2.zones = st.zones ∧
        st2.compiled = st.compiled ∧ st2.parse_err = st.parse_err := by
  induction files with
  | nil => intro st _; exact ⟨st, rfl, rfl, rfl, rfl⟩
  | cons g rest ih =>
    intro st h
    have hcond : ¬ (isZoneFile g = true ∧ needsRead st.zones (zoneNameOf g) g = true) := by
      intro hc
      have := h g (List.mem_cons_self _ _) hc.1
      rw [this] at hc
      exact Bool.false_ne_true hc.2
    obtain ⟨st1, h1⟩ := readDirFile_returns lib fs st g (by
      intro hj he hn
      exfalso
      apply hcond
      rw [he]
      exact ⟨hj, hn⟩)
    obtain ⟨hz, _, hc, hp⟩ := readDirFile_ok lib fs st st1 g h1
    rw [if_neg hcond] at hz hc
    have hrest : ∀ file ∈ rest, isZoneFile file = true →
        needsRead st1.zones (zoneNameOf file) file = false := by
      intro file hf hj
      rw [hz]
      exact h file (List.mem_cons_of_mem _ hf) hj
    obtain ⟨st2, h2, ha, hb, hd⟩ := ih st1 hrest
    refine ⟨st2, ?_, by rw [ha, hz], by rw [hb, hc], by rw [hd, hp hcond]⟩
    rw [readDirFiles, h1]
    exact h2

/-! ## zonesReadDir: the pruning -/

/-- The round of a name panics only for the empty name. -/
theorem pruneZone_error (seenZones : List String) (k : String) (e : ZoneError)
    (h : pruneZone seenZones k = .error e) :
    k = "" ∧ k ∉ seenZones ∧ e = .invalidPattern := by
  unfold pruneZone at h
  by_cases hp : k = "pgeodns"
  · simp [hp] at h
  · by_cases hs : k ∈ seenZones
    · simp [hp, hs] at h
    · by_cases he : k = ""
      · subst he
        simp only [hp, hs, if_false, HandleFunc, HandleRemove, if_true, Except.error.injEq] at h
        exact ⟨rfl, hs, h.symm⟩
      · simp [hp, hs, HandleRemove, he] at h

/-- The registry that the pruning leaves when it returns: the entries of `pgeodns`
and of the seen names, and no other. -/
theorem pruneZones_ok (zones zones1 : Zones) (seenZones : List String)
    (h : pruneZones zones seenZones = .ok zones1) (k : String) :
    zones1 k = if k = "pgeodns" ∨ k ∈ seenZones then zones k else none := by
  have hfun : zones1 = fun zoneName =>
      match pruneZone seenZones zoneName with
      | .ok false => zones zoneName
      | _ => none := by
    unfold pruneZones at h
    split at h
    · cases h
    · simp only [Except.ok.injEq] at h
      exact h.symm
  rw [hfun]
  simp only
  unfold pruneZone
  by_cases hp : k = "pgeodns"
  · simp [hp]
  · by_cases hs : k ∈ seenZones
    · simp [hp, hs]
    · simp only [hp, hs, if_false, or_self]
      cases HandleRemove k <;> rfl

/-- The pruning returns when the registry has no entry under the empty name, or the
empty name was seen in the listing. -/
theorem pruneZones_returns (zones : Zones) (seenZones : List String)
    (h : "" ∈ seenZones ∨ (zones "").isNone = true) :
    ∃ zones1, pruneZones zones seenZones = .ok zones1 := by
  unfold pruneZones
  split
  · rename_i z e hz he
    obtain ⟨_, hns, _⟩ := pruneZone_error seenZones "" e he
    rcases h with h | h
    · exact absurd h hns
    · rw [hz] at h
      cases h
  · exact ⟨_, rfl⟩

/-- The pruning panics in `dns.HandleRemove` when the registry has an entry under
the empty name that was not seen in the listing. -/
theorem pruneZones_panics (zones : Zones) (seenZones : List String) (z : Zone)
    (hz : zones "" = some z) (hs : "" ∉ seenZones) :
    pruneZones zones seenZones = .error .invalidPattern := by
  have hp : pruneZone seenZones "" = .error .invalidPattern := by
    simp [pruneZone, hs, HandleRemove]
  unfold pruneZones
  rw [hz, hp]

/-! ## zonesReadDir: a whole cycle (C4, C5, C6, C7) -/

/-- A cycle that returns has run the loop over the listing to its end, and its
registry holds what the loop left under `pgeodns` and under the zone names of the
listing, and nothing else. -/
theorem zonesReadDir_ok (lib : Lib) (fs : String → ZoneFile) (files : List FileInfo)
    (zones zones1 : Zones) (err : Option ZoneError) (compiled : List String)
    (h : zonesReadDir lib fs (some files) zones = .ok (zones1, err, compiled)) :
    ∃ st, readDirFiles lib fs files ⟨zones, [], none, []⟩ = .ok st ∧
      (∀ k, zones1 k = if k = "pgeodns" ∨ k ∈ listedNames files then st.zones k else none) ∧
      err = st.parse_err ∧ compiled = st.compiled := by
  simp only [zonesReadDir] at h
  cases hl : readDirFiles lib fs files ⟨zones, [], none, []⟩ with
  | error e => rw [hl] at h; cases h
  | ok st =>
    rw [hl] at h
    simp only at h
    cases hp : pruneZones st.zones st.seenZones with
    | error e => rw [hp] at h; cases h
    | ok zones2 =>
      rw [hp] at h
      simp only [Except.ok.injEq, Prod.mk.injEq] at h
      obtain ⟨h1, h2, h3⟩ := h
      subst h1
      refine ⟨st, rfl, ?_, h2.symm, h3.symm⟩
      intro k
      rw [pruneZones_ok st.zones zones2 st.seenZones hp k]
      have hseen : k ∈ st.seenZones ↔ k ∈ listedNames files := by
        rw [readDirFiles_seenZones lib fs files _ st hl k]
        simp
      simp only [hseen]

/-- A cycle returns when it hands no empty name to the dns library. -/
theorem zonesReadDir_returns (lib : Lib) (fs : String → ZoneFile) (files : List FileInfo)
    (zones : Zones) (h : namesAccepted lib fs files zones) :
    ∃ r, zonesReadDir lib fs (some files) zones = .ok r := by
  obtain ⟨hfunc, hrem⟩ := h
  obtain ⟨st, hl⟩ := readDirFiles_returns lib fs files ⟨zones, [], none, []⟩ hfunc
  have hp : "" ∈ st.seenZones ∨ (st.zones "").isNone = true := by
    by_cases hin : "" ∈ listedNames files
    · exact Or.inl ((readDirFiles_seenZones lib fs files _ st hl "").2 (Or.inr hin))
    · rcases hrem with hrem | hrem
      · exact absurd hrem hin
      · right
        rw [readDirFiles_untouched lib fs files _ st hl "" hin]
        exact hrem
  obtain ⟨zones1, hz⟩ := pruneZones_returns st.zones st.seenZones hp
  exact ⟨(zones1, st.parse_err, st.compiled), by simp only [zonesReadDir, hl, hz]⟩

/-- The registry after a cycle that returns holds, for a zone file of the listing
whose name no other zone file derives, what the round of the file left. -/
theorem zonesReadDir_own (lib : Lib) (fs : String → ZoneFile) (files : List FileInfo)
    (zones zones1 : Zones) (err : Option ZoneError) (compiled : List String)
    (h : zonesReadDir lib fs (some files) zones = .ok (zones1, err, compiled))
    (hnd : (listedNames files).Nodup) (file : FileInfo) (hmem : file ∈ files)
    (hjson : isZoneFile file = true) (hnew : needsRead zones (zoneNameOf file) file = true) :
    zones1 (zoneNameOf file) = some (published lib fs file) := by
  obtain ⟨st, hl, hz, _, _⟩ := zonesReadDir_ok lib fs files zones zones1 err compiled h
  have hin : zoneNameOf file ∈ listedNames files := mem_listedNames.2 ⟨file, hmem, hjson, rfl⟩
  rw [hz, if_pos (Or.inr hin), readDirFiles_own lib fs files _ st hl file hnd hmem hjson]
  simp only [hnew, if_true]

theorem readZoneFile_object (lib : Lib) (zoneName : String)
    (objmap : List (String × JValue)) :
    ∃ zone, (readZoneFile lib zoneName (.object objmap)).1 = some zone := by
  simp only [readZoneFile]
  rcases hro : readOptions objmap (newZone lib zoneName) [] with ⟨zone1, res⟩
  cases res with
  | error e => exact ⟨zone1, rfl⟩
  | ok data => exact ⟨_, rfl⟩

/-- C4 (amended). Let the zone files of a listing derive pairwise distinct zone
names, and let a file of it be new to the registry or newer than its entry and
compile without an error. The cycle returns when it hands no empty name to the dns
library; and after every cycle that returns, the entry of the file is the zone
compiled from it, stamped with its modification time, whatever happens to the
other files, and every zone file of the listing, so also every one whose
compilation fails, has an entry. -/
theorem zonesReadDir_publishes (lib : Lib) (fs : String → ZoneFile) (files : List FileInfo)
    (zones : Zones) (hnd : (listedNames files).Nodup)
    (file : FileInfo) (hmem : file ∈ files) (hjson : isZoneFile file = true)
    (hnew : needsRead zones (zoneNameOf file) file = true)
    (zone : Zone) (hok : readZoneFile lib (zoneNameOf file) (fs file.Name) = (some zone, none)) :
    (namesAccepted lib fs files zones →
      ∃ r, zonesReadDir lib fs (some files) zones = .ok r) ∧
    ∀ zones1 err compiled,
      zonesReadDir lib fs (some files) zones = .ok (zones1, err, compiled) →
      zones1 (zoneNameOf file) = some { zone with LastRead := file.ModTime } ∧
      ∀ g ∈ files, isZoneFile g = true → ∃ z, zones1 (zoneNameOf g) = some z := by
  refine ⟨zonesReadDir_returns lib fs files zones, ?_⟩
  intro zones1 err compiled h
  refine ⟨?_, ?_⟩
  · rw [zonesReadDir_own lib fs files zones zones1 err compiled h hnd file hmem hjson hnew]
    simp only [published, hok, Option.getD_some]
  · intro g hg hgj
    obtain ⟨st, hl, hz, _, _⟩ := zonesReadDir_ok lib fs files zones zones1 err compiled h
    obtain ⟨z, hzz, _⟩ := readDirFiles_fresh lib fs files _ st hl g hg hgj
    refine ⟨z, ?_⟩
    rw [hz, if_pos (Or.inr (mem_listedNames.2 ⟨g, hg, hgj, rfl⟩)), hzz]

/-- C5 (amended). Let the zone files of a listing derive pairwise distinct zone
names, and let a file of it be recompiled in the cycle and fail to compile. The
cycle returns when it hands no empty name to the dns library; and after every
cycle that returns, the entry of the file is stamped with its modification time.
The entry is the empty placeholder, without labels and records, when the file
cannot be opened or is not a JSON object; when the compilation panics later, the
entry is the zone as `readZoneFile` had built it up to the panic. -/
theorem zonesReadDir_failed_entry (lib : Lib) (fs : String → ZoneFile)
    (files : List FileInfo) (zones : Zones) (hnd : (listedNames files).Nodup)
    (file : FileInfo) (hmem : file ∈ files) (hjson : isZoneFile file = true)
    (hnew : needsRead zones (zoneNameOf file) file = true)
    (hfail : (readZoneFile lib (zoneNameOf file) (fs file.Name)).1 = none ∨
      (readZoneFile lib (zoneNameOf file) (fs file.Name)).2 ≠ none) :
    (namesAccepted lib fs files zones →
      ∃ r, zonesReadDir lib fs (some files) zones = .ok r) ∧
    ∀ zones1 err compiled,
      zonesReadDir lib fs (some files) zones = .ok (zones1, err, compiled) →
      (∃ z, zones1 (zoneNameOf file) = some z ∧ z.LastRead = file.ModTime) ∧
      ((fs file.Name = .unreadable ∨ fs file.Name = .badJSON) →
        zones1 (zoneNameOf file) = some { emptyZone with LastRead := file.ModTime }) ∧
      (∀ objmap, fs file.Name = .object objmap →
        ∃ zone e, readZoneFile lib (zoneNameOf file) (fs file.Name) = (some zone, some e) ∧
          zones1 (zoneNameOf file) = some { zone with LastRead := file.ModTime }) := by
  refine ⟨zonesReadDir_returns lib fs files zones, ?_⟩
  intro zones1 err compiled h
  have hentry : zones1 (zoneNameOf file) = some (published lib fs file) :=
    zonesReadDir_own lib fs files zones zones1 err compiled h hnd file hmem hjson hnew
  refine ⟨⟨_, hentry, rfl⟩, ?_, ?_⟩
  · intro hf
    rw [hentry]
    rcases hf with hf | hf <;> simp [published, hf, readZoneFile]
  · intro objmap hf
    rw [hentry]
    rcases hr : readZoneFile lib (zoneNameOf file) (fs file.Name) with ⟨config, err1⟩
    rw [hr] at hfail
    have hsome : ∃ zone, config = some zone := by
      have h1 : (readZoneFile lib (zoneNameOf file) (fs file.Name)).1 = config := by rw [hr]
      rw [hf] at h1
      obtain ⟨zone, hz⟩ := readZoneFile_object lib (zoneNameOf file) objmap
      exact ⟨zone, by rw [← h1, hz]⟩
    obtain ⟨zone, hzone⟩ := hsome
    subst hzone
    cases err1 with
    | none => simp at hfail
    | some e =>
      refine ⟨zone, e, rfl, ?_⟩
      simp [published, hr]

/-- C6. When a `zonesReadDir` cycle has returned, a second cycle on the same
listing and the same files returns too, hands no file to the compiler and leaves
the registry exactly as the first cycle left it, whether the files compiled or
failed in the first cycle. -/
theorem zonesReadDir_idempotent (lib : Lib) (fs : String → ZoneFile)
    (dir : Option (List FileInfo)) (zones zones1 : Zones) (err : Option ZoneError)
    (compiled : List String)
    (h : zonesReadDir lib fs dir zones = .ok (zones1, err, compiled)) :
    ∃ err2, zonesReadDir lib fs dir zones1 = .ok (zones1, err2, []) := by
  cases dir with
  | none =>
    simp only [zonesReadDir, Except.ok.injEq, Prod.mk.injEq] at h
    obtain ⟨h1, _, _⟩ := h
    subst h1
    exact ⟨some .readDir, rfl⟩
  | some files =>
    obtain ⟨st, hl, hz, _, _⟩ := zonesReadDir_ok lib fs files zones zones1 err compiled h
    have hfresh : ∀ file ∈ files, isZoneFile file = true →
        needsRead zones1 (zoneNameOf file) file = false := by
      intro file hf hj
      unfold needsRead
      rw [hz, if_pos (Or.inr (mem_listedNames.2 ⟨file, hf, hj, rfl⟩))]
      obtain ⟨z, hzz, hle⟩ := readDirFiles_fresh lib fs files _ st hl file hf hj
      rw [hzz]
      simp only [decide_eq_false_iff_not, not_lt]
      exact hle
    obtain ⟨st2, hl2, ha, hb, hc⟩ := readDirFiles_noop lib fs files ⟨zones1, [], none, []⟩ hfresh
    have hseen : ∀ k, k ∈ st2.seenZones ↔ k ∈ listedNames files := by
      intro k
      rw [readDirFiles_seenZones lib fs files _ st2 hl2 k]
      simp
    have hp : "" ∈ st2.seenZones ∨ (st2.zones "").isNone = true := by
      by_cases hin : "" ∈ listedNames files
      · exact Or.inl ((hseen "").2 hin)
      · right
        rw [ha]
        show (zones1 "").isNone = true
        rw [hz]
        simp [hin]
    obtain ⟨zones2, hz2⟩ := pruneZones_returns st2.zones st2.seenZones hp
    have heq : zones2 = zones1 := by
      funext k
      rw [pruneZones_ok st2.zones zones2 st2.seenZones hz2 k, ha]
      show (if k = "pgeodns" ∨ k ∈ st2.seenZones then zones1 k else none) = zones1 k
      by_cases hk : k = "pgeodns" ∨ k ∈ st2.seenZones
      · rw [if_pos hk]
      · rw [if_neg hk, hz]
        have hk2 : ¬ (k = "pgeodns" ∨ k ∈ listedNames files) := by
          rw [← hseen k]
          exact hk
        rw [if_neg hk2]
    refine ⟨none, ?_⟩
    simp only [zonesReadDir, hl2, hz2, heq, hb, hc]

/-- C7 (amended). A cycle in which the directory was read returns when it hands no
empty name to the dns library; and after every cycle that returns, the registry
has an entry for a name exactly when a zone file of the listing derives the name,
or the name is `pgeodns` and had an entry before the cycle. -/
theorem zonesReadDir_names (lib : Lib) (fs : String → ZoneFile) (files : List FileInfo)
    (zones : Zones) :
    (namesAccepted lib fs files zones →
      ∃ r, zonesReadDir lib fs (some files) zones = .ok r) ∧
    ∀ zones1 err compiled,
      zonesReadDir lib fs (some files) zones = .ok (zones1, err, compiled) →
      ∀ k, (zones1 k).isSome = true ↔
        k ∈ listedNames files ∨ (k = "pgeodns" ∧ (zones k).isSome = true) := by
  refine ⟨zonesReadDir_returns lib fs files zones, ?_⟩
  intro zones1 err compiled h k
  obtain ⟨st, hl, hz, _, _⟩ := zonesReadDir_ok lib fs files zones zones1 err compiled h
  rw [hz]
  by_cases hin : k ∈ listedNames files
  · obtain ⟨file, hf, hj, hk⟩ := mem_listedNames.1 hin
    obtain ⟨z, hzz, _⟩ := readDirFiles_fresh lib fs files _ st hl file hf hj
    rw [hk] at hzz
    simp [hin, hzz]
  · have hun := readDirFiles_untouched lib fs files _ st hl k hin
    by_cases hp : k = "pgeodns"
    · simp only [hp, true_or, if_true, true_and] at hun ⊢
      rw [hun]
      simp [hp ▸ hin]
    · simp [hp, hin]

/-! ## zonesReadDir on the directory `demoDir` -/

set_option maxRecDepth 100000 in
/-- C4 (amended) on `demoDir`, from an empty registry: the cycle returns;
`example.com.json` compiles and its zone is published with the time 5, although
`broken.org.JSON` is not JSON and `partial.net.json` panics; both of these have an
entry too. -/
theorem zonesReadDir_publishes_witness :
    ∃ zones1 err compiled,
      zonesReadDir demoLib demoFs (some demoDir) (fun _ => none) = .ok (zones1, err, compiled) ∧
      zones1 "example.com" = some { exampleZone with LastRead := 5 } ∧
      (∃ z, zones1 "broken.org" = some z) ∧ (∃ z, zones1 "partial.net" = some z) :=
  have h := zonesReadDir_publishes demoLib demoFs demoDir (fun _ => none) (by decide)
    ⟨"example.com.json", 5⟩ (by decide) (by decide) rfl exampleZone rfl
  match h.1 (by decide) with
  | ⟨(zones1, err, compiled), hr⟩ =>
    ⟨zones1, err, compiled, hr, (h.2 zones1 err compiled hr).1,
      (h.2 zones1 err compiled hr).2 ⟨"broken.org.JSON", 7⟩ (by decide) (by decide),
      (h.2 zones1 err compiled hr).2 ⟨"partial.net.json", 9⟩ (by decide) (by decide)⟩

set_option maxRecDepth 100000 in
/-- C4, as stated, fails: the zone files of `emptyNameDir` derive the distinct
names `""` and `example.com`, and `example.com.json` is new to the registry and
compiles; but `.json` compiles too, `addHandler` hands the empty name to
`dns.HandleFunc`, and the cycle panics before it reads `example.com.json`: there
is no registry after the cycle. -/
theorem zonesReadDir_empty_name_panics :
    (listedNames emptyNameDir).Nodup ∧
    ⟨"example.com.json", 5⟩ ∈ emptyNameDir ∧
    needsRead (fun _ => none) "example.com" ⟨"example.com.json", 5⟩ = true ∧
    readZoneFile demoLib "example.com" (emptyNameFs "example.com.json") =
      (some exampleZone, none) ∧
    zonesReadDir demoLib emptyNameFs (some emptyNameDir) (fun _ => none) =
      .error .invalidPattern :=
  ⟨by decide, by decide, rfl, rfl, rfl⟩

set_option maxRecDepth 100000 in
/-- C5 (amended) on `demoDir`: the cycle returns; `broken.org.JSON` is not JSON, and
its entry is the empty placeholder stamped with the time 7. -/
theorem zonesReadDir_failed_entry_witness :
    ∃ zones1 err compiled,
      zonesReadDir demoLib demoFs (some demoDir) (fun _ => none) = .ok (zones1, err, compiled) ∧
      zones1 "broken.org" = some { emptyZone with LastRead := 7 } :=
  have h := zonesReadDir_failed_entry demoLib demoFs demoDir (fun _ => none) (by decide)
    ⟨"broken.org.JSON", 7⟩ (by decide) (by decide) rfl (Or.inl rfl)
  match h.1 (by decide) with
  | ⟨(zones1, err, compiled), hr⟩ =>
    ⟨zones1, err, compiled, hr, (h.2 zones1 err compiled hr).2.1 (Or.inr rfl)⟩

set_option maxRecDepth 100000 in
/-- C5, as stated, fails: the compilation of `partial.net.json` fails on a malformed
record, the cycle returns, and the entry published for the file is not an empty
placeholder: it carries the label `www` with the record built before the panic. -/
theorem zonesReadDir_failed_entry_has_labels :
    (readZoneFile demoLib "partial.net" (demoFs "partial.net.json")).2 = some .badA ∧
    zonesReadDir demoLib demoFs (some demoDir) (fun _ => none) =
      .ok (demoRegistry, some .badA,
        ["partial.net.json", "example.com.json", "broken.org.JSON"]) ∧
    demoRegistry "partial.net" = some partialEntry ∧
    partialEntry.LastRead = 9 ∧
    (partialEntry.Labels "www").map (fun l => l.Records TypeA) =
      some (some [⟨some (RR.A ⟨"www.partial.net.", 1, 1, 120⟩ [192, 0, 2, 1]), 0⟩, zeroRecord]) :=
  ⟨rfl, rfl, rfl, rfl, rfl⟩

set_option maxRecDepth 100000 in
/-- C6 on `demoDir`: the first cycle, from an empty registry, compiles the three
zone files, of which two fail; the second cycle returns the same registry and
compiles nothing. -/
theorem zonesReadDir_idempotent_witness :
    zonesReadDir demoLib demoFs (some demoDir) (fun _ => none) =
      .ok (demoRegistry, some .badA,
        ["partial.net.json", "example.com.json", "broken.org.JSON"]) ∧
    ∃ err2, zonesReadDir demoLib demoFs (some demoDir) demoRegistry =
      .ok (demoRegistry, err2, []) :=
  ⟨rfl, zonesReadDir_idempotent demoLib demoFs (some demoDir) (fun _ => none) demoRegistry
    (some .badA) ["partial.net.json", "example.com.json", "broken.org.JSON"] rfl⟩

set_option maxRecDepth 100000 in
/-- C7 (amended) on `demoDir`, from the registry `oldRegistry`: the cycle returns;
the zone of `broken.org.JSON`, whose extension is in upper case, has an entry, the
entry of `pgeodns` is kept, the entry of `old.example`, which has no file, is
removed, and `README.txt` gives no entry. -/
theorem zonesReadDir_names_witness :
    ∃ zones1 err compiled,
      zonesReadDir demoLib demoFs (some demoDir) oldRegistry = .ok (zones1, err, compiled) ∧
      (zones1 "broken.org").isSome = true ∧ (zones1 "pgeodns").isSome = true ∧
      (zones1 "old.example").isSome = false ∧ (zones1 "README").isSome = false :=
  have h := zonesReadDir_names demoLib demoFs demoDir oldRegistry
  match h.1 (by decide) with
  | ⟨(zones1, err, compiled), hr⟩ =>
    ⟨zones1, err, compiled, hr,
      (h.2 zones1 err compiled hr "broken.org").2 (Or.inl (by decide)),
      (h.2 zones1 err compiled hr "pgeodns").2 (Or.inr ⟨rfl, rfl⟩),
      Bool.eq_false_iff.2 (fun hs =>
        absurd ((h.2 zones1 err compiled hr "old.example").1 hs) (by decide)),
      Bool.eq_false_iff.2 (fun hs =>
        absurd ((h.2 zones1 err compiled hr "README").1 hs) (by decide))⟩

set_option maxRecDepth 100000 in
/-- C7, as stated, fails: a cycle on `unreadableDir` returns and leaves a
placeholder under the empty name for the file `.json`, which cannot be opened.
When the file is gone, the next cycle reads the directory, hands the empty name to
`dns.HandleRemove` and panics: the entry whose file disappeared is not removed. -/
theorem zonesReadDir_stale_empty_name :
    zonesReadDir demoLib demoFs (some unreadableDir) (fun _ => none) =
      .ok (staleRegistry, some .openFile, [".json"]) ∧
    staleRegistry "" = some { emptyZone with LastRead := 1 } ∧
    listedNames [] = [] ∧
    zonesReadDir demoLib demoFs (some []) staleRegistry = .error .invalidPattern :=
  ⟨rfl, rfl, rfl, rfl⟩

/-! ## CNAME targets (C11) -/

theorem IsFqdn_append_dot (s : String) : IsFqdn (s ++ ".") = true := by
  have h : (s ++ ".").data = s.data ++ ['.'] := rfl
  simp [IsFqdn, h]

theorem IsFqdn_append (s o : String) (ho : o ≠ "") : IsFqdn (s ++ o) = IsFqdn o := by
  have hne : o.data ≠ [] := by
    intro h
    apply ho
    cases o
    simp only at h
    subst h
    rfl
  unfold IsFqdn
  rw [String.data_append, List.getLast?_append_of_ne_nil _ hne]

theorem Fqdn_IsFqdn (s : String) : IsFqdn (Fqdn s) = true := by
  unfold Fqdn
  split
  · assumption
  · exact IsFqdn_append_dot s

/-- The CNAME builder on a string target. -/
theorem buildRecord_cname (lib : Lib) (label : Label) (origin t : String) :
    buildRecord lib TypeCNAME label origin (.val (.str t)) =
      .ok ⟨some (RR.CNAME (recordHeader TypeCNAME label origin)
        (Fqdn (if IsFqdn t then t else t ++ "." ++ origin))), 0⟩ := by
  simp [buildRecord, buildCNAME]

/-- C11 (amended). The CNAME builder stores a target `t` that ends with a dot
unchanged. A target that does not end with a dot is stored as `t`, a dot, the zone
origin `o` and a final dot when `o` is not empty and does not end with a dot; when
`o` is empty or ends with a dot, no final dot is added after `o`. In every case
the stored target ends with a dot. -/
theorem cname_target (lib : Lib) (label : Label) (o t : String) :
    ∃ stored, buildRecord lib TypeCNAME label o (.val (.str t)) =
        .ok ⟨some (RR.CNAME (recordHeader TypeCNAME label o) stored), 0⟩ ∧
      (IsFqdn t = true → stored = t) ∧
      (IsFqdn t = false → o ≠ "" → IsFqdn o = false → stored = t ++ "." ++ o ++ ".") ∧
      (IsFqdn t = false → (o = "" ∨ IsFqdn o = true) → stored = t ++ "." ++ o) ∧
      IsFqdn stored = true := by
  refine ⟨_, buildRecord_cname lib label o t, ?_, ?_, ?_, Fqdn_IsFqdn _⟩
  · intro h
    simp [h, Fqdn]
  · intro h ho hof
    have h1 : IsFqdn (t ++ "." ++ o) = false := by rw [IsFqdn_append _ o ho, hof]
    simp [h, Fqdn, h1]
  · intro h ho
    have h1 : IsFqdn (t ++ "." ++ o) = true := by
      rcases ho with ho | ho
      · subst ho
        have : t ++ "." ++ "" = t ++ "." := by
          apply String.ext
          simp
        rw [this]
        exact IsFqdn_append_dot t
      · by_cases hoe : o = ""
        · subst hoe
          simp [IsFqdn] at ho
        · rw [IsFqdn_append _ o hoe, ho]
    simp [h, Fqdn, h1]

/-- C11 at the target `foo` in the zone `example.com`, which is stored as
`foo.example.com.`, and at the target `foo.example.com.`, which is kept. -/
theorem cname_target_witness :
    buildRecord demoLib TypeCNAME nsLabel "example.com" (.val (.str "foo")) =
      .ok ⟨some (RR.CNAME (recordHeader TypeCNAME nsLabel "example.com") "foo.example.com."), 0⟩ ∧
    buildRecord demoLib TypeCNAME nsLabel "example.com" (.val (.str "foo.example.com.")) =
      .ok ⟨some (RR.CNAME (recordHeader TypeCNAME nsLabel "example.com") "foo.example.com."), 0⟩ := by
  obtain ⟨s1, h1, _, h1b, _, _⟩ := cname_target demoLib nsLabel "example.com" "foo"
  obtain ⟨s2, h2, h2a, _, _, _⟩ := cname_target demoLib nsLabel "example.com" "foo.example.com."
  have e1 : s1 = "foo.example.com." := by
    rw [h1b (by decide) (by decide) (by decide)]; decide
  have e2 : s2 = "foo.example.com." := h2a (by decide)
  rw [e1] at h1
  rw [e2] at h2
  exact ⟨h1, h2⟩

/-- C11, as stated, fails: in a zone whose origin is empty (the file `.json`) the
target `foo` is stored as `foo.`, and in a zone whose origin ends with a dot (the
file `example.com..json`) it is stored as `foo.example.com.`; in neither case is a
final dot added after the origin. -/
theorem cname_target_no_second_dot :
    zoneNameFromFile ".json" = "" ∧
    buildRecord demoLib TypeCNAME nsLabel "" (.val (.str "foo")) =
      .ok ⟨some (RR.CNAME (recordHeader TypeCNAME nsLabel "") "foo."), 0⟩ ∧
    ("foo." : String) ≠ "foo" ++ "." ++ "" ++ "." ∧
    zoneNameFromFile "example.com..json" = "example.com." ∧
    buildRecord demoLib TypeCNAME nsLabel "example.com."
        (.val (.str "foo")) =
      .ok ⟨some (RR.CNAME (recordHeader TypeCNAME nsLabel "example.com.") "foo.example.com."), 0⟩ ∧
    ("foo.example.com." : String) ≠ "foo" ++ "." ++ "example.com." ++ "." := by
  refine ⟨by decide, rfl, by decide, by decide, rfl, by decide⟩

/-! ## MX records (C12, C13) -/

theorem HasSuffix_dot (s : String) : HasSuffix s "." = true ↔ s.data.getLast? = some '.' := by
  have hd : (".":String).data = ['.'] := rfl
  unfold HasSuffix
  rw [hd, List.isSuffixOf_iff_suffix]
  constructor
  · rintro ⟨pre, h⟩
    rw [← h]
    simp
  · intro h
    obtain ⟨pre, hpre⟩ := List.getLast?_eq_some_iff.1 h
    exact ⟨pre, hpre.symm⟩

theorem Float64.trunc_of_toRat (x : Float64) (n : Int) (h : x.toRat = (n : ℚ)) :
    x.trunc = n := by
  rw [Float64.trunc_eq, h]
  unfold truncTowardZero
  split
  · exact Int.floor_intCast _
  · exact Int.ceil_intCast _

/-- A scalar that writes an integer of the range of `int` goes through
`valueToInt` to that integer. -/
theorem valueToInt_writesInt (v : JValue) (n : Int) (h : writesInt v n)
    (hr : inIntRange n) : valueToInt v = .ok n := by
  cases v with
  | num x =>
    have ht := Float64.trunc_of_toRat x n h
    simp [valueToInt, Float64.toInt, ht, hr]
  | str s =>
    obtain ⟨h1, h2⟩ := h
    subst h2
    simp [valueToInt, Atoi_literal s h1, hr]
  | null => exact absurd h id
  | bool b => exact absurd h id
  | arr xs => exact absurd h id
  | obj kvs => exact absurd h id

theorem optionalInt_fieldWrites (rec : List (String × JValue)) (key : String) (n : Int)
    (h : fieldWrites rec key n) (hr : inIntRange n) : optionalInt rec key = .ok n := by
  unfold optionalInt
  rcases h with ⟨h1, h2⟩ | ⟨v, h1, h2⟩
  · rw [h1, h2]
  · rw [h1]
    have hv := valueToInt_writesInt v n h2 hr
    cases v with
    | null => exact absurd h2 id
    | num x => exact hv
    | str s => exact hv
    | bool b => exact absurd h2 id
    | arr xs => exact absurd h2 id
    | obj kvs => exact absurd h2 id

/-- The MX builder on a mapping with a string host, once the two optional integer
fields are read. -/
theorem buildRecord_mx (lib : Lib) (label : Label) (origin : String)
    (rec : List (String × JValue)) (h : String) (p w : Int)
    (hmx : rec.lookup "mx" = some (.str h))
    (hp : optionalInt rec "preference" = .ok p) (hw : optionalInt rec "weight" = .ok w) :
    buildRecord lib TypeMX label origin (.val (.obj rec)) =
      .ok ⟨some (RR.MX (recordHeader TypeMX label origin)
        (if HasSuffix h "." = true then h else h ++ ".") (p % 2 ^ 16).toNat), w⟩ := by
  simp only [buildRecord, buildMX, hmx, hp, hw]
  simp

theorem dotted_eq (h : String) :
    (if HasSuffix h "." = true then h else h ++ ".") =
      (if h.data.getLast? = some '.' then h else h ++ ".") := by
  by_cases hd : h.data.getLast? = some '.'
  · rw [if_pos hd, if_pos ((HasSuffix_dot h).2 hd)]
  · rw [if_neg hd, if_neg (fun hs => hd ((HasSuffix_dot h).1 hs))]

/-- C12. An MX entry given as a mapping with a string host `h`, an optional
preference `p` with `0 ≤ p < 65536` and an optional weight `w` (an `int`) is built
into an MX record with the host `h` when `h` ends with a dot and `h` followed by a
dot otherwise, the preference `p` and the record weight `w`; absent fields count
as 0. -/
theorem mx_record (lib : Lib) (label : Label) (origin : String)
    (rec : List (String × JValue)) (h : String) (p w : Int)
    (hmx : rec.lookup "mx" = some (.str h))
    (hp : fieldWrites rec "preference" p) (hp0 : 0 ≤ p) (hp1 : p < 65536)
    (hw : fieldWrites rec "weight" w) (hwr : inIntRange w) :
    buildRecord lib TypeMX label origin (.val (.obj rec)) =
      .ok ⟨some (RR.MX (recordHeader TypeMX label origin)
        (if h.data.getLast? = some '.' then h else h ++ ".") p.toNat), w⟩ := by
  have hpr : inIntRange p := by
    unfold inIntRange
    constructor <;> omega
  have hmod : (p % 2 ^ 16).toNat = p.toNat := by
    rw [Int.emod_eq_of_lt hp0 (by omega)]
  rw [buildRecord_mx lib label origin rec h p w hmx
    (optionalInt_fieldWrites rec "preference" p hp hpr)
    (optionalInt_fieldWrites rec "weight" w hw hwr), hmod, dotted_eq]

/-- C12 at the spec's example: host `mail.example.com`, preference 10, weight 1. -/
theorem mx_record_witness :
    buildRecord demoLib TypeMX nsLabel "example.com" (.val (.obj mxExample)) =
      .ok ⟨some (RR.MX (recordHeader TypeMX nsLabel "example.com") "mail.example.com." 10), 1⟩ :=
  mx_record demoLib nsLabel "example.com" mxExample "mail.example.com" 10 1 rfl
    (Or.inr ⟨jnum 10, rfl, by show Float64.toRat ⟨10, 0⟩ = _; norm_num [Float64.toRat]⟩)
    (by decide) (by decide)
    (Or.inr ⟨jnum 1, rfl, by show Float64.toRat ⟨1, 0⟩ = _; norm_num [Float64.toRat]⟩)
    (by decide)

/-! ## What a successful compilation says about every raw entry -/

theorem Forall₂_mem_left {α β : Type} {R : α → β → Prop} {l1 : List α} {l2 : List β}
    (h : List.Forall₂ R l1 l2) {a : α} (ha : a ∈ l1) : ∃ b ∈ l2, R a b := by
  induction h with
  | nil => cases ha
  | cons hab _ ih =>
    rcases List.mem_cons.1 ha with heq | hmem
    · subst heq
      exact ⟨_, List.mem_cons_self _ _, hab⟩
    · obtain ⟨b, hb, hr⟩ := ih hmem
      exact ⟨b, List.mem_cons_of_mem _ hb, hr⟩

/-- When the loop over `data` ends without a panic, every round did. -/
theorem setupLabels_each (lib : Lib) (data : List (String × JValue)) :
    ∀ (zone zone1 : Zone), setupLabels lib data zone = (zone1, none) →
      ∀ dk dv_inter, (dk, dv_inter) ∈ data →
        ∃ z z1, setupLabel lib z dk dv_inter = (z1, none) ∧
          z.Origin = zone.Origin ∧ z.Options = zone.Options := by
  induction data with
  | nil => intro zone zone1 _ dk dvi hmem; cases hmem
  | cons kv rest ih =>
    intro zone zone1 h dk dvi hmem
    obtain ⟨k0, v0⟩ := kv
    rw [setupLabels] at h
    cases hs : setupLabel lib zone k0 v0 with
    | mk zone2 err =>
      rw [hs] at h
      cases err with
      | some e => simp at h
      | none =>
        simp only at h
        rcases List.mem_cons.1 hmem with heq | hrest
        · simp only [Prod.mk.injEq] at heq
          obtain ⟨h1, h2⟩ := heq
          subst h1 h2
          exact ⟨zone, zone2, hs, rfl, rfl⟩
        · obtain ⟨_, _, _, _, _, _, horig, hopts, _, _⟩ := setupLabel_ok lib zone zone2 k0 v0 hs
          obtain ⟨z, z1, hz, ho, hp⟩ := ih zone2 zone1 h dk dvi hrest
          exact ⟨z, z1, hz, by rw [ho, horig], by rw [hp, hopts]⟩

/-- In a zone file that compiles, every label definition is an object, its raw
value for every record kind takes one of the accepted shapes, and every raw entry
builds a record. -/
theorem setupZoneData_entries (lib : Lib) (data : List (String × JValue))
    (zone zone1 : Zone) (h : setupZoneData lib data zone = (zone1, none))
    (dk : String) (dv_inter : JValue) (hmem : (dk, dv_inter) ∈ data) :
    ∃ dv label, dv_inter = .obj dv ∧ label.Label = dk ∧
      ∀ rType t rdata, (rType, t) ∈ recordTypes → dv.lookup rType = some rdata →
        rdata = .null ∨
        ∃ entries, rawRecords rdata = .ok entries ∧
          ∀ e ∈ entries, ∃ r, buildRecord lib t label zone.Origin e = .ok r := by
  unfold setupZoneData at h
  cases hs : setupLabels lib data zone with
  | mk zone2 err =>
    rw [hs] at h
    cases err with
    | some e => simp at h
    | none =>
      obtain ⟨z, z1, hz, horig, _⟩ := setupLabels_each lib data zone zone2 hs dk dv_inter hmem
      obtain ⟨dv, label, hdv, ⟨hlab, _, _, hkinds, _⟩, _⟩ := setupLabel_ok lib z z1 dk dv_inter hz
      refine ⟨dv, label, hdv, hlab, ?_⟩
      intro rType t rdata hrt hlk
      rcases hkinds _ hrt with ⟨hnone, _, _⟩ | ⟨rdata', entries, built, h1, h2, h3, _, _⟩
      · simp only at hnone
        rcases hnone with hn | hn
        · rw [hn] at hlk; cases hlk
        · rw [hn] at hlk
          simp only [Option.some.injEq] at hlk
          exact Or.inl hlk.symm
      · simp only at h1 h3
        rw [hlk] at h1
        simp only [Option.some.injEq] at h1
        subst h1
        right
        refine ⟨entries, h2, ?_⟩
        intro e he
        rw [horig] at h3
        obtain ⟨r, _, hr⟩ := Forall₂_mem_left h3 he
        exact ⟨r, hr⟩

theorem readOptions_frame :
    ∀ (objmap : List (String × JValue)) (zone zone1 : Zone) (data0 : List (String × JValue))
      (res : Except ZoneError (List (String × JValue))),
      readOptions objmap zone data0 = (zone1, res) →
      zone1.Origin = zone.Origin ∧ zone1.Labels = zone.Labels := by
  intro objmap
  induction objmap with
  | nil =>
    intro zone zone1 data0 res h
    simp only [readOptions, Prod.mk.injEq] at h
    rw [← h.1]
    exact ⟨rfl, rfl⟩
  | cons kv rest ih =>
    intro zone zone1 data0 res h
    obtain ⟨k, v⟩ := kv
    have stop : ∀ e : ZoneError, (zone, (Except.error e : Except ZoneError
        (List (String × JValue)))) = (zone1, res) →
        zone1.Origin = zone.Origin ∧ zone1.Labels = zone.Labels := by
      intro e he
      simp only [Prod.mk.injEq] at he
      rw [← he.1]
      exact ⟨rfl, rfl⟩
    have step : ∀ (z : Zone) (d : List (String × JValue)), z.Origin = zone.Origin →
        z.Labels = zone.Labels → readOptions rest z d = (zone1, res) →
        zone1.Origin = zone.Origin ∧ zone1.Labels = zone.Labels := by
      intro z d ho hl hz
      obtain ⟨h1, h2⟩ := ih z zone1 d res hz
      exact ⟨by rw [h1, ho], by rw [h2, hl]⟩
    cases v <;> simp only [readOptions, valueToInt] at h <;> split_ifs at h <;>
      first
        | exact stop _ h
        | exact step _ _ (by rfl) (by rfl) h
        | (split at h <;> first | exact stop _ h | exact step _ _ (by rfl) (by rfl) h)

/-- A zone file that `readZoneFile` compiles without an error is a JSON object
whose options were read and whose `data` block `setupZoneData` compiled. -/
theorem readZoneFile_ok (lib : Lib) (zoneName : String) (file : ZoneFile) (zone : Zone)
    (h : readZoneFile lib zoneName file = (some zone, none)) :
    ∃ objmap zone1 data, file = .object objmap ∧
      readOptions objmap (newZone lib zoneName) [] = (zone1, .ok data) ∧
      zone1.Origin = zoneName ∧ (∀ k, zone1.Labels k = none) ∧
      setupZoneData lib data zone1 = (zone, none) := by
  cases file with
  | unreadable => simp [readZoneFile] at h
  | badJSON => simp [readZoneFile] at h
  | object objmap =>
    simp only [readZoneFile] at h
    cases ho : readOptions objmap (newZone lib zoneName) [] with
    | mk zone1 res =>
      rw [ho] at h
      obtain ⟨h1, h2⟩ := readOptions_frame objmap _ zone1 [] res ho
      cases res with
      | error e => simp at h
      | ok data =>
        simp only at h
        cases hz : setupZoneData lib data zone1 with
        | mk zone2 err =>
          rw [hz] at h
          simp only [Prod.mk.injEq, Option.some.injEq] at h
          obtain ⟨h3, h4⟩ := h
          subst h3 h4
          refine ⟨objmap, zone1, data, rfl, ho, h1, ?_, hz⟩
          intro k
          rw [h2]
          rfl

theorem mapEntries_strs :
    ∀ (kvs : List (String × JValue)) (entries : List RawEntry),
      mapEntries kvs = .ok entries →
      entries.length = kvs.length ∧ ∀ e ∈ entries, ∃ xs, e = .strs xs := by
  intro kvs
  induction kvs with
  | nil =>
    intro entries h
    simp only [mapEntries, Except.ok.injEq] at h
    subst h
    exact ⟨rfl, fun e he => by cases he⟩
  | cons kv rest ih =>
    intro entries h
    obtain ⟨k, v⟩ := kv
    cases v with
    | null =>
      simp only [mapEntries] at h
      cases hm : mapEntries rest with
      | error e => rw [hm] at h; cases h
      | ok tmp =>
        rw [hm] at h
        simp only [Except.ok.injEq] at h
        subst h
        obtain ⟨hl, hs⟩ := ih tmp hm
        refine ⟨by simp [hl], ?_⟩
        intro e he
        rcases List.mem_cons.1 he with heq | hmem
        · exact ⟨_, heq⟩
        · exact hs e hmem
    | str sv =>
      simp only [mapEntries] at h
      cases hm : mapEntries rest with
      | error e => rw [hm] at h; cases h
      | ok tmp =>
        rw [hm] at h
        simp only [Except.ok.injEq] at h
        subst h
        obtain ⟨hl, hs⟩ := ih tmp hm
        refine ⟨by simp [hl], ?_⟩
        intro e he
        rcases List.mem_cons.1 he with heq | hmem
        · exact ⟨_, heq⟩
        · exact hs e hmem
    | bool b => simp [mapEntries] at h
    | num x => simp [mapEntries] at h
    | arr xs => simp [mapEntries] at h
    | obj kvs => simp [mapEntries] at h

theorem buildRecord_mx_strs (lib : Lib) (label : Label) (origin : String) (xs : List String) :
    buildRecord lib TypeMX label origin (.strs xs) = .error .typeAssertion := by
  simp [buildRecord, buildMX]

theorem wrapInt_of_inIntRange (x : Int) (h : inIntRange x) : wrapInt x = x := by
  unfold inIntRange at h
  unfold wrapInt
  omega

theorem SortOk_singleton (lib : Lib) (hsort : lib.SortOk) (r : Record) :
    lib.SortSort [r] = [r] :=
  List.perm_singleton.1 (hsort [r]).1

/-- The record loop on a sequence with one entry that builds the record `r`, for a
kind whose weight is still 0. -/
theorem setupRecords_single (lib : Lib) (hsort : lib.SortOk) (origin : String)
    (label : Label) (t : Nat) (v : JValue) (rr : RR) (w : Int)
    (hw0 : label.Weight t = 0) (hwr : inIntRange w)
    (hb : buildRecord lib t label origin (.val v) = .ok ⟨some rr, w⟩) :
    ∃ label1, setupRecords lib origin label t (.arr [v]) = (label1, none) ∧
      label1.Records t = some [⟨some rr, w⟩] ∧ label1.Weight t = w := by
  have hb1 : buildRecord lib t
      (Label.mk label.Label label.MaxHosts label.Ttl
        (Function.update label.Records t (some [zeroRecord])) label.Weight) origin (.val v) =
      .ok ⟨some rr, w⟩ := by
    rw [← hb]
    exact buildRecord_congr lib t origin _ _ rfl rfl _
  have hwrap : wrapInt (0 + w) = w := by
    rw [zero_add]
    exact wrapInt_of_inIntRange w hwr
  have hlist : List.replicate ([RawEntry.val v]).length zeroRecord = [zeroRecord] := rfl
  have heval : setupRecords lib origin label t (.arr [v]) =
      (if w > 0 then
        (Label.mk label.Label label.MaxHosts label.Ttl
          (Function.update (Function.update (Function.update label.Records t (some [zeroRecord]))
            t (some [⟨some rr, w⟩])) t (some (lib.SortSort [⟨some rr, w⟩])))
          (Function.update label.Weight t w), none)
      else
        (Label.mk label.Label label.MaxHosts label.Ttl
          (Function.update (Function.update label.Records t (some [zeroRecord]))
            t (some [⟨some rr, w⟩]))
          (Function.update label.Weight t w), none)) := by
    simp only [setupRecords, rawRecords, List.map, hlist, buildRecords, hb1, storeRecord,
      Function.update_same, hw0, hwrap, Option.map, List.set]
  rw [heval]
  by_cases hpos : w > 0
  · rw [if_pos hpos]
    exact ⟨_, rfl, by simp [SortOk_singleton lib hsort], by simp⟩
  · rw [if_neg hpos]
    exact ⟨_, rfl, by simp, by simp⟩

/-- C13 (amended). An `mx` value written directly as one non-empty structure is
read as the map syntax of NS and makes the compilation of the zone fail. Written
as a sequence that holds the one structure `{"mx": h, "preference": p,
"weight": w}`, it compiles, and the label's MX sequence holds exactly one MX
record, with the host `h` (dot-terminated), the preference `p` and the weight
`w`. -/
theorem mx_structure :
    (∀ (lib : Lib) (data : List (String × JValue)) (zone : Zone) (dk : String)
      (dv kvs : List (String × JValue)),
      (dk, JValue.obj dv) ∈ data → dv.lookup "mx" = some (.obj kvs) → kvs ≠ [] →
      (setupZoneData lib data zone).2 ≠ none) ∧
    (∀ (lib : Lib) (origin : String) (label : Label) (rec : List (String × JValue))
      (h : String) (p w : Int),
      lib.SortOk → label.Weight TypeMX = 0 →
      rec.lookup "mx" = some (.str h) →
      fieldWrites rec "preference" p → 0 ≤ p → p < 65536 →
      fieldWrites rec "weight" w → inIntRange w →
      ∃ label1, setupRecords lib origin label TypeMX (.arr [.obj rec]) = (label1, none) ∧
        label1.Records TypeMX = some [⟨some (RR.MX (recordHeader TypeMX label origin)
          (if h.data.getLast? = some '.' then h else h ++ ".") p.toNat), w⟩]) := by
  refine ⟨?_, ?_⟩
  · intro lib data zone dk dv kvs hmem hlk hne hnone
    have hz : setupZoneData lib data zone = ((setupZoneData lib data zone).1, none) := by
      rw [← hnone]
    obtain ⟨dv', label, hdv, _, hall⟩ := setupZoneData_entries lib data zone _ hz dk _ hmem
    simp only [JValue.obj.injEq] at hdv
    subst hdv
    rcases hall "mx" TypeMX (.obj kvs) (by decide) hlk with hnull | ⟨entries, hraw, hbuild⟩
    · cases hnull
    · simp only [rawRecords] at hraw
      obtain ⟨hlen, hstrs⟩ := mapEntries_strs kvs entries hraw
      cases entries with
      | nil =>
        apply hne
        exact List.length_eq_zero.1 hlen.symm
      | cons e rest =>
        obtain ⟨xs, hxs⟩ := hstrs e (List.mem_cons_self _ _)
        obtain ⟨r, hr⟩ := hbuild e (List.mem_cons_self _ _)
        rw [hxs, buildRecord_mx_strs] at hr
        cases hr
  · intro lib origin label rec h p w hsort hw0 hmx hp hp0 hp1 hw hwr
    have hpr : inIntRange p := by
      unfold inIntRange
      constructor <;> omega
    have hmod : (p % 2 ^ 16).toNat = p.toNat := by
      rw [Int.emod_eq_of_lt hp0 (by omega)]
    have hb := buildRecord_mx lib label origin rec h p w hmx
      (optionalInt_fieldWrites rec "preference" p hp hpr)
      (optionalInt_fieldWrites rec "weight" w hw hwr)
    rw [hmod, dotted_eq] at hb
    obtain ⟨label1, h1, h2, _⟩ := setupRecords_single lib hsort origin label TypeMX
      (.obj rec) _ w hw0 hwr hb
    exact ⟨label1, h1, h2⟩

set_option maxRecDepth 100000 in
/-- C13 (amended) at the spec's example structure: inside a sequence it compiles to
one MX record, in the record loop and in the whole zone file `mxListFile`. -/
theorem mx_structure_witness :
    (∃ label1, setupRecords demoLib "example.com" nsLabel TypeMX (.arr [.obj mxExample]) =
        (label1, none) ∧
      label1.Records TypeMX = some [⟨some (RR.MX (recordHeader TypeMX nsLabel "example.com")
        "mail.example.com." 10), 1⟩]) ∧
    (readZoneFile demoLib "example.com" mxListFile).2 = none ∧
    ((readZoneFile demoLib "example.com" mxListFile).1.bind (fun z => z.Labels "mail")).map
        (fun l => l.Records TypeMX) =
      some (some [⟨some (RR.MX ⟨"mail.example.com.", 15, 1, 120⟩ "mail.example.com." 10), 1⟩]) :=
  ⟨mx_structure.2 demoLib "example.com" nsLabel mxExample "mail.example.com" 10 1
      demoLib_SortOk rfl rfl
      (Or.inr ⟨jnum 10, rfl, by show Float64.toRat ⟨10, 0⟩ = _; norm_num [Float64.toRat]⟩)
      (by decide) (by decide)
      (Or.inr ⟨jnum 1, rfl, by show Float64.toRat ⟨1, 0⟩ = _; norm_num [Float64.toRat]⟩)
      (by decide),
    rfl, rfl⟩

set_option maxRecDepth 100000 in
/-- C13, as stated, fails: the zone file `mxDirectFile` writes the `mx` value of
the label `mail` directly as the spec's example structure, and its compilation
fails on the type assertion of the map syntax. -/
theorem mx_direct_structure_fails :
    (readZoneFile demoLib "example.com" mxDirectFile).2 = some .typeAssertion ∧
    ((readZoneFile demoLib "example.com" mxDirectFile).1.bind (fun z => z.Labels "mail")).map
        (fun l => l.Records TypeMX) = some none :=
  ⟨rfl, rfl⟩

/-! ## A and AAAA records (C14, C15) -/

/-- The address builder on an entry that holds the address only. -/
theorem buildRecord_address (lib : Lib) (t : Nat) (ht : t = TypeA ∨ t = TypeAAAA)
    (label : Label) (origin s : String) :
    buildRecord lib t label origin (.val (.arr [.str s])) =
      match lib.ParseIP s with
      | some x => .ok ⟨some (if t = TypeA then RR.A (recordHeader t label origin) x
          else RR.AAAA (recordHeader t label origin) x), 0⟩
      | none => .error (if t = TypeA then .badA else .badAAAA) := by
  simp only [buildRecord, ht, if_true, buildAddress, addressWeight]

/-- An address entry whose address `net.ParseIP` rejects builds no record. -/
theorem buildRecord_address_rejected (lib : Lib) (t : Nat) (ht : t = TypeA ∨ t = TypeAAAA)
    (label : Label) (origin s : String) (rest : List JValue) (hs : lib.ParseIP s = none) :
    ∀ r, buildRecord lib t label origin (.val (.arr (.str s :: rest))) ≠ .ok r := by
  intro r h
  simp only [buildRecord, ht, if_true, buildAddress, hs] at h
  cases hw : addressWeight rest with
  | error e => rw [hw] at h; cases h
  | ok w => rw [hw] at h; cases h

/-- C14 (amended). Building an A record from an address string `s`, and building an
AAAA record from `s`, succeeds exactly when `net.ParseIP` accepts `s`, whatever the
family of the address; the record holds the parsed address. When `net.ParseIP`
rejects the address of an A or AAAA entry, the build fails and the whole zone file
fails to compile. -/
theorem address_record :
    (∀ (lib : Lib) (label : Label) (origin s : String),
      ((∃ r, buildRecord lib TypeA label origin (.val (.arr [.str s])) = .ok r) ↔
        ∃ x, lib.ParseIP s = some x) ∧
      ((∃ r, buildRecord lib TypeAAAA label origin (.val (.arr [.str s])) = .ok r) ↔
        ∃ x, lib.ParseIP s = some x) ∧
      (∀ x, lib.ParseIP s = some x →
        buildRecord lib TypeA label origin (.val (.arr [.str s])) =
          .ok ⟨some (RR.A (recordHeader TypeA label origin) x), 0⟩ ∧
        buildRecord lib TypeAAAA label origin (.val (.arr [.str s])) =
          .ok ⟨some (RR.AAAA (recordHeader TypeAAAA label origin) x), 0⟩)) ∧
    (∀ (lib : Lib) (zoneName : String) (objmap data dv : List (String × JValue))
      (zone1 : Zone) (dk rType s : String) (xs rest : List JValue),
      readOptions objmap (newZone lib zoneName) [] = (zone1, .ok data) →
      (dk, JValue.obj dv) ∈ data → (rType = "a" ∨ rType = "aaaa") →
      dv.lookup rType = some (.arr xs) → JValue.arr (.str s :: rest) ∈ xs →
      lib.ParseIP s = none →
      (readZoneFile lib zoneName (.object objmap)).2 ≠ none) := by
  refine ⟨?_, ?_⟩
  · intro lib label origin s
    have hA := buildRecord_address lib TypeA (Or.inl rfl) label origin s
    have hAAAA := buildRecord_address lib TypeAAAA (Or.inr rfl) label origin s
    refine ⟨?_, ?_, ?_⟩
    · rw [hA]
      cases lib.ParseIP s with
      | none => simp
      | some x => simp
    · rw [hAAAA]
      cases lib.ParseIP s with
      | none => simp
      | some x => simp
    · intro x hx
      rw [hA, hAAAA, hx]
      exact ⟨rfl, rfl⟩
  · intro lib zoneName objmap data dv zone1 dk rType s xs rest hopts hmem hrt hlk hx hs hnone
    simp only [readZoneFile, hopts] at hnone
    have hz : setupZoneData lib data zone1 = ((setupZoneData lib data zone1).1, none) := by
      rw [← hnone]
    obtain ⟨dv', label, hdv, _, hall⟩ := setupZoneData_entries lib data zone1 _ hz dk _ hmem
    simp only [JValue.obj.injEq] at hdv
    subst hdv
    have hkind : ∃ t, (rType, t) ∈ recordTypes ∧ (t = TypeA ∨ t = TypeAAAA) := by
      rcases hrt with h | h
      · exact ⟨TypeA, by rw [h]; decide, Or.inl rfl⟩
      · exact ⟨TypeAAAA, by rw [h]; decide, Or.inr rfl⟩
    obtain ⟨t, hmemt, ht⟩ := hkind
    rcases hall rType t (.arr xs) hmemt hlk with hnull | ⟨entries, hraw, hbuild⟩
    · cases hnull
    · simp only [rawRecords, Except.ok.injEq] at hraw
      subst hraw
      obtain ⟨r, hr⟩ := hbuild (.val (.arr (.str s :: rest))) (List.mem_map_of_mem _ hx)
      exact buildRecord_address_rejected lib t ht label zone1.Origin s rest hs r hr

set_option maxRecDepth 100000 in
/-- C14 (amended) at the address `192.0.2.1`, which `demoLib` parses, and at
`bogus`, which it rejects: the A record is built from the first, and the zone file
`brokenFile`, which holds the second, fails to compile. -/
theorem address_record_witness :
    buildRecord demoLib TypeA nsLabel "example.com" (.val (.arr [.str "192.0.2.1"])) =
      .ok ⟨some (RR.A (recordHeader TypeA nsLabel "example.com") [192, 0, 2, 1]), 0⟩ ∧
    (readZoneFile demoLib "example.com" brokenFile).2 ≠ none :=
  ⟨((address_record.1 demoLib nsLabel "example.com" "192.0.2.1").2.2 [192, 0, 2, 1] rfl).1,
   address_record.2 demoLib "example.com"
     [("data", .obj [("www", .obj [("a", .arr [
        .arr [.str "192.0.2.1"], .arr [.str "bogus"]])])])]
     [("www", .obj [("a", .arr [.arr [.str "192.0.2.1"], .arr [.str "bogus"]])])]
     [("a", .arr [.arr [.str "192.0.2.1"], .arr [.str "bogus"]])]
     (newZone demoLib "example.com") "www" "a" "bogus"
     [.arr [.str "192.0.2.1"], .arr [.str "bogus"]] []
     rfl (List.mem_cons_self _ _) (Or.inl rfl) rfl
     (List.mem_cons_of_mem _ (List.mem_cons_self _ _)) rfl⟩

set_option maxRecDepth 100000 in
/-- C14, as stated, fails: `2001:db8::1` is an IPv6 literal and not an IPv4
literal, and an A record is built from it; `192.0.2.1` is an IPv4 literal and not
an IPv6 literal, and an AAAA record is built from it; the zone file
`mixedFamilyFile` that holds both compiles. -/
theorem address_family_not_checked :
    isIPv4Literal "2001:db8::1" = false ∧ isIPv6Literal "2001:db8::1" = true ∧
    buildRecord demoLib TypeA nsLabel "example.com" (.val (.arr [.str "2001:db8::1"])) =
      .ok ⟨some (RR.A (recordHeader TypeA nsLabel "example.com")
        [32, 1, 13, 184, 0, 0, 0, 0, 0, 0, 0, 0, 0, 0, 0, 1]), 0⟩ ∧
    isIPv6Literal "192.0.2.1" = false ∧ isIPv4Literal "192.0.2.1" = true ∧
    buildRecord demoLib TypeAAAA nsLabel "example.com" (.val (.arr [.str "192.0.2.1"])) =
      .ok ⟨some (RR.AAAA (recordHeader TypeAAAA nsLabel "example.com") [192, 0, 2, 1]), 0⟩ ∧
    (readZoneFile demoLib "example.com" mixedFamilyFile).2 = none := by
  refine ⟨by decide, by decide, rfl, by decide, by decide, rfl, rfl⟩

set_option maxRecDepth 100000 in
/-- C15, the code at the failing input and beside it. For an A or AAAA entry
`[address, w]` with an address that parses: when `w` is a string or a number the
builder does what `valueToInt` does, it gives the record the weight
`valueToInt w` or fails; when the entry has no `w` the weight is 0. When `w` is of
another type, where `valueToInt` fails, the type switch of the builder has no
case for it: the record is built with the weight 0, as for the weights `true` and
a list, and the zone file `boolWeightFile` compiles. -/
theorem address_weight :
    (∀ (lib : Lib) (t : Nat) (label : Label) (origin s : String) (x : IP) (w : JValue),
      (t = TypeA ∨ t = TypeAAAA) → lib.ParseIP s = some x →
      ((∃ sw, w = .str sw) ∨ (∃ xw, w = .num xw)) →
      (∀ n, valueToInt w = .ok n →
        ∃ rr, buildRecord lib t label origin (.val (.arr [.str s, w])) = .ok ⟨some rr, n⟩) ∧
      (∀ e, valueToInt w = .error e →
        buildRecord lib t label origin (.val (.arr [.str s, w])) = .error e)) ∧
    (∀ (lib : Lib) (t : Nat) (label : Label) (origin s : String) (x : IP),
      (t = TypeA ∨ t = TypeAAAA) → lib.ParseIP s = some x →
      ∃ rr, buildRecord lib t label origin (.val (.arr [.str s])) = .ok ⟨some rr, 0⟩) ∧
    (∀ (lib : Lib) (t : Nat) (label : Label) (origin s : String) (x : IP) (w : JValue),
      (t = TypeA ∨ t = TypeAAAA) → lib.ParseIP s = some x →
      (w = .null ∨ (∃ b, w = .bool b) ∨ (∃ l, w = .arr l) ∨ (∃ o, w = .obj o)) →
      valueToInt w = .error .cantConvert ∧
      ∃ rr, buildRecord lib t label origin (.val (.arr [.str s, w])) = .ok ⟨some rr, 0⟩) ∧
    buildRecord demoLib TypeA nsLabel "example.com"
        (.val (.arr [.str "192.0.2.1", .bool true])) =
      .ok ⟨some (RR.A (recordHeader TypeA nsLabel "example.com") [192, 0, 2, 1]), 0⟩ ∧
    (readZoneFile demoLib "example.com" boolWeightFile).2 = none := by
  refine ⟨?_, ?_, ?_, rfl, rfl⟩
  · intro lib t label origin s x w ht hx hw
    rcases hw with ⟨sw, rfl⟩ | ⟨xw, rfl⟩
    · refine ⟨?_, ?_⟩
      · intro n hn
        simp only [valueToInt] at hn
        cases ha : Atoi sw with
        | none => rw [ha] at hn; cases hn
        | some i =>
          rw [ha] at hn
          simp only [Except.ok.injEq] at hn
          subst hn
          simp [buildRecord, ht, buildAddress, addressWeight, ha, hx]
      · intro e he
        simp only [valueToInt] at he
        cases ha : Atoi sw with
        | none =>
          rw [ha] at he
          simp only [Except.error.injEq] at he
          subst he
          simp [buildRecord, ht, buildAddress, addressWeight, ha]
        | some i => rw [ha] at he; cases he
    · refine ⟨?_, ?_⟩
      · intro n hn
        simp only [valueToInt, Except.ok.injEq] at hn
        subst hn
        simp [buildRecord, ht, buildAddress, addressWeight, hx]
      · intro e he
        simp [valueToInt] at he
  · intro lib t label origin s x ht hx
    simp [buildRecord, ht, buildAddress, addressWeight, hx]
  · intro lib t label origin s x w ht hx hw
    rcases hw with rfl | ⟨b, rfl⟩ | ⟨l, rfl⟩ | ⟨o, rfl⟩ <;>
      exact ⟨rfl, by simp [buildRecord, ht, buildAddress, addressWeight, hx]⟩

/-! ## Insertion order (C16) -/

theorem Forall₂_getElem? {α β : Type} {R : α → β → Prop} {l1 : List α} {l2 : List β}
    (h : List.Forall₂ R l1 l2) :
    ∀ (i : Nat) (a : α) (b : β), l1[i]? = some a → l2[i]? = some b → R a b := by
  induction h with
  | nil => intro i a b ha; simp at ha
  | cons hab _ ih =>
    intro i a b ha hb
    cases i with
    | zero =>
      simp only [List.getElem?_cons_zero, Option.some.injEq] at ha hb
      subst ha hb
      exact hab
    | succ j =>
      simp only [List.getElem?_cons_succ] at ha hb
      exact ih j a b ha hb

/-- C16. In a zone that `setupZoneData` compiled without a panic, for every label
and record kind whose accumulated weight is 0, the compiled sequence has one
record for each raw entry, and for every index `i` the `i`-th compiled record is
the record built from the `i`-th raw entry. -/
theorem setupZoneData_insertion_order (lib : Lib)
    (data : List (String × JValue)) (zone zone1 : Zone)
    (h0 : ∀ k, zone.Labels k = none)
    (h : setupZoneData lib data zone = (zone1, none))
    (k : String) (label : Label) (hk : zone1.Labels k = some label)
    (rType : String) (t : Nat) (hrt : (rType, t) ∈ recordTypes)
    (hw : label.Weight t = 0) (rs : Records) (hrs : label.Records t = some rs) :
    ∃ dv rdata entries,
      (k, JValue.obj dv) ∈ data ∧ dv.lookup rType = some rdata ∧
      rawRecords rdata = .ok entries ∧ rs.length = entries.length ∧
      ∀ (i : Nat) (e : RawEntry) (r : Record), entries[i]? = some e → rs[i]? = some r →
        buildRecord lib t label zone.Origin e = .ok r := by
  rcases setupZoneData_ok lib data zone zone1 h0 h k label hk with
    ⟨dv, hmem, _, _, _, hkinds, _⟩ | ⟨_, hfresh⟩
  · rcases hkinds _ hrt with ⟨_, hnone, _⟩ | ⟨rdata, entries, built, h1, h2, h3, h4, h5⟩
    · simp only at hnone
      rw [hnone] at hrs
      cases hrs
    · simp only at h1 h3 h4 h5
      have hz : ¬ weightSum 0 built > 0 := by
        rw [← h4, hw]
        decide
      rw [if_neg hz, hrs] at h5
      simp only [Option.some.injEq] at h5
      subst h5
      exact ⟨dv, rdata, entries, hmem, h1, h2, h3.length_eq.symm, Forall₂_getElem? h3⟩
  · have hin : t ∈ recordTypes.map Prod.snd := List.mem_map_of_mem Prod.snd hrt
    have hne : t ≠ TypeSOA := by
      intro heq
      rw [heq] at hin
      revert hin
      decide
    rw [(hfresh t).2 hne] at hrs
    cases hrs

set_option maxRecDepth 100000 in
/-- C16 at the root label of `nsData`, whose two NS records have the weight 0: the
compiled sequence keeps the order `ns2`, `ns1` of the raw entries. -/
theorem setupZoneData_insertion_order_witness :
    nsLabel.Weight TypeNS = 0 ∧
    nsLabel.Records TypeNS = some
      [⟨some (RR.NS ⟨".example.com.", 2, 1, 86400⟩ "ns2.example.com."), 0⟩,
       ⟨some (RR.NS ⟨".example.com.", 2, 1, 86400⟩ "ns1.example.com."), 0⟩] ∧
    ∃ dv rdata entries,
      ("", JValue.obj dv) ∈ nsData ∧ dv.lookup "ns" = some rdata ∧
      rawRecords rdata = .ok entries ∧ 2 = entries.length ∧
      ∀ (i : Nat) (e : RawEntry) (r : Record), entries[i]? = some e →
        [(⟨some (RR.NS ⟨".example.com.", 2, 1, 86400⟩ "ns2.example.com."), 0⟩ : Record),
         ⟨some (RR.NS ⟨".example.com.", 2, 1, 86400⟩ "ns1.example.com."), 0⟩][i]? = some r →
        buildRecord demoLib TypeNS nsLabel "example.com" e = .ok r :=
  ⟨rfl, rfl,
   setupZoneData_insertion_order demoLib nsData (newZone demoLib "example.com") nsZone
     (fun _ => rfl) rfl "" nsLabel rfl "ns" TypeNS (by decide) rfl _ rfl⟩

/-! ## A zone file without `data` (C18) -/

theorem readOptions_no_data :
    ∀ (objmap : List (String × JValue)) (zone zone1 : Zone) (data0 data : List (String × JValue)),
      (∀ kv ∈ objmap, kv.1 ≠ "data") →
      readOptions objmap zone data0 = (zone1, .ok data) → data = data0 := by
  intro objmap
  induction objmap with
  | nil =>
    intro zone zone1 data0 data _ h
    simp only [readOptions, Prod.mk.injEq, Except.ok.injEq] at h
    exact h.2.symm
  | cons kv rest ih =>
    intro zone zone1 data0 data hno h
    obtain ⟨k, v⟩ := kv
    have hk : k ≠ "data" := hno (k, v) (List.mem_cons_self _ _)
    have hrest : ∀ kv ∈ rest, kv.1 ≠ "data" := fun kv hkv => hno kv (List.mem_cons_of_mem _ hkv)
    have step : ∀ (z : Zone), readOptions rest z data0 = (zone1, .ok data) → data = data0 :=
      fun z hz => ih z zone1 data0 data hrest hz
    cases v <;> simp only [readOptions, valueToInt, hk, if_false] at h <;> split_ifs at h <;>
      first
        | exact step _ h
        | (simp only [Prod.mk.injEq] at h; exact absurd h.2 (by simp))
        | (split at h <;> first
            | exact step _ h
            | (simp only [Prod.mk.injEq] at h; exact absurd h.2 (by simp)))

/-- C18 (amended). A top-level JSON mapping without a `data` key does not make the
compilation fail: when its options are coerced and `dns.NewRR` parses the SOA
text, `readZoneFile` returns a zone without an error, whose only label is the
root label, which holds the synthesized SOA record, with the default primary
nameserver `ns`, and nothing else. -/
theorem no_data_compiles (lib : Lib) (zoneName : String)
    (objmap data : List (String × JValue)) (zone1 : Zone) (rr : RR)
    (hno : ∀ kv ∈ objmap, kv.1 ≠ "data")
    (hopts : readOptions objmap (newZone lib zoneName) [] = (zone1, .ok data))
    (hrr : lib.NewRR (soaText zoneName "ns" zone1.Options.Contact zone1.Options.Serial
      zone1.Options.Ttl) = some rr) :
    ∃ zone label, readZoneFile lib zoneName (.object objmap) = (some zone, none) ∧
      zone.Labels "" = some label ∧
      label.Records TypeSOA = some [⟨some rr, 0⟩] ∧
      (∀ t, t ≠ TypeSOA → label.Records t = none) ∧
      ∀ k, k ≠ "" → zone.Labels k = none := by
  have hdata : data = [] := readOptions_no_data objmap _ zone1 [] data hno hopts
  subst hdata
  obtain ⟨horig, hlabels⟩ := readOptions_frame objmap _ zone1 [] _ hopts
  have hroot : zone1.Labels "" = none := by rw [hlabels]; rfl
  have horig' : zone1.Origin = zoneName := horig
  have hsoa : setupSOA lib zone1 =
      (storeLabel (AddLabel zone1 "").1 ""
        (Label.mk "" zone1.Options.MaxHosts zone1.Options.Ttl
          (Function.update (fun _ => none) TypeSOA (some [⟨some rr, 0⟩])) (fun _ => 0)), none) := by
    simp only [setupSOA, hroot, AddLabel, primaryNs, horig', hrr]
  have hread : readZoneFile lib zoneName (.object objmap) =
      (some (storeLabel (AddLabel zone1 "").1 ""
        (Label.mk "" zone1.Options.MaxHosts zone1.Options.Ttl
          (Function.update (fun _ => none) TypeSOA (some [⟨some rr, 0⟩])) (fun _ => 0))),
        none) := by
    simp only [readZoneFile, hopts, setupZoneData, setupLabels, hsoa]
  refine ⟨_, Label.mk "" zone1.Options.MaxHosts zone1.Options.Ttl
    (Function.update (fun _ => none) TypeSOA (some [⟨some rr, 0⟩])) (fun _ => 0),
    hread, ?_, ?_, ?_, ?_⟩
  · simp [storeLabel]
  · simp
  · intro t ht
    simp [Function.update_noteq ht]
  · intro k hk
    simp [storeLabel, AddLabel, Function.update_noteq hk, hlabels, newZone, emptyZone]

set_option maxRecDepth 100000 in
/-- C18 (amended) at the zone file `noDataFile`: it compiles to a zone with the
root label and its SOA record. -/
theorem no_data_compiles_witness :
    ∃ zone label, readZoneFile demoLib "example.com" noDataFile = (some zone, none) ∧
      zone.Labels "" = some label ∧
      label.Records TypeSOA = some [⟨some (RR.SOA ⟨"example.com.", 6, 1, 3600⟩ "ns"
        "support.bitnames.com" 7 5400 5400 2419200 300), 0⟩] ∧
      (∀ t, t ≠ TypeSOA → label.Records t = none) ∧
      ∀ k, k ≠ "" → zone.Labels k = none :=
  no_data_compiles demoLib "example.com" [("ttl", jnum 300), ("serial", jnum 7)] []
    (readOptions [("ttl", jnum 300), ("serial", jnum 7)] (newZone demoLib "example.com") []).1
    (RR.SOA ⟨"example.com.", 6, 1, 3600⟩ "ns" "support.bitnames.com" 7 5400 5400 2419200 300)
    (by decide) rfl rfl

set_option maxRecDepth 100000 in
/-- C18, as stated, fails: the zone file `noDataFile` and the empty mapping have no
`data` key, and `readZoneFile` returns a zone for each, without an error. -/
theorem no_data_no_error :
    (readZoneFile demoLib "example.com" noDataFile).2 = none ∧
    (readZoneFile demoLib "example.com" noDataFile).1.isSome = true ∧
    (readZoneFile demoLib "example.com" (.object [])).2 = none ∧
    (readZoneFile demoLib "example.com" (.object [])).1.isSome = true :=
  ⟨rfl, rfl, rfl, rfl⟩

/-! ## Weight sums (C19) -/

theorem wrapInt_inIntRange (x : Int) : inIntRange (wrapInt x) := by
  unfold inIntRange wrapInt
  constructor <;> omega

theorem wrapInt_add_wrapInt (a b : Int) : wrapInt (wrapInt a + b) = wrapInt (a + b) := by
  unfold wrapInt
  omega

/-- The accumulated weight is the exact sum of the weights, reduced to an `int`. -/
theorem weightSum_eq (rs : Records) :
    ∀ start : Int, inIntRange start →
      weightSum start rs = wrapInt (start + (rs.map (fun r => r.Weight)).sum) := by
  unfold weightSum
  induction rs with
  | nil =>
    intro start hs
    simp [wrapInt_of_inIntRange start hs]
  | cons r rest ih =>
    intro start _
    rw [List.foldl_cons, ih _ (wrapInt_inIntRange _), wrapInt_add_wrapInt]
    simp only [List.map_cons, List.sum_cons]
    rw [add_assoc]

/-- The kinds that the loop over `recordTypes` does not visit: in a compiled zone
their weight is 0, and they hold no records, but for the one SOA record of the
root label, whose weight is 0. -/
theorem setupZoneData_other_kinds (lib : Lib) (data : List (String × JValue))
    (zone zone1 : Zone) (h0 : ∀ k, zone.Labels k = none)
    (h : setupZoneData lib data zone = (zone1, none))
    (k : String) (label : Label) (hk : zone1.Labels k = some label)
    (t : Nat) (ht : t ∉ recordTypes.map Prod.snd) :
    label.Weight t = 0 ∧
      (label.Records t = none ∨ ∃ rr, label.Records t = some [⟨some rr, 0⟩]) := by
  unfold setupZoneData at h
  cases hs : setupLabels lib data zone with
  | mk zone2 err =>
    rw [hs] at h
    cases err with
    | some e => simp at h
    | none =>
      simp only at h
      obtain ⟨_, _, _, _, hall⟩ := setupLabels_ok lib data zone zone2 hs
      obtain ⟨label0, ns, rr, hroot, _, _, hlabels, _, _, _, _⟩ := setupSOA_ok lib zone2 zone1 h
      have hold : ∀ l : Label, zone2.Labels k = some l →
          l.Weight t = 0 ∧ l.Records t = none := by
        intro l hl
        rcases hall k l hl with hz | ⟨dv, _, ⟨_, _, _, _, hw⟩, hn⟩
        · rw [h0] at hz; cases hz
        · exact ⟨hw t ht, hn t ht⟩
      rw [hlabels] at hk
      by_cases hkr : k = ""
      · subst hkr
        rw [Function.update_same] at hk
        simp only [Option.some.injEq] at hk
        subst hk
        have h0l : label0.Weight t = 0 ∧ label0.Records t = none := by
          rcases hroot with hfound | ⟨_, hfresh⟩
          · exact hold label0 hfound
          · subst hfresh
            exact ⟨rfl, rfl⟩
        refine ⟨h0l.1, ?_⟩
        by_cases hsoa : t = TypeSOA
        · right
          subst hsoa
          exact ⟨rr, by simp⟩
        · left
          simp [Function.update_noteq hsoa, h0l.2]
      · rw [Function.update_noteq hkr] at hk
        obtain ⟨h1, h2⟩ := hold label hk
        exact ⟨h1, Or.inl h2⟩

/-- C19 (amended). In a zone that `setupZoneData` compiled without a panic, for
every label and record kind, the label's weight sum for the kind is the sum of
the weights of the records of the kind's compiled sequence reduced to a 64-bit
`int`; it equals that sum whenever the sum lies within the range of `int`, and is
0 for a kind with no records. -/
theorem weight_sum (lib : Lib) (hsort : lib.SortOk)
    (data : List (String × JValue)) (zone zone1 : Zone)
    (h0 : ∀ k, zone.Labels k = none)
    (h : setupZoneData lib data zone = (zone1, none))
    (k : String) (label : Label) (hk : zone1.Labels k = some label) (t : Nat) :
    label.Weight t = wrapInt (recordsWeight (label.Records t)) ∧
    (inIntRange (recordsWeight (label.Records t)) →
      label.Weight t = recordsWeight (label.Records t)) ∧
    ((label.Records t).getD [] = [] → label.Weight t = 0) := by
  have key : label.Weight t = wrapInt (recordsWeight (label.Records t)) := by
    by_cases ht : t ∈ recordTypes.map Prod.snd
    · rcases setupZoneData_ok lib data zone zone1 h0 h k label hk with
        ⟨dv, _, _, _, _, hkinds, _⟩ | ⟨_, hfresh⟩
      · obtain ⟨rt, hrt, hrt2⟩ := List.mem_map.1 ht
        subst hrt2
        rcases hkinds rt hrt with ⟨_, hnone, hz⟩ | ⟨_, _, built, _, _, _, h4, h5⟩
        · rw [hnone, hz]
          rfl
        · rw [h4, h5, weightSum_eq built 0 (by decide), zero_add]
          congr 1
          unfold recordsWeight
          simp only [Option.getD_some]
          split
          · exact ((hsort built).1.map _).sum_eq.symm
          · rfl
      · have hne : t ≠ TypeSOA := by
          intro heq
          rw [heq] at ht
          revert ht
          decide
        rw [(hfresh t).1, (hfresh t).2 hne]
        rfl
    · obtain ⟨hw, hr⟩ := setupZoneData_other_kinds lib data zone zone1 h0 h k label hk t ht
      rw [hw]
      rcases hr with hr | ⟨rr, hr⟩
      · rw [hr]; rfl
      · rw [hr]; rfl
  refine ⟨key, ?_, ?_⟩
  · intro hr
    rw [key, wrapInt_of_inIntRange _ hr]
  · intro he
    rw [key]
    unfold recordsWeight
    rw [he]
    rfl

set_option maxRecDepth 100000 in
/-- C19 (amended) at the label `www` of `weightedData`, with the weights 5, 0 and
10: the weight sum of the A kind is 15, the sum of the weights of its records. -/
theorem weight_sum_witness :
    weightedLabel.Weight TypeA = recordsWeight (weightedLabel.Records TypeA) ∧
    recordsWeight (weightedLabel.Records TypeA) = 15 :=
  ⟨(weight_sum demoLib demoLib_SortOk weightedData (newZone demoLib "example.com")
      weightedZone (fun _ => rfl) rfl "www" weightedLabel rfl TypeA).2.1 (by decide),
   by decide⟩

set_option maxRecDepth 100000 in
/-- C19, as stated, fails: the zone file `heavyFile` compiles, the two A records of
its label `www` have the weight 2^62 each, their sum is 2^63, and the weight sum
that the label holds for the A kind is -2^63. -/
theorem weight_sum_overflows :
    (readZoneFile demoLib "example.com" heavyFile).2 = none ∧
    (heavyLabel.Records TypeA).map (fun rs => rs.map (fun r => r.Weight)) =
      some [4611686018427387904, 4611686018427387904] ∧
    recordsWeight (heavyLabel.Records TypeA) = 9223372036854775808 ∧
    heavyLabel.Weight TypeA = -9223372036854775808 :=
  ⟨rfl, rfl, by decide, by decide⟩

/-! ## The sign of weights (C20) -/

theorem Atoi_nonneg (s : String) (i : Int) (h : Atoi s = some i)
    (hs : s.data.head? ≠ some '-') : 0 ≤ i := by
  unfold Atoi at h
  cases hd : s.data with
  | nil => rw [hd] at h; cases h
  | cons c cs =>
    rw [hd] at h hs
    have hc : c ≠ '-' := by
      intro heq
      apply hs
      rw [heq]
      rfl
    simp only [hc, false_or, if_false] at h
    generalize (if c = '+' then cs else c :: cs) = ds at h
    cases ds with
    | nil => cases h
    | cons d ds' =>
      simp only at h
      cases hp : parseDigits (d :: ds') 0 with
      | none => rw [hp] at h; cases h
      | some n =>
        rw [hp] at h
        simp only at h
        split at h
        · simp only [Option.some.injEq] at h
          rw [← h]
          exact Int.ofNat_nonneg n
        · cases h

theorem Float64.toInt_nonneg (x : Float64) (h0 : 0 ≤ x.toRat) (h1 : x.toRat < 2 ^ 63) :
    0 ≤ x.toInt := by
  have ht : x.trunc = ⌊x.toRat⌋ := by
    rw [Float64.trunc_eq]
    unfold truncTowardZero
    rw [if_pos h0]
  have hlo : 0 ≤ x.trunc := by
    rw [ht]
    exact Int.floor_nonneg.2 h0
  have hhi : x.trunc < 2 ^ 63 := by
    rw [ht, Int.floor_lt]
    exact_mod_cast h1
  have hr : inIntRange x.trunc := ⟨by omega, hhi⟩
  unfold Float64.toInt
  rw [if_pos hr]
  exact hlo

theorem valueToInt_nonneg (v : JValue) (n : Int) (h : valueToInt v = .ok n)
    (hv : writesNoNegative v) : 0 ≤ n := by
  cases v with
  | str s =>
    simp only [valueToInt] at h
    cases ha : Atoi s with
    | none => rw [ha] at h; cases h
    | some i =>
      rw [ha] at h
      simp only [Except.ok.injEq] at h
      subst h
      exact Atoi_nonneg s i ha hv
  | num x =>
    simp only [valueToInt, Except.ok.injEq] at h
    subst h
    exact Float64.toInt_nonneg x hv.2.1 hv.2.2
  | null => cases h
  | bool b => cases h
  | arr xs => cases h
  | obj kvs => cases h

/-- A record built from an entry that writes no negative weight has no negative
weight. -/
theorem buildRecord_nonneg (lib : Lib) (rType : String) (t : Nat)
    (hrt : (rType, t) ∈ recordTypes) (label : Label) (origin : String) (e : RawEntry)
    (r : Record) (h : buildRecord lib t label origin e = .ok r)
    (he : ∀ w, entryWeight e = some w → writesNoNegative w) : 0 ≤ r.Weight := by
  have hkinds : t = TypeA ∨ t = TypeAAAA ∨ t = TypeNS ∨ t = TypeCNAME ∨ t = TypeMX ∨
      t = TypeMF := by
    have := List.mem_map_of_mem Prod.snd hrt
    simpa [recordTypes] using this
  have haddr : ∀ t', (t' = TypeA ∨ t' = TypeAAAA) →
      buildAddress lib t' (recordHeader t' label origin) e = .ok r → 0 ≤ r.Weight := by
    intro t' _ hb
    unfold buildAddress at hb
    split at hb
    · rename_i ip rest
      cases hw : addressWeight rest with
      | error err => rw [hw] at hb; cases hb
      | ok weight =>
        rw [hw] at hb
        simp only at hb
        cases hp : lib.ParseIP ip with
        | none => rw [hp] at hb; cases hb
        | some x =>
          rw [hp] at hb
          simp only [Except.ok.injEq] at hb
          rw [← hb]
          show 0 ≤ weight
          cases rest with
          | nil =>
            simp only [addressWeight, Except.ok.injEq] at hw
            omega
          | cons w more =>
            have hwn : writesNoNegative w := he w rfl
            cases w with
            | str sw =>
              have : valueToInt (.str sw) = .ok weight := by
                simp only [addressWeight] at hw
                simp only [valueToInt]
                exact hw
              exact valueToInt_nonneg _ _ this hwn
            | num xw =>
              simp only [addressWeight, Except.ok.injEq] at hw
              rw [← hw]
              exact Float64.toInt_nonneg xw hwn.2.1 hwn.2.2
            | null => simp only [addressWeight, Except.ok.injEq] at hw; omega
            | bool b => simp only [addressWeight, Except.ok.injEq] at hw; omega
            | arr xs => simp only [addressWeight, Except.ok.injEq] at hw; omega
            | obj kvs => simp only [addressWeight, Except.ok.injEq] at hw; omega
    · cases hb
    · cases hb
  rcases hkinds with rfl | rfl | rfl | rfl | rfl | rfl
  · have hb : buildRecord lib TypeA label origin e =
        buildAddress lib TypeA (recordHeader TypeA label origin) e := by simp [buildRecord]
    rw [hb] at h
    exact haddr TypeA (Or.inl rfl) h
  · have hb : buildRecord lib TypeAAAA label origin e =
        buildAddress lib TypeAAAA (recordHeader TypeAAAA label origin) e := by
      simp [buildRecord]
    rw [hb] at h
    exact haddr TypeAAAA (Or.inr rfl) h
  · rw [(buildRecord_ns lib label origin e r h).1]
  · have hb : buildRecord lib TypeCNAME label origin e =
        buildCNAME origin (recordHeader TypeCNAME label origin) e := by simp [buildRecord]
    rw [hb] at h
    unfold buildCNAME at h
    split at h
    · simp only [Except.ok.injEq] at h
      rw [← h]
    · cases h
  · have hb : buildRecord lib TypeMX label origin e =
        buildMX (recordHeader TypeMX label origin) e := by simp [buildRecord]
    rw [hb] at h
    unfold buildMX at h
    split at h
    · rename_i rec
      split at h
      · cases hw : optionalInt rec "weight" with
        | error err => rw [hw] at h; cases h
        | ok weight =>
          rw [hw] at h
          simp only at h
          cases hp : optionalInt rec "preference" with
          | error err => rw [hp] at h; cases h
          | ok pref =>
            rw [hp] at h
            simp only [Except.ok.injEq] at h
            rw [← h]
            show 0 ≤ weight
            unfold optionalInt at hw
            cases hl : rec.lookup "weight" with
            | none =>
              rw [hl] at hw
              simp only [Except.ok.injEq] at hw
              omega
            | some v =>
              rw [hl] at hw
              have hvn : writesNoNegative v := he v hl
              cases v with
              | null => simp only [Except.ok.injEq] at hw; omega
              | str s => exact valueToInt_nonneg _ _ hw hvn
              | num x => exact valueToInt_nonneg _ _ hw hvn
              | bool b => cases hw
              | arr xs => cases hw
              | obj kvs => cases hw
      · cases h
    · cases h
  · have hb : buildRecord lib TypeMF label origin e =
        buildMF (recordHeader TypeMF label origin) e := by simp [buildRecord]
    rw [hb] at h
    unfold buildMF at h
    split at h
    · simp only [Except.ok.injEq] at h
      rw [← h]
    · cases h

/-- C20 (amended). In a zone that `setupZoneData` compiled without a panic, every
record of every label and kind has a weight that is not negative, provided the
decoded document writes no negative weight: every weight of a raw entry is a
float64 that is at least 0 and less than `2 ^ 63`, a string without a minus sign,
or absent. -/
theorem weights_nonneg (lib : Lib) (hsort : lib.SortOk)
    (data : List (String × JValue)) (zone zone1 : Zone)
    (h0 : ∀ k, zone.Labels k = none)
    (h : setupZoneData lib data zone = (zone1, none))
    (hdoc : ∀ dk dv rType rdata entries e w, (dk, JValue.obj dv) ∈ data →
      dv.lookup rType = some rdata → rawRecords rdata = .ok entries → e ∈ entries →
      entryWeight e = some w → writesNoNegative w)
    (k : String) (label : Label) (hk : zone1.Labels k = some label)
    (t : Nat) (rs : Records) (hrs : label.Records t = some rs)
    (r : Record) (hr : r ∈ rs) : 0 ≤ r.Weight := by
  by_cases ht : t ∈ recordTypes.map Prod.snd
  · rcases setupZoneData_ok lib data zone zone1 h0 h k label hk with
      ⟨dv, hmem, _, _, _, hkinds, _⟩ | ⟨_, hfresh⟩
    · obtain ⟨rt, hrt, hrt2⟩ := List.mem_map.1 ht
      subst hrt2
      rcases hkinds rt hrt with ⟨_, hnone, _⟩ | ⟨rdata, entries, built, h1, h2, h3, _, h5⟩
      · rw [hnone] at hrs
        cases hrs
      · rw [hrs] at h5
        simp only [Option.some.injEq] at h5
        have hrb : r ∈ built := by
          rw [h5] at hr
          split at hr
          · exact (hsort built).1.mem_iff.1 hr
          · exact hr
        obtain ⟨e, hein, he⟩ := Forall₂_mem_right h3 hrb
        exact buildRecord_nonneg lib rt.1 rt.2 hrt label zone.Origin e r he
          (fun w hw => hdoc k dv rt.1 rdata entries e w hmem h1 h2 hein hw)
    · have hne : t ≠ TypeSOA := by
        intro heq
        rw [heq] at ht
        revert ht
        decide
      rw [(hfresh t).2 hne] at hrs
      cases hrs
  · obtain ⟨_, hrec⟩ := setupZoneData_other_kinds lib data zone zone1 h0 h k label hk t ht
    rcases hrec with hn | ⟨rr, hsoa⟩
    · rw [hn] at hrs
      cases hrs
    · rw [hsoa] at hrs
      simp only [Option.some.injEq] at hrs
      rw [← hrs] at hr
      simp only [List.mem_singleton] at hr
      rw [hr]

set_option maxRecDepth 100000 in
/-- C20 (amended) at `weightedData`, whose weights are 5, 0 and 10: the first
compiled record of the label `www` has a weight that is not negative. -/
theorem weights_nonneg_witness :
    0 ≤ (⟨some (RR.A ⟨"www.example.com.", 1, 1, 120⟩ [192, 0, 2, 3]), 10⟩ : Record).Weight ∧
    weightedLabel.Records TypeA = some
      [⟨some (RR.A ⟨"www.example.com.", 1, 1, 120⟩ [192, 0, 2, 3]), 10⟩,
       ⟨some (RR.A ⟨"www.example.com.", 1, 1, 120⟩ [192, 0, 2, 1]), 5⟩,
       ⟨some (RR.A ⟨"www.example.com.", 1, 1, 120⟩ [192, 0, 2, 2]), 0⟩] :=
  ⟨weights_nonneg demoLib demoLib_SortOk weightedData (newZone demoLib "example.com")
      weightedZone (fun _ => rfl) rfl
      (by
        intro dk dv rType rdata entries e w hmem hlk hraw he hw
        simp only [weightedData, List.mem_singleton, Prod.mk.injEq, JValue.obj.injEq] at hmem
        obtain ⟨_, hdv⟩ := hmem
        subst hdv
        by_cases hr : rType = "a"
        · subst hr
          simp only [List.lookup, beq_self_eq_true, Option.some.injEq] at hlk
          subst hlk
          simp only [rawRecords, List.map, Except.ok.injEq] at hraw
          subst hraw
          simp only [List.mem_cons, List.mem_singleton, List.not_mem_nil, or_false] at he
          rcases he with rfl | rfl | rfl <;>
            (simp only [entryWeight, Option.some.injEq] at hw
             subst hw
             refine ⟨by decide, ?_, ?_⟩ <;> norm_num [jnum, Float64.toRat])
        · have : List.lookup rType [("a", JValue.arr [
              .arr [.str "192.0.2.1", jnum 5], .arr [.str "192.0.2.2", jnum 0],
              .arr [.str "192.0.2.3", jnum 10]])] = none := by
            have hbeq : (rType == "a") = false := beq_eq_false_iff_ne.2 hr
            simp [List.lookup, hbeq]
          rw [this] at hlk
          cases hlk)
      "www" weightedLabel rfl TypeA _ rfl _ (List.mem_cons_self _ _),
   rfl⟩

set_option maxRecDepth 100000 in
/-- C20, as stated, fails: the zone file `negativeFile` writes the weight -5 for an
A record; it compiles, and the record has the weight -5. A weight that is too
large fails it too: the largest `int` is not a float64, the float64 `2 ^ 63` is
outside the range of `int`, and `largestIntFile`, which has it as a weight,
compiles to a record of the weight `-2 ^ 63`. -/
theorem negative_weight_compiles :
    (readZoneFile demoLib "example.com" negativeFile).2 = none ∧
    negativeLabel.Records TypeA = some
      [⟨some (RR.A ⟨"www.example.com.", 1, 1, 120⟩ [192, 0, 2, 1]), -5⟩] ∧
    Float64.isFloat64 ⟨9223372036854775807, 0⟩ = false ∧
    Float64.isFloat64 ⟨1, 63⟩ = true ∧
    (readZoneFile demoLib "example.com" largestIntFile).2 = none ∧
    largestIntLabel.Records TypeA = some
      [⟨some (RR.A ⟨"www.example.com.", 1, 1, 120⟩ [192, 0, 2, 1]), -9223372036854775808⟩] :=
  ⟨rfl, rfl, by decide, by decide, rfl, rfl⟩

/-! ## Records of equal weight (C17) -/

/-- C17 (amended). In a zone that `setupZoneData` compiled without a panic, for
every label and record kind whose accumulated weight is greater than 0 and for
every weight `w`, the records of weight `w` in the compiled sequence are the
records of weight `w` built from the raw entries, each as often as it was built.
Their relative order is the one `sort.Sort` leaves; the contract of `sort.Sort`
does not make it the order of the raw entries. -/
theorem equal_weights_kept (lib : Lib) (hsort : lib.SortOk)
    (data : List (String × JValue)) (zone zone1 : Zone)
    (h0 : ∀ k, zone.Labels k = none)
    (h : setupZoneData lib data zone = (zone1, none))
    (k : String) (label : Label) (hk : zone1.Labels k = some label)
    (t : Nat) (hw : label.Weight t > 0) :
    ∃ dv rType rdata entries built rs,
      (k, JValue.obj dv) ∈ data ∧ (rType, t) ∈ recordTypes ∧
      dv.lookup rType = some rdata ∧ rawRecords rdata = .ok entries ∧
      List.Forall₂ (fun e r => buildRecord lib t label zone.Origin e = .ok r) entries built ∧
      label.Records t = some rs ∧
      ∀ w : Int, (rs.filter (fun r => decide (r.Weight = w))).Perm
        (built.filter (fun r => decide (r.Weight = w))) := by
  rcases setupZoneData_ok lib data zone zone1 h0 h k label hk with
    ⟨dv, hmem, _, _, _, hkinds, hother⟩ | ⟨_, hfresh⟩
  · by_cases ht : t ∈ recordTypes.map Prod.snd
    · obtain ⟨rt, hrt, hrt2⟩ := List.mem_map.1 ht
      obtain ⟨rType, t'⟩ := rt
      simp only at hrt2
      subst hrt2
      rcases hkinds _ hrt with ⟨_, _, hz⟩ | ⟨rdata, entries, built, h1, h2, h3, h4, h5⟩
      · simp only at hz
        omega
      · simp only at h1 h3 h4 h5
        have hpos : weightSum 0 built > 0 := by rw [← h4]; exact hw
        rw [if_pos hpos] at h5
        exact ⟨dv, rType, rdata, entries, built, _, hmem, hrt, h1, h2, h3, h5,
          fun w => (hsort built).1.filter _⟩
    · have := hother t ht
      omega
  · have := (hfresh t).1
    omega

set_option maxRecDepth 100000 in
/-- C17 (amended) at `weightedData`: the A records of the label `www` that have
the weight 5 are, in the compiled sequence, the one record built with that
weight. -/
theorem equal_weights_kept_witness :
    ∃ rs, weightedLabel.Records TypeA = some rs ∧
      rs.filter (fun r => decide (r.Weight = 5)) =
        [⟨some (RR.A ⟨"www.example.com.", 1, 1, 120⟩ [192, 0, 2, 1]), 5⟩] := by
  obtain ⟨_, _, _, _, _, rs, _, _, _, _, _, hrs, _⟩ :=
    equal_weights_kept demoLib demoLib_SortOk weightedData (newZone demoLib "example.com")
      weightedZone (fun _ => rfl) rfl "www" weightedLabel rfl TypeA (by decide)
  refine ⟨rs, hrs, ?_⟩
  have hval : weightedLabel.Records TypeA = some
      [⟨some (RR.A ⟨"www.example.com.", 1, 1, 120⟩ [192, 0, 2, 3]), 10⟩,
       ⟨some (RR.A ⟨"www.example.com.", 1, 1, 120⟩ [192, 0, 2, 1]), 5⟩,
       ⟨some (RR.A ⟨"www.example.com.", 1, 1, 120⟩ [192, 0, 2, 2]), 0⟩] := by rfl
  rw [hval] at hrs
  simp only [Option.some.injEq] at hrs
  subst hrs
  rfl

set_option maxRecDepth 100000 in
/-- C17, as stated, fails with the `sort.Sort` of Go 1.6 to 1.18: the zone file
`tiesFile` compiles; the records built from its first and its second raw entry
have the same weight 1; in the compiled sequence, which is in non-increasing
order of weight, the record of the first entry stands last, after the records of
the entries that followed it. -/
theorem sort_not_stable :
    (readZoneFile shortSortLib "example.com" tiesFile).2 = none ∧
    tiesLabel.Weight TypeA = 8 ∧
    buildRecord shortSortLib TypeA tiesLabel "example.com"
        (.val (.arr [.str "192.0.2.1", jnum 1])) =
      .ok ⟨some (RR.A ⟨"www.example.com.", 1, 1, 120⟩ [192, 0, 2, 1]), 1⟩ ∧
    buildRecord shortSortLib TypeA tiesLabel "example.com"
        (.val (.arr [.str "192.0.2.2", jnum 1])) =
      .ok ⟨some (RR.A ⟨"www.example.com.", 1, 1, 120⟩ [192, 0, 2, 2]), 1⟩ ∧
    tiesLabel.Records TypeA = some
      [⟨some (RR.A ⟨"www.example.com.", 1, 1, 120⟩ [192, 0, 2, 3]), 2⟩,
       ⟨some (RR.A ⟨"www.example.com.", 1, 1, 120⟩ [192, 0, 2, 2]), 1⟩,
       ⟨some (RR.A ⟨"www.example.com.", 1, 1, 120⟩ [192, 0, 2, 2]), 1⟩,
       ⟨some (RR.A ⟨"www.example.com.", 1, 1, 120⟩ [192, 0, 2, 2]), 1⟩,
       ⟨some (RR.A ⟨"www.example.com.", 1, 1, 120⟩ [192, 0, 2, 2]), 1⟩,
       ⟨some (RR.A ⟨"www.example.com.", 1, 1, 120⟩ [192, 0, 2, 2]), 1⟩,
       ⟨some (RR.A ⟨"www.example.com.", 1, 1, 120⟩ [192, 0, 2, 1]), 1⟩] :=
  ⟨rfl, rfl, rfl, rfl, rfl⟩

/-! ## The short-slice sort meets the contract of sort.Sort -/

theorem swapAt_perm (rs : Records) (i j : Nat) : (swapAt rs i j).Perm rs := by
  unfold swapAt
  cases hi : rs[i]? with
  | none => exact List.Perm.refl _
  | some a =>
    cases hj : rs[j]? with
    | none => exact List.Perm.refl _
    | some b =>
      simp only
      obtain ⟨hil, hia⟩ := List.getElem?_eq_some.1 hi
      obtain ⟨hjl, hjb⟩ := List.getElem?_eq_some.1 hj
      rw [List.perm_iff_count]
      intro c
      have hjl' : j < (rs.set i b).length := by rw [List.length_set]; exact hjl
      have hx : (rs.set i b)[j] = b := by
        rw [List.getElem_set]
        split
        · rfl
        · exact hjb
      rw [List.count_set a c (rs.set i b) j hjl', List.count_set b c rs i hil, hx, hia]
      have hbound : (if (a == c) = true then 1 else 0) ≤ rs.count c := by
        split
        · rename_i hac
          have hac' : a = c := by simpa using hac
          have hmem : c ∈ rs := by
            rw [← hac', ← hia]
            exact List.getElem_mem _
          exact List.count_pos_iff.2 hmem
        · exact Nat.zero_le _
      omega

theorem swapAt_length (rs : Records) (i j : Nat) : (swapAt rs i j).length = rs.length :=
  (swapAt_perm rs i j).length_eq

theorem shellPass_perm (steps : Nat) : ∀ (rs : Records) (i : Nat),
    (shellPass rs i steps).Perm rs := by
  induction steps with
  | zero => intro rs i; exact List.Perm.refl _
  | succ n ih =>
    intro rs i
    rw [shellPass]
    refine (ih _ _).trans ?_
    split
    · exact swapAt_perm _ _ _
    · exact List.Perm.refl _

theorem adjacent_lessAt (init post : Records) (x y : Record) :
    lessAt (init ++ y :: x :: post) (init.length + 1) init.length =
      RecordsByWeight.Less x y := by
  unfold lessAt
  have h1 : (init ++ y :: x :: post)[init.length + 1]? = some x := by
    rw [List.getElem?_append_right (by omega)]
    simp
  have h2 : (init ++ y :: x :: post)[init.length]? = some y := by
    rw [List.getElem?_append_right (by omega)]
    simp
  rw [h1, h2]

theorem adjacent_swapAt (init post : Records) (x y : Record) :
    swapAt (init ++ y :: x :: post) (init.length + 1) init.length =
      init ++ x :: y :: post := by
  unfold swapAt
  have h1 : (init ++ y :: x :: post)[init.length + 1]? = some x := by
    rw [List.getElem?_append_right (by omega)]
    simp
  have h2 : (init ++ y :: x :: post)[init.length]? = some y := by
    rw [List.getElem?_append_right (by omega)]
    simp
  rw [h1, h2]
  simp only
  rw [List.set_append_right _ _ (by omega), List.set_append_right _ _ (by omega)]
  simp

/-- The inner loop of the insertion sort puts the element behind a sorted prefix
into its place in the prefix. -/
theorem sinkLeft_sorted (pre : Records) :
    ∀ (x : Record) (post : Records), pre.Pairwise (fun a b => a.Weight ≥ b.Weight) →
      ∃ pre', sinkLeft (pre ++ x :: post) pre.length = pre' ++ post ∧
        pre'.Perm (pre ++ [x]) ∧ pre'.Pairwise (fun a b => a.Weight ≥ b.Weight) := by
  induction pre using List.reverseRecOn with
  | nil =>
    intro x post _
    exact ⟨[x], rfl, List.Perm.refl _, by simp⟩
  | append_singleton init y ih =>
    intro x post hs
    obtain ⟨hinit, _, hiy⟩ := List.pairwise_append.1 hs
    have hlen : (init ++ [y]).length = init.length + 1 := by simp
    have hrs : init ++ [y] ++ x :: post = init ++ y :: x :: post := by simp
    rw [hlen, hrs, sinkLeft, adjacent_lessAt, adjacent_swapAt]
    by_cases hless : RecordsByWeight.Less x y = true
    · rw [if_pos hless]
      obtain ⟨pre2, h1, h2, h3⟩ := ih x (y :: post) hinit
      refine ⟨pre2 ++ [y], ?_, ?_, ?_⟩
      · rw [h1]; simp
      · refine (h2.append_right [y]).trans ?_
        rw [List.append_assoc, List.append_assoc]
        exact List.Perm.append_left init (List.Perm.swap y x [])
      · rw [List.pairwise_append]
        refine ⟨h3, by simp, ?_⟩
        intro a ha b hb
        simp only [List.mem_singleton] at hb
        subst hb
        rcases List.mem_append.1 (h2.mem_iff.1 ha) with hai | hax
        · exact hiy a hai b (by simp)
        · simp only [List.mem_singleton] at hax
          subst hax
          simp only [RecordsByWeight.Less, decide_eq_true_eq] at hless
          omega
    · rw [if_neg hless]
      refine ⟨init ++ [y] ++ [x], by simp, List.Perm.refl _, ?_⟩
      rw [List.pairwise_append]
      refine ⟨hs, by simp, ?_⟩
      intro a ha b hb
      simp only [List.mem_singleton] at hb
      subst hb
      simp only [RecordsByWeight.Less, decide_eq_true_eq, not_lt] at hless
      rcases List.mem_append.1 ha with hai | hay
      · have := hiy a hai y (by simp)
        omega
      · simp only [List.mem_singleton] at hay
        subst hay
        omega

/-- The insertion sort behind a sorted prefix sorts the whole slice. -/
theorem insertionPass_sorted (rest : Records) :
    ∀ (pre : Records), pre.Pairwise (fun a b => a.Weight ≥ b.Weight) →
      (insertionPass (pre ++ rest) pre.length rest.length).Perm (pre ++ rest) ∧
      (insertionPass (pre ++ rest) pre.length rest.length).Pairwise
        (fun a b => a.Weight ≥ b.Weight) := by
  induction rest with
  | nil =>
    intro pre hs
    simp only [List.append_nil, List.length_nil, insertionPass]
    exact ⟨List.Perm.refl _, hs⟩
  | cons x rest ih =>
    intro pre hs
    obtain ⟨pre', h1, h2, h3⟩ := sinkLeft_sorted pre x rest hs
    have hl : pre'.length = pre.length + 1 := by
      rw [h2.length_eq]; simp
    simp only [List.length_cons, insertionPass]
    rw [h1, ← hl]
    obtain ⟨h4, h5⟩ := ih pre' h3
    refine ⟨h4.trans ?_, h5⟩
    refine (h2.append_right rest).trans ?_
    simp

/-- The path of `sort.Sort` for short slices returns a permutation in
non-increasing order of weight, as the contract of `sort.Sort` asks. -/
theorem shortSortLib_SortOk : shortSortLib.SortOk := by
  intro rs
  show (shortSort rs).Perm rs ∧ (shortSort rs).Pairwise _
  have hconv : ∀ l : Records, l.Pairwise (fun a b => a.Weight ≥ b.Weight) →
      l.Pairwise (fun a b => RecordsByWeight.Less b a = false) := by
    intro l hl
    refine hl.imp ?_
    intro a b hab
    simp only [RecordsByWeight.Less, decide_eq_false_iff_not, not_lt]
    exact hab
  unfold shortSort
  split
  · rename_i hlen
    have hp := shellPass_perm (rs.length - 6) rs 6
    cases hsh : shellPass rs 6 (rs.length - 6) with
    | nil =>
      rw [hsh] at hp
      have := hp.length_eq
      simp only [List.length_nil] at this
      omega
    | cons hd tl =>
      rw [hsh] at hp
      have htl : rs.length - 1 = tl.length := by
        rw [← hp.length_eq]; simp
      rw [htl]
      obtain ⟨h1, h2⟩ := insertionPass_sorted tl [hd] (by simp)
      exact ⟨h1.trans hp, hconv _ h2⟩
  · rename_i hlen
    refine ⟨List.Perm.refl _, ?_⟩
    match rs, hlen with
    | [], _ => exact List.Pairwise.nil
    | [a], _ => simp
    | a :: b :: t, hlen => simp at hlen

end GeoDNS
